import Mathlib

/-!
# flowlogs-pipeline: Prometheus encoder cache and Kubernetes informers

A shallow embedding of

* `pkg/pipeline/encode/encode_prom.go` (the metric series cache with expiry, and `Encode`),
* `pkg/pipeline/transform/kubernetes/informers/informers.go` (IP lookup and owner resolution),

followed by theorems about the embedded functions.

Conventions of the embedding.

* A Go `map[string]β` is an association list with pairwise distinct keys (`GoMap β`); the order
  of the bindings stands for the iteration order the runtime happens to pick.
* A Go pointer to a heap object is an index into an explicit arena (`heap`, `objs`).
* `int64` values are integers; arithmetic on them wraps with `wrapInt64`.
* A reading of `time.Now().Unix()` is an explicit argument `nowInSecs`.
* Calls into the Prometheus client library are recorded, in order, in a call log; a call that
  panics ends the run of the function that makes it, which then has no result (`none`).
-/

/-! ## Go runtime pieces -/

/-- Two's complement wrap-around of an integer into the `int64` range. -/
def wrapInt64 (x : Int) : Int := (x + 2 ^ 63) % 2 ^ 64 - 2 ^ 63

/-- The integer is representable as an `int64`. -/
def fitsInt64 (x : Int) : Prop := -(2 ^ 63) ≤ x ∧ x < 2 ^ 63

instance (x : Int) : Decidable (fitsInt64 x) := by
  unfold fitsInt64; infer_instance

/-- A Go `map[string]β`: bindings with pairwise distinct keys. -/
abbrev GoMap (β : Type) := List (String × β)

namespace GoMap

variable {β : Type}

/-- The comma-ok read `v, ok := m[k]`. -/
def get? : GoMap β → String → Option β
  | [], _ => none
  | (k', v) :: rest, k => if k' = k then some v else get? rest k

/-- The assignment `m[k] = v`. -/
def set : GoMap β → String → β → GoMap β
  | [], k, v => [(k, v)]
  | (k', v') :: rest, k, v => if k' = k then (k', v) :: rest else (k', v') :: set rest k v

/-- The builtin `delete(m, k)`. -/
def delete (m : GoMap β) (k : String) : GoMap β :=
  m.filter (fun kv => decide (kv.1 ≠ k))

/-- The keys of the map. -/
def keys (m : GoMap β) : List String := m.map Prod.fst

end GoMap

/-- What `fmt` prints for a `map[string]string` under `%v`: `map[k1:v1 k2:v2]`, the keys in
increasing order. -/
def sprintMap (m : GoMap String) : String :=
  "map[" ++ " ".intercalate ((m.insertionSort (fun a b => a.1 ≤ b.1)).map
    (fun kv => kv.1 ++ ":" ++ kv.2)) ++ "]"

/-- The order in which `fmt` sorts the bindings of a map, by key, is total. -/
instance keyLeTotal {β : Type} : IsTotal (String × β) (fun a b => a.1 ≤ b.1) :=
  ⟨fun a b => le_total a.1 b.1⟩

/-- The order in which `fmt` sorts the bindings of a map, by key, is transitive. -/
instance keyLeTrans {β : Type} : IsTrans (String × β) (fun a b => a.1 ≤ b.1) :=
  ⟨fun _ _ _ h1 h2 => le_trans h1 h2⟩

/-- The characters `fmt` prints for the bindings of a map after the first one: for each, a
space, the key, a colon and the value. -/
def restChars (bindings : List (String × String)) : List Char :=
  bindings.flatMap (fun kv => ' ' :: (kv.1.data ++ ':' :: kv.2.data))

/-- The characters `fmt` prints between `map[` and `]` for the bindings of a map, taken in the
order in which they are printed. -/
def bodyChars : List (String × String) → List Char
  | [] => []
  | kv :: rest => kv.1.data ++ ':' :: kv.2.data ++ restChars rest

/-- An IEEE-754 double, kept as its bit pattern (sign bit, 11 exponent bits, 52 mantissa
bits); the encoder passes such values on, and the Prometheus client compares them with zero. -/
structure float64 where
  bits : Nat
  deriving DecidableEq, Repr

/-- The Go comparison `v < 0` on a double: the sign bit is set, and the other bits are not
all zero (`v` is not the negative zero) and are at most those of an infinity (`v` is not a
NaN). -/
def float64.ltZero (v : float64) : Bool :=
  let b := v.bits % 2 ^ 64
  decide (2 ^ 63 < b) && decide (b ≤ 2 ^ 63 + 0x7FF0000000000000)

/-- A `for ... range` loop whose body may panic: the rounds `f` are run in order on the state,
and the loop panics, `none`, as soon as a round does. -/
def foldlOption {α β : Type} (f : β → α → Option β) : β → List α → Option β
  | b, [] => some b
  | b, a :: rest =>
    match f b a with
    | none => none
    | some b' => foldlOption f b' rest

/-- A pointer into an arena. -/
abbrev Ptr := Nat

namespace encode

/-! ## `encode_prom.go` -/

/-- Modelled from the spec: `api.PromEncodeOperationName` is not under `src/`; it gives the
configuration name of a metric kind, and the spec's configuration surface names the kinds
`counter`, `gauge` and `histogram`. -/
def PromEncodeOperationName (operation : String) : String :=
  if operation = "Counter" then "counter"
  else if operation = "Gauge" then "gauge"
  else if operation = "Histogram" then "histogram"
  else ""

/-- A `*prometheus.GaugeVec`, `*prometheus.CounterVec` or `*prometheus.HistogramVec`, named by
the fully qualified metric name it was created with. -/
structure Vec where
  name : String
  deriving DecidableEq, Repr

/-- One call into the Prometheus client library. -/
inductive PromCall where
  | counterAdd (vec : Vec) (labels : GoMap String) (v : float64)
  | gaugeSet (vec : Vec) (labels : GoMap String) (v : float64)
  | histObserve (vec : Vec) (labels : GoMap String) (v : float64)
  | counterDelete (vec : Vec) (labels : GoMap String)
  | gaugeDelete (vec : Vec) (labels : GoMap String)
  | histDelete (vec : Vec) (labels : GoMap String)
  deriving DecidableEq, Repr

/-- The struct `PromMetric`; a nil vector pointer is `none`. -/
structure PromMetric where
  metricType : String := ""
  promGauge : Option Vec := none
  promCounter : Option Vec := none
  promHist : Option Vec := none
  deriving DecidableEq, Repr

/-- The struct `metricInfo`. -/
structure metricInfo extends PromMetric where
  input : String
  labelNames : List String
  deriving DecidableEq, Repr

/-- The struct `entrySignature`. -/
structure entrySignature where
  Name : String
  Labels : GoMap String
  deriving DecidableEq, Repr

/-- The struct `entryInfo`. -/
structure entryInfo where
  eInfo : entrySignature
  value : float64
  deriving DecidableEq, Repr

/-- The struct `metricCacheEntry`. Its field `e`, the `*list.Element` holding the entry, is
not kept: every entry is pushed on the list once, so the element is identified with the
pointer to the entry. -/
structure metricCacheEntry extends PromMetric where
  labels : GoMap String
  timeStamp : Int
  key : String
  deriving DecidableEq, Repr

instance : Inhabited metricCacheEntry := ⟨{ labels := [], timeStamp := 0, key := "" }⟩

/-- The struct `encodeProm` (without its mutex), together with the arena `heap` of the
`metricCacheEntry` objects allocated so far, the log `prom` of the calls made into the
Prometheus client library, and the number `ticks` of clock readings `Encode` has made.
`mList` is the `container/list`, front first. -/
structure encodeProm where
  port : String
  promPrefix : String
  counters : GoMap metricInfo
  gauges : GoMap metricInfo
  histograms : GoMap metricInfo
  expiryTime : Int
  mList : List Ptr
  mCache : GoMap Ptr
  heap : List metricCacheEntry
  prom : List PromCall
  ticks : Nat
  deriving DecidableEq, Repr

/-- The entry a `*metricCacheEntry` points to. -/
def deref (heap : List metricCacheEntry) (p : Ptr) : metricCacheEntry := heap.getD p default

/-- An assignment through a `*metricCacheEntry`. -/
def modifyAt (heap : List metricCacheEntry) (p : Ptr)
    (f : metricCacheEntry → metricCacheEntry) : List metricCacheEntry :=
  heap.set p (f (deref heap p))

/-- The method `(*list.List).MoveToBack`: nothing happens when the element is not in the
list. -/
def MoveToBack (l : List Ptr) (p : Ptr) : List Ptr :=
  if p ∈ l then l.erase p ++ [p] else l

/-- The function `generateCacheKey`: `fmt.Sprintf("%s%v", sig.Name, sig.Labels)`. -/
def generateCacheKey (sig : entrySignature) : String :=
  sig.Name ++ sprintMap sig.Labels

/-- The method `saveEntryInCache`; `nowInSecs` is the reading of `time.Now().Unix()`. It
returns the new state and the pointer `cEntry`. -/
def saveEntryInCache (e : encodeProm) (nowInSecs : Int) (entry : entryInfo)
    (entryLabels : GoMap String) : encodeProm × Ptr :=
  let eInfoString := generateCacheKey entry.eInfo
  match e.mCache.get? eInfoString with
  | some cEntry =>
    ({ e with
        heap := modifyAt e.heap cEntry (fun c => { c with timeStamp := nowInSecs })
        mList := MoveToBack e.mList cEntry }, cEntry)
  | none =>
    let cEntry := e.heap.length
    ({ e with
        heap := e.heap ++ [{ labels := entryLabels, timeStamp := nowInSecs, key := eInfoString }]
        mList := e.mList ++ [cEntry]
        mCache := e.mCache.set eInfoString cEntry }, cEntry)

/-- The `switch c.PromMetric.metricType` of `cleanupExpiredEntries`: the `Delete` call made for
an expiring entry, if any. A `Delete` through a nil vector pointer is a run-time panic,
`none`. -/
def deleteCalls (c : metricCacheEntry) : Option (List PromCall) :=
  if c.metricType = PromEncodeOperationName "Gauge" then
    c.promGauge.map (fun v => [PromCall.gaugeDelete v c.labels])
  else if c.metricType = PromEncodeOperationName "Counter" then
    c.promCounter.map (fun v => [PromCall.counterDelete v c.labels])
  else if c.metricType = PromEncodeOperationName "Histogram" then
    c.promHist.map (fun v => [PromCall.histDelete v c.labels])
  else some []

/-- The state after the loop of `cleanupExpiredEntries` has cleaned up the front entry `c`,
at `entry`: the `Delete` calls `calls` are made, `delete(e.mCache, c.key)` and
`e.mList.Remove(entry)`, which leaves the tail `rest` of the list. -/
def expireFront (e : encodeProm) (entry : Ptr) (calls : List PromCall) (rest : List Ptr) :
    encodeProm :=
  { e with
    prom := e.prom ++ calls
    mCache := e.mCache.delete (deref e.heap entry).key
    mList := rest }

/-- The `for` loop of `cleanupExpiredEntries`. The list argument is `e.mList`, whose front the
loop reads at every round; removing the front element leaves the tail. The result is `none`
when the loop panics. -/
def cleanupLoop (expireTime : Int) : List Ptr → encodeProm → Option encodeProm
  | [], e => some e
  | entry :: rest, e =>
    let c := deref e.heap entry
    if c.timeStamp > expireTime then some e
    else
      match deleteCalls c with
      | none => none
      | some calls =>
        cleanupLoop expireTime rest (expireFront e entry calls rest)

/-- The method `cleanupExpiredEntries`; `nowInSecs` is the reading of `time.Now().Unix()`. -/
def cleanupExpiredEntries (e : encodeProm) (nowInSecs : Int) : Option encodeProm :=
  let expireTime := wrapInt64 (nowInSecs - e.expiryTime)
  cleanupLoop expireTime e.mList e

/-- The value `w` built at the end of `NewEncodeProm`: an empty list and an empty cache. -/
def emptyEncodeProm (port promPrefix : String) (counters gauges histograms : GoMap metricInfo)
    (expiryTime : Int) : encodeProm :=
  { port := port, promPrefix := promPrefix, counters := counters, gauges := gauges,
    histograms := histograms, expiryTime := expiryTime, mList := [], mCache := [],
    heap := [], prom := [], ticks := 0 }

/-- What the encoder uses of the Go standard library on a record value of type
`interface{}`: the nil interface, `fmt.Sprintf("%v", v)`, and `strconv.ParseFloat(s, 64)`
(`none` when it returns an error). -/
structure GoLib (V : Type) where
  nilValue : V
  sprintv : V → String
  ParseFloat : String → Option float64

variable {V : Type}

/-- The read `metric[t]` of a `config.GenericMap`: the nil interface when `t` is missing. -/
def index (lib : GoLib V) (metric : GoMap V) (t : String) : V :=
  (metric.get? t).getD lib.nilValue

/-- The loop that fills `entryLabels`: `entryLabels[t] = fmt.Sprintf("%v", metric[t])` for
every `t` of `labelNames`. -/
def buildLabels (lib : GoLib V) (metric : GoMap V) (labelNames : List String) : GoMap String :=
  labelNames.foldl (fun entryLabels t => entryLabels.set t (lib.sprintv (index lib metric t))) []

/-- One round of the `for ... range e.counters` loop of `EncodeCounter`, on the pair of the
state and the slice `out`; `clock n` is the `n`-th reading of `time.Now().Unix()`. The result
is `none` when the round panics: the method `Add` of a Prometheus counter panics (`counter
cannot decrease in value`) when its argument is `< 0`. `With(entryLabels)` is taken to return
the child of the vector for these labels: `NewEncodeProm` creates the vector of a descriptor
with the descriptor's `labelNames`, which are the keys of `entryLabels`. -/
def encodeCounterBody (lib : GoLib V) (clock : Nat → Int) (metric : GoMap V)
    (acc : encodeProm × List entryInfo) (kv : String × metricInfo) :
    Option (encodeProm × List entryInfo) :=
  let counterName := kv.1
  let counterInfo := kv.2
  match metric.get? counterInfo.input with
  | none => some acc
  | some counterValue =>
    let counterValueString := lib.sprintv counterValue
    match lib.ParseFloat counterValueString with
    | none => some acc
    | some valueFloat =>
      let entryLabels := buildLabels lib metric counterInfo.labelNames
      let entry : entryInfo :=
        { eInfo := { Name := acc.1.promPrefix ++ counterName, Labels := entryLabels }
          value := valueFloat }
      let added : Option encodeProm :=
        match counterInfo.promCounter with
        | some vec =>
          if valueFloat.ltZero then none
          else some { acc.1 with
                      prom := acc.1.prom ++ [PromCall.counterAdd vec entryLabels valueFloat] }
        | none => some acc.1
      match added with
      | none => none
      | some e1 =>
        let saved := saveEntryInCache e1 (clock e1.ticks) entry entryLabels
        let e2 : encodeProm :=
          { saved.1 with
            ticks := saved.1.ticks + 1
            heap := modifyAt saved.1.heap saved.2 (fun c =>
              { c with metricType := PromEncodeOperationName "Counter"
                       promCounter := counterInfo.promCounter }) }
        some (e2, acc.2 ++ [entry])

/-- The method `EncodeCounter`; `none` when a round of its loop panics. -/
def EncodeCounter (lib : GoLib V) (clock : Nat → Int) (e : encodeProm) (metric : GoMap V) :
    Option (encodeProm × List entryInfo) :=
  foldlOption (encodeCounterBody lib clock metric) (e, []) e.counters

/-- One round of the `for ... range e.gauges` loop of `EncodeGauge`. The method `Set` of a
Prometheus gauge takes every value, and `With(entryLabels)` is taken to return the child of
the vector for these labels. -/
def encodeGaugeBody (lib : GoLib V) (clock : Nat → Int) (metric : GoMap V)
    (acc : encodeProm × List entryInfo) (kv : String × metricInfo) :
    encodeProm × List entryInfo :=
  let gaugeName := kv.1
  let gaugeInfo := kv.2
  match metric.get? gaugeInfo.input with
  | none => acc
  | some gaugeValue =>
    let gaugeValueString := lib.sprintv gaugeValue
    match lib.ParseFloat gaugeValueString with
    | none => acc
    | some valueFloat =>
      let entryLabels := buildLabels lib metric gaugeInfo.labelNames
      let entry : entryInfo :=
        { eInfo := { Name := acc.1.promPrefix ++ gaugeName, Labels := entryLabels }
          value := valueFloat }
      let e1 : encodeProm :=
        match gaugeInfo.promGauge with
        | some vec =>
          { acc.1 with prom := acc.1.prom ++ [PromCall.gaugeSet vec entryLabels valueFloat] }
        | none => acc.1
      let saved := saveEntryInCache e1 (clock e1.ticks) entry entryLabels
      let e2 : encodeProm :=
        { saved.1 with
          ticks := saved.1.ticks + 1
          heap := modifyAt saved.1.heap saved.2 (fun c =>
            { c with metricType := PromEncodeOperationName "Gauge"
                     promGauge := gaugeInfo.promGauge }) }
      (e2, acc.2 ++ [entry])

/-- The method `EncodeGauge`. -/
def EncodeGauge (lib : GoLib V) (clock : Nat → Int) (e : encodeProm) (metric : GoMap V) :
    encodeProm × List entryInfo :=
  e.gauges.foldl (encodeGaugeBody lib clock metric) (e, [])

/-- One round of the `for _, metric := range metrics` loop of `Encode`; `none` when
`EncodeCounter` panics. -/
def encodeBody (lib : GoLib V) (clock : Nat → Int) (acc : encodeProm × List entryInfo)
    (metric : GoMap V) : Option (encodeProm × List entryInfo) :=
  let gauge := EncodeGauge lib clock acc.1 metric
  let out := acc.2 ++ gauge.2
  match EncodeCounter lib clock gauge.1 metric with
  | none => none
  | some counter => some (counter.1, out ++ counter.2)

/-- The method `Encode`: the state after the call and the slice it returns, or `none` when
the call panics. -/
def Encode (lib : GoLib V) (clock : Nat → Int) (e : encodeProm) (metrics : List (GoMap V)) :
    Option (encodeProm × List entryInfo) :=
  foldlOption (encodeBody lib clock) (e, []) metrics

/-! ### Predicates and derived notions used by the theorems -/

/-- The cache invariant: the list has no repeated element, its elements are allocated, every
binding `key -> entry` of the map has `entry.key = key` and `entry` on the list, every list
element is bound in the map under its own key, and the map has no repeated key. -/
def CacheInv (e : encodeProm) : Prop :=
  e.mList.Nodup ∧ (∀ p ∈ e.mList, p < e.heap.length) ∧
  (∀ kv ∈ e.mCache, kv.2 ∈ e.mList ∧ (deref e.heap kv.2).key = kv.1) ∧
  (∀ p ∈ e.mList, ((deref e.heap p).key, p) ∈ e.mCache) ∧
  e.mCache.keys.Nodup

instance (e : encodeProm) : Decidable (CacheInv e) := by
  unfold CacheInv; infer_instance

/-- The list is sorted by `timeStamp`, front first. -/
def SortedByTime (e : encodeProm) : Prop :=
  e.mList.Pairwise (fun p q => (deref e.heap p).timeStamp ≤ (deref e.heap q).timeStamp)

instance (e : encodeProm) : Decidable (SortedByTime e) := by
  unfold SortedByTime; infer_instance

/-- No entry on the list makes `cleanupExpiredEntries` call `Delete` through a nil pointer. -/
def DeleteSafe (e : encodeProm) : Prop :=
  ∀ p ∈ e.mList, (deleteCalls (deref e.heap p)).isSome = true

instance (e : encodeProm) : Decidable (DeleteSafe e) := by
  unfold DeleteSafe; infer_instance

/-- A sequence of touches: `saveEntryInCache` called with each `(nowInSecs, entry,
entryLabels)` in turn. -/
def touchAll (e : encodeProm) (touches : List (Int × entryInfo × GoMap String)) : encodeProm :=
  touches.foldl (fun e t => (saveEntryInCache e t.1 t.2.1 t.2.2).1) e

/-- The time of the most recent touch of the series key `K` in a sequence of touches. -/
def lastTouch (K : String) (touches : List (Int × entryInfo × GoMap String)) : Option Int :=
  touches.foldl (fun last t => if generateCacheKey t.2.1.eInfo = K then some t.1 else last) none

/-- The `timeStamp` of the entry the map binds to the key `K`, if there is one. -/
def entryTime (e : encodeProm) (K : String) : Option Int :=
  (e.mCache.get? K).map (fun p => (deref e.heap p).timeStamp)

/-- Every entry on the list was last touched at `now` or before. -/
def TouchedBefore (e : encodeProm) (now : Int) : Prop :=
  ∀ p ∈ e.mList, (deref e.heap p).timeStamp ≤ now

/-- The key `K` is in the cache neither as a map binding nor as a list element. -/
def absent (e : encodeProm) (K : String) : Prop :=
  e.mCache.get? K = none ∧ ∀ p ∈ e.mList, (deref e.heap p).key ≠ K

/-- The key `K` is bound in the map to an entry of the list with that key and `timeStamp`
equal to `t`. -/
def presentAt (e : encodeProm) (K : String) (t : Int) : Prop :=
  ∃ p, e.mCache.get? K = some p ∧ p ∈ e.mList ∧ (deref e.heap p).key = K ∧
    (deref e.heap p).timeStamp = t

/-- The entries one round of the loops of `EncodeCounter` and `EncodeGauge` appends to `out`,
for the record `metric` and the descriptor `kv`: none when the value field is missing or is
not numeric, one otherwise. -/
def entriesOf (lib : GoLib V) (promPrefix : String) (metric : GoMap V)
    (kv : String × metricInfo) : List entryInfo :=
  match metric.get? kv.2.input with
  | none => []
  | some value =>
    match lib.ParseFloat (lib.sprintv value) with
    | none => []
    | some v =>
      [{ eInfo := { Name := promPrefix ++ kv.1
                    Labels := buildLabels lib metric kv.2.labelNames }
         value := v }]

/-- The two kinds of descriptor `Encode` goes through. -/
inductive Kind where
  | gauge
  | counter
  deriving DecidableEq, Repr

/-- The (record, descriptor) pairs of a batch, in the order `Encode` goes through them: for
each record the gauges, then the counters. -/
def pairs (e : encodeProm) (metrics : List (GoMap V)) :
    List (GoMap V × Kind × String × metricInfo) :=
  metrics.flatMap (fun metric =>
    e.gauges.map (fun kv => (metric, Kind.gauge, kv)) ++
    e.counters.map (fun kv => (metric, Kind.counter, kv)))

/-- The round of the loop of `EncodeGauge` or `EncodeCounter` for one pair; `none` when it
panics. -/
def encodePair (lib : GoLib V) (clock : Nat → Int) (acc : encodeProm × List entryInfo)
    (pair : GoMap V × Kind × String × metricInfo) : Option (encodeProm × List entryInfo) :=
  match pair.2.1 with
  | Kind.gauge => some (encodeGaugeBody lib clock pair.1 acc pair.2.2)
  | Kind.counter => encodeCounterBody lib clock pair.1 acc pair.2.2

/-- The call `Add` in the round of `EncodeCounter` for the record `metric` and the descriptor
`kv` panics: the value field is present and converts to a number `< 0`, and the descriptor
has its counter vector. -/
def addPanics (lib : GoLib V) (metric : GoMap V) (kv : String × metricInfo) : Bool :=
  match metric.get? kv.2.input with
  | none => false
  | some value =>
    match lib.ParseFloat (lib.sprintv value) with
    | none => false
    | some v => kv.2.promCounter.isSome && v.ltZero

/-- The round for the pair panics: the pair is a counter pair whose `Add` call panics. -/
def pairPanics (lib : GoLib V) (pair : GoMap V × Kind × String × metricInfo) : Bool :=
  match pair.2.1 with
  | Kind.gauge => false
  | Kind.counter => addPanics lib pair.1 pair.2.2

/-- Some round of `Encode` on the batch panics. -/
def batchPanics (lib : GoLib V) (e : encodeProm) (metrics : List (GoMap V)) : Bool :=
  (pairs e metrics).any (pairPanics lib)

/-- The state and the slice `out` after a round of the loop of `EncodeCounter` whose `Add`
call, if it makes one, returns. -/
def counterRound (lib : GoLib V) (clock : Nat → Int) (metric : GoMap V)
    (acc : encodeProm × List entryInfo) (kv : String × metricInfo) :
    encodeProm × List entryInfo :=
  match metric.get? kv.2.input with
  | none => acc
  | some counterValue =>
    match lib.ParseFloat (lib.sprintv counterValue) with
    | none => acc
    | some valueFloat =>
      let entryLabels := buildLabels lib metric kv.2.labelNames
      let entry : entryInfo :=
        { eInfo := { Name := acc.1.promPrefix ++ kv.1, Labels := entryLabels }
          value := valueFloat }
      let e1 : encodeProm :=
        match kv.2.promCounter with
        | some vec =>
          { acc.1 with prom := acc.1.prom ++ [PromCall.counterAdd vec entryLabels valueFloat] }
        | none => acc.1
      let saved := saveEntryInCache e1 (clock e1.ticks) entry entryLabels
      let e2 : encodeProm :=
        { saved.1 with
          ticks := saved.1.ticks + 1
          heap := modifyAt saved.1.heap saved.2 (fun c =>
            { c with metricType := PromEncodeOperationName "Counter"
                     promCounter := kv.2.promCounter }) }
      (e2, acc.2 ++ [entry])

/-- The state and the slice `out` after the round for one pair, when the round does not
panic. -/
def pairRound (lib : GoLib V) (clock : Nat → Int) (acc : encodeProm × List entryInfo)
    (pair : GoMap V × Kind × String × metricInfo) : encodeProm × List entryInfo :=
  match pair.2.1 with
  | Kind.gauge => encodeGaugeBody lib clock pair.1 acc pair.2.2
  | Kind.counter => counterRound lib clock pair.1 acc pair.2.2

/-! ### `NewEncodeProm` -/

/-- The constant `defaultExpiryTime`. -/
def defaultExpiryTime : Int := 120

/-- The fields of `api.PromMetricsItem` that `NewEncodeProm` reads; `Type_` is its field
`Type`. -/
structure PromMetricsItem where
  Name : String
  Type_ : String
  ValueKey : String
  Labels : List String
  Buckets : List float64
  deriving DecidableEq, Repr

/-- The fields of `api.PromEncode` that `NewEncodeProm` reads. -/
structure PromEncode where
  Metrics : List PromMetricsItem
  Port : Int
  Prefix : String
  ExpiryTime : Int
  deriving DecidableEq, Repr

/-- The three kinds of metric vector `NewEncodeProm` creates. -/
inductive VecKind where
  | counterVec
  | gaugeVec
  | histogramVec
  deriving DecidableEq, Repr

/-- The maps `counters`, `gauges` and `histograms` that `NewEncodeProm` fills. -/
structure Descriptors where
  counters : GoMap metricInfo
  gauges : GoMap metricInfo
  histograms : GoMap metricInfo
  deriving DecidableEq, Repr

/-- The `for _, mInfo := range jsonEncodeProm.Metrics` loop of `NewEncodeProm`, on the state
`reg` of the Prometheus registry and the three maps. `Register reg kind name labels` stands
for `prometheus.Register` of a new vector of that kind, name and label names: the new
registry state, or an error. The loop returns the registry state with either the error it
stops on or the three maps. -/
def registerMetrics {R : Type} (Register : R → VecKind → String → List String → Except String R)
    (promPrefix : String) : List PromMetricsItem → R → Descriptors → R × Except String Descriptors
  | [], reg, d => (reg, .ok d)
  | mInfo :: rest, reg, d =>
    let fullMetricName := promPrefix ++ mInfo.Name
    let labels := mInfo.Labels
    if mInfo.Type_ = PromEncodeOperationName "Counter" then
      match Register reg VecKind.counterVec fullMetricName labels with
      | .error err => (reg, .error err)
      | .ok reg' =>
        let info : metricInfo :=
          { input := mInfo.ValueKey, labelNames := labels,
            metricType := PromEncodeOperationName "Counter", promCounter := some ⟨fullMetricName⟩ }
        registerMetrics Register promPrefix rest reg'
          { d with counters := d.counters.set mInfo.Name info }
    else if mInfo.Type_ = PromEncodeOperationName "Gauge" then
      match Register reg VecKind.gaugeVec fullMetricName labels with
      | .error err => (reg, .error err)
      | .ok reg' =>
        let info : metricInfo :=
          { input := mInfo.ValueKey, labelNames := labels,
            metricType := PromEncodeOperationName "Gauge", promGauge := some ⟨fullMetricName⟩ }
        registerMetrics Register promPrefix rest reg'
          { d with gauges := d.gauges.set mInfo.Name info }
    else if mInfo.Type_ = PromEncodeOperationName "Histogram" then
      match Register reg VecKind.histogramVec fullMetricName labels with
      | .error err => (reg, .error err)
      | .ok reg' =>
        let info : metricInfo :=
          { input := mInfo.ValueKey, labelNames := labels,
            metricType := PromEncodeOperationName "Histogram", promHist := some ⟨fullMetricName⟩ }
        registerMetrics Register promPrefix rest reg'
          { d with histograms := d.histograms.set mInfo.Name info }
    else if mInfo.Type_ = "default" then
      registerMetrics Register promPrefix rest reg d
    else
      registerMetrics Register promPrefix rest reg d

/-- The function `NewEncodeProm`, on the configuration string `encodePromString` (the value
of `config.Opt.PipeLine.Encode.Prom`) and the state `reg` of the Prometheus registry;
`Unmarshal` stands for `json.Unmarshal` into an `api.PromEncode`. It returns the new
registry state with either an error or the encoder. The two goroutines it starts are not
part of the embedding. -/
def NewEncodeProm {R : Type} (Unmarshal : String → Except String PromEncode)
    (Register : R → VecKind → String → List String → Except String R)
    (encodePromString : String) (reg : R) : R × Except String encodeProm :=
  match Unmarshal encodePromString with
  | .error err => (reg, .error err)
  | .ok jsonEncodeProm =>
    let portNum := jsonEncodeProm.Port
    let promPrefix := jsonEncodeProm.Prefix
    let expiryTime :=
      if wrapInt64 jsonEncodeProm.ExpiryTime = 0 then defaultExpiryTime
      else wrapInt64 jsonEncodeProm.ExpiryTime
    match registerMetrics Register promPrefix jsonEncodeProm.Metrics reg ⟨[], [], []⟩ with
    | (reg', .error err) => (reg', .error err)
    | (reg', .ok d) =>
      (reg', .ok (emptyEncodeProm (":" ++ toString portNum) promPrefix d.counters d.gauges
        d.histograms expiryTime))

/-! ### Runs of the cache and of the encoder -/

/-- One operation on the series cache: a touch (`saveEntryInCache`) or a sweep
(`cleanupExpiredEntries`), with the clock reading it is made at. -/
inductive CacheOp where
  | touch (nowInSecs : Int) (entry : entryInfo) (entryLabels : GoMap String)
  | sweep (nowInSecs : Int)
  deriving DecidableEq, Repr

/-- The clock reading an operation is made at. -/
def CacheOp.time : CacheOp → Int
  | .touch nowInSecs _ _ => nowInSecs
  | .sweep nowInSecs => nowInSecs

/-- The state after one operation; `none` when the sweep panics. -/
def stepCache (e : encodeProm) : CacheOp → Option encodeProm
  | .touch nowInSecs entry entryLabels => some (saveEntryInCache e nowInSecs entry entryLabels).1
  | .sweep nowInSecs => cleanupExpiredEntries e nowInSecs

/-- The state after a sequence of operations; `none` when a sweep panics. -/
def runCache : encodeProm → List CacheOp → Option encodeProm
  | e, [] => some e
  | e, op :: ops =>
    match stepCache e op with
    | none => none
    | some e' => runCache e' ops

/-- One call on the encoder: `Encode` on a batch, or a sweep at a clock reading. -/
inductive EncoderOp (V : Type) where
  | encode (metrics : List (GoMap V))
  | sweep (nowInSecs : Int)

/-- The state after one call on the encoder; `none` when the call panics. -/
def stepEncoder (lib : GoLib V) (clock : Nat → Int) (e : encodeProm) :
    EncoderOp V → Option encodeProm
  | .encode metrics => (Encode lib clock e metrics).map Prod.fst
  | .sweep nowInSecs => cleanupExpiredEntries e nowInSecs

/-- A call of the sequence makes `Add` panic: it is `Encode` on a batch that gives a counter
with its vector a negative value. -/
def opPanics (lib : GoLib V) (e : encodeProm) : EncoderOp V → Bool
  | .encode metrics => batchPanics lib e metrics
  | .sweep _ => false

/-- The state after a sequence of calls on the encoder; `none` when a call panics. -/
def runEncoder (lib : GoLib V) (clock : Nat → Int) : encodeProm → List (EncoderOp V) →
    Option encodeProm
  | e, [] => some e
  | e, op :: ops =>
    match stepEncoder lib clock e op with
    | none => none
    | some e' => runEncoder lib clock e' ops

/-- The state after the assignments that follow `saveEntryInCache` in `EncodeCounter` and
`EncodeGauge`: the entry at `cEntry` is changed by `f`, and one more clock reading has been
made. -/
def tagEntry (e : encodeProm) (cEntry : Ptr) (f : metricCacheEntry → metricCacheEntry) :
    encodeProm :=
  { e with
    ticks := e.ticks + 1
    heap := modifyAt e.heap cEntry f }

/-- Every counter descriptor has a counter vector and every gauge descriptor a gauge vector,
as in the maps `NewEncodeProm` builds. -/
def VecsPresent (e : encodeProm) : Prop :=
  (∀ kv ∈ e.counters, kv.2.promCounter.isSome = true) ∧
    (∀ kv ∈ e.gauges, kv.2.promGauge.isSome = true)

instance (e : encodeProm) : Decidable (VecsPresent e) := by
  unfold VecsPresent; infer_instance

/-! ### A concrete instance for the examples -/

/-- Record values for the examples: nil, integers and strings. -/
inductive Value where
  | nil
  | int (n : Int)
  | str (s : String)
  deriving DecidableEq, Repr

/-- An instance of `GoLib` for the examples: `%v` prints nil as `<nil>`, an integer in
decimal and a string as it is; of the numeric strings, `ParseFloat` is defined on `100`
(the double with bit pattern `0x4059000000000000`), on `0` and on `-5` (the double with bit
pattern `0xC014000000000000`) only. -/
def exampleLib : GoLib Value where
  nilValue := Value.nil
  sprintv := fun v =>
    match v with
    | Value.nil => "<nil>"
    | Value.int n => toString n
    | Value.str s => s
  ParseFloat := fun s =>
    if s = "100" then some ⟨0x4059000000000000⟩
    else if s = "0" then some ⟨0⟩
    else if s = "-5" then some ⟨0xC014000000000000⟩
    else none

/-- The counter of the spec's end-to-end example: `bytes_total`, value field `Bytes`, label
`srcIP`. -/
def bytesTotal : String × metricInfo :=
  ("bytes_total", { input := "Bytes", labelNames := ["srcIP"], metricType := "counter",
                    promCounter := some ⟨"bytes_total"⟩ })

/-- A second counter, on the value field `Packets`. -/
def packetsTotal : String × metricInfo :=
  ("packets_total", { input := "Packets", labelNames := ["srcIP"], metricType := "counter",
                      promCounter := some ⟨"packets_total"⟩ })

/-- A histogram descriptor on the value field `Bytes`, as `NewEncodeProm` stores it. -/
def flowSize : String × metricInfo :=
  ("flow_size", { input := "Bytes", labelNames := ["srcIP"], metricType := "histogram",
                  promHist := some ⟨"flow_size"⟩ })

/-- The record of the spec's end-to-end example. -/
def exampleRecord : GoMap Value :=
  [("Bytes", Value.int 100), ("srcIP", Value.str "10.0.0.1")]

/-- A record whose field `Bytes` is negative, and that has no field `Packets`. -/
def negativeRecord : GoMap Value :=
  [("Bytes", Value.int (-5)), ("srcIP", Value.str "10.0.0.1")]

/-- A gauge on the value field `Bytes`. -/
def bytesGauge : String × metricInfo :=
  ("bytes_gauge", { input := "Bytes", labelNames := ["srcIP"], metricType := "gauge",
                    promGauge := some ⟨"bytes_gauge"⟩ })

/-- A metric of the configuration whose type is `summary`. -/
def summaryItem : PromMetricsItem :=
  { Name := "bytes_summary", Type_ := "summary", ValueKey := "Bytes", Labels := ["srcIP"],
    Buckets := [] }

/-- The counter `bytes_total` as a metric of the configuration. -/
def bytesTotalItem : PromMetricsItem :=
  { Name := "bytes_total", Type_ := "counter", ValueKey := "Bytes", Labels := ["srcIP"],
    Buckets := [] }

/-- A configuration with the metrics `items`, port 9102, no prefix and no expiry time. -/
def configOf (items : List PromMetricsItem) : PromEncode :=
  { Metrics := items, Port := 9102, Prefix := "", ExpiryTime := 0 }

/-- A registry for the examples: the names registered so far; registering a name twice is an
error. -/
def exampleRegister (reg : List String) (_ : VecKind) (name : String) (_ : List String) :
    Except String (List String) :=
  if name ∈ reg then .error "duplicate metrics collector registration attempted"
  else .ok (name :: reg)

/-- An `Unmarshal` for the examples: the string `summary+counter` is the configuration with
the metrics `summaryItem` and `bytesTotalItem`, the string `summary` the one with
`summaryItem` only, every other string the one with `bytesTotalItem` only. -/
def exampleUnmarshal (encodePromString : String) : Except String PromEncode :=
  if encodePromString = "summary+counter" then .ok (configOf [summaryItem, bytesTotalItem])
  else if encodePromString = "summary" then .ok (configOf [summaryItem])
  else .ok (configOf [bytesTotalItem])

/-- The cache, with expiry 2, after a touch of `K` at time 0 and a touch of `L` at time 1. -/
def cacheKL : encodeProm :=
  touchAll (emptyEncodeProm ":9102" "" [] [] [] 2)
    [(0, ⟨⟨"K", []⟩, ⟨0⟩⟩, []), (1, ⟨⟨"L", []⟩, ⟨0⟩⟩, [])]

/-- The cache, with expiry 2, after a touch of `K` at time 5 and a touch of `L` at time 0:
the clock went back between the two touches. -/
def cacheBackwards : encodeProm :=
  touchAll (emptyEncodeProm ":9102" "" [] [] [] 2)
    [(5, ⟨⟨"K", []⟩, ⟨0⟩⟩, []), (0, ⟨⟨"L", []⟩, ⟨0⟩⟩, [])]

/-- A signature whose label `dstIP` has a value with a space in it. -/
def collidingA : entrySignature :=
  ⟨"bytes_total", [("dstIP", "10.0.0.2 srcIP:10.0.0.1"), ("srcIP", "10.0.0.1")]⟩

/-- A signature with the label names of `collidingA`, whose label `srcIP` has a value with a
space in it. -/
def collidingB : entrySignature :=
  ⟨"bytes_total", [("dstIP", "10.0.0.2"), ("srcIP", "10.0.0.1 srcIP:10.0.0.1")]⟩

end encode

namespace informers

/-! ## `informers.go` -/

/-- The constant `IndexIP`. -/
def IndexIP : String := "byIP"

/-- The constant `TypeNode`. -/
def TypeNode : String := "Node"

/-- The constant `TypePod`. -/
def TypePod : String := "Pod"

/-- The constant `TypeService`. -/
def TypeService : String := "Service"

/-- The fields of `metav1.OwnerReference` the informers read. -/
structure OwnerReference where
  Kind : String
  Name : String
  deriving DecidableEq, Repr

/-- The fields of `metav1.ObjectMeta` the informers fill and read. -/
structure ObjectMeta where
  Name : String
  Namespace : String
  Labels : GoMap String
  OwnerReferences : List OwnerReference
  deriving DecidableEq, Repr

/-- The struct `Owner`; `Type_` is its field `Type`. -/
structure Owner where
  Type_ : String
  Name : String
  deriving DecidableEq, Repr

/-- The struct `Info`; `Type_` is its field `Type`. -/
structure Info extends ObjectMeta where
  Type_ : String
  Owner : Owner
  HostName : String
  HostIP : String
  ips : List String
  deriving DecidableEq, Repr

/-- The part of the interface `cache.Indexer` the informers call, for a store of objects of
type `α`: `ByIndex(indexName, indexedValue)` and `GetByKey(key)`, each returning an error or
its result. -/
structure Indexer (α : Type) where
  ByIndex : String → String → Except String (List α)
  GetByKey : String → Except String (Option α)

/-- The struct `Informers`: the indexers of its four informers. The Pod, Node and Service
stores hold `*Info` pointers into the arena `objs`; the ReplicaSet store holds
`*metav1.ObjectMeta` objects, which are only read. -/
structure Informers where
  pods : Indexer Ptr
  nodes : Indexer Ptr
  services : Indexer Ptr
  replicaSets : Indexer ObjectMeta
  objs : Ptr → Info

/-- The function `infoForIP`. -/
def infoForIP (idx : Indexer Ptr) (ip : String) : Option Ptr :=
  match idx.ByIndex IndexIP ip with
  | .error _ => none
  | .ok objs =>
    match objs with
    | [] => none
    | obj :: _ => some obj

/-- The method `getHostName`. -/
def getHostName (k : Informers) (hostIP : String) : String :=
  if hostIP ≠ "" then
    match infoForIP k.nodes hostIP with
    | some info => (k.objs info).Name
    | none => ""
  else ""

/-- The method `fetchInformers`: the state after the call, and the `*Info` it returns
(`none` for `nil, false`). -/
def fetchInformers (k : Informers) (ip : String) : Informers × Option Ptr :=
  match infoForIP k.pods ip with
  | some info =>
    if (k.objs info).HostName = "" then
      let hostName := getHostName k (k.objs info).HostIP
      ({ k with objs := Function.update k.objs info { (k.objs info) with HostName := hostName } },
        some info)
    else (k, some info)
  | none =>
    match infoForIP k.nodes ip with
    | some info => (k, some info)
    | none =>
      match infoForIP k.services ip with
      | some info => (k, some info)
      | none => (k, none)

/-- The method `getOwner`. -/
def getOwner (k : Informers) (info : Info) : Owner :=
  let self : Owner := { Name := info.Name, Type_ := info.Type_ }
  match info.OwnerReferences with
  | [] => self
  | ownerReference :: _ =>
    if ownerReference.Kind ≠ "ReplicaSet" then
      { Name := ownerReference.Name, Type_ := ownerReference.Kind }
    else
      match k.replicaSets.GetByKey (info.Namespace ++ "/" ++ ownerReference.Name) with
      | .error _ => self
      | .ok none => self
      | .ok (some rsInfo) =>
        match rsInfo.OwnerReferences with
        | [] => self
        | rsOwner :: _ => { Name := rsOwner.Name, Type_ := rsOwner.Kind }

/-- The method `GetInfo`: the state after the call, and the `*Info` or the error it
returns. -/
def GetInfo (k : Informers) (ip : String) : Informers × Except String Ptr :=
  match fetchInformers k ip with
  | (k1, some info) =>
    if (k1.objs info).Owner.Name = "" then
      let owner := getOwner k1 (k1.objs info)
      ({ k1 with objs := Function.update k1.objs info { (k1.objs info) with Owner := owner } },
        .ok info)
    else (k1, .ok info)
  | (k1, none) => (k1, .error ("informers can't find IP " ++ ip))

/-- The index function of `commonIndexers` for `IndexIP`: an `*Info` is indexed under each of
its `ips`. -/
def commonIndexers (obj : Info) : List String := obj.ips

/-- The struct `v1.PodIP`. -/
structure PodIP where
  IP : String
  deriving DecidableEq, Repr

/-- The fields of `v1.PodStatus` the Pod transform reads. -/
structure PodStatus where
  PodIPs : List PodIP
  HostIP : String
  deriving DecidableEq, Repr

/-- The field of `v1.PodSpec` the Pod transform reads. -/
structure PodSpec where
  NodeName : String
  deriving DecidableEq, Repr

/-- The fields of `v1.Pod` the Pod transform reads. -/
structure Pod extends ObjectMeta where
  Spec : PodSpec
  Status : PodStatus
  deriving DecidableEq, Repr

/-- The field of `v1.NodeAddress` the Node transform reads. -/
structure NodeAddress where
  Address : String
  deriving DecidableEq, Repr

/-- The field of `v1.NodeStatus` the Node transform reads. -/
structure NodeStatus where
  Addresses : List NodeAddress
  deriving DecidableEq, Repr

/-- The fields of `v1.Node` the Node transform reads; `Annotations` is what the CNI code
reads. -/
structure Node extends ObjectMeta where
  Annotations : GoMap String
  Status : NodeStatus
  deriving DecidableEq, Repr

/-- The field of `v1.ServiceSpec` the Service transform reads. -/
structure ServiceSpec where
  ClusterIPs : List String
  deriving DecidableEq, Repr

/-- The fields of `v1.Service` the Service transform reads. -/
structure Service extends ObjectMeta where
  Spec : ServiceSpec
  deriving DecidableEq, Repr

/-- The `interface{}` value an informer hands to its transform: a `*v1.Pod`, a `*v1.Node`, a
`*v1.Service`, or a value of another type, given by the name `%T` prints for it. -/
inductive KubeObject where
  | pod (pod : Pod)
  | node (node : Node)
  | service (svc : Service)
  | other (typeName : String)
  deriving DecidableEq, Repr

/-- What `%T` prints for the value. -/
def typeName : KubeObject → String
  | .pod _ => "*v1.Pod"
  | .node _ => "*v1.Node"
  | .service _ => "*v1.Service"
  | .other name => name

/-- What the Node transform uses of the Go package `net`: the type `net.IP`, `net.ParseIP`
(`none` for a nil result) and the method `IP.String`. -/
structure NetLib where
  IP : Type
  ParseIP : String → Option IP
  IPString : IP → String

/-- The constant `v1.ClusterIPNone` of the Kubernetes API. -/
def ClusterIPNone : String := "None"

/-- The function `isServiceIPSet`. -/
def isServiceIPSet (ip : String) : Bool :=
  decide (ip ≠ ClusterIPNone) && decide (ip ≠ "")

/-- The transform `initNodeInformer` sets on the Node informer. `AddOvnIPs` is the function
`cni.AddOvnIPs`, which is not under `src/`. The loop state is the pair of `ips` and
`hostIP`. -/
def nodeTransform (net : NetLib) (AddOvnIPs : List String → Node → List String)
    (i : KubeObject) : Except String Info :=
  match i with
  | .node node =>
    let loop := node.Status.Addresses.foldl (fun (st : List String × String) address =>
      match net.ParseIP address.Address with
      | some ip => (st.1 ++ [net.IPString ip], if st.2 = "" then net.IPString ip else st.2)
      | none => st) ([], "")
    let ips := AddOvnIPs loop.1 node
    .ok { Name := node.Name, Namespace := "", Labels := node.Labels, OwnerReferences := [],
          ips := ips, Type_ := TypeNode, Owner := ⟨"", ""⟩, HostIP := loop.2,
          HostName := node.Name }
  | _ => .error ("was expecting a Node. Got: " ++ typeName i)

/-- The transform `initPodInformer` sets on the Pod informer. -/
def podTransform (i : KubeObject) : Except String Info :=
  match i with
  | .pod pod =>
    let ips := pod.Status.PodIPs.foldl (fun (ips : List String) ip =>
      if ip.IP ≠ pod.Status.HostIP then ips ++ [ip.IP] else ips) []
    .ok { Name := pod.Name, Namespace := pod.Namespace, Labels := pod.Labels,
          OwnerReferences := pod.OwnerReferences, Type_ := TypePod, Owner := ⟨"", ""⟩,
          HostIP := pod.Status.HostIP, HostName := pod.Spec.NodeName, ips := ips }
  | _ => .error ("was expecting a Pod. Got: " ++ typeName i)

/-- The transform `initServiceInformer` sets on the Service informer. -/
def serviceTransform (i : KubeObject) : Except String Info :=
  match i with
  | .service svc =>
    let ips := svc.Spec.ClusterIPs.foldl (fun (ips : List String) ip =>
      if isServiceIPSet ip then ips ++ [ip] else ips) []
    .ok { Name := svc.Name, Namespace := svc.Namespace, Labels := svc.Labels,
          OwnerReferences := [], Type_ := TypeService, Owner := ⟨"", ""⟩, HostIP := "",
          HostName := "", ips := ips }
  | _ => .error ("was expecting a Service. Got: " ++ typeName i)

/-! ### Derived notions used by the theorems, and a concrete instance for the examples -/

/-- The entities an index holds under an IP: what `ByIndex(IndexIP, ip)` returns, nothing when
it returns an error. -/
def held (idx : Indexer Ptr) (ip : String) : List Ptr :=
  match idx.ByIndex IndexIP ip with
  | .ok objs => objs
  | .error _ => []

/-- An indexer over an empty store. -/
def emptyIndexer {α : Type} : Indexer α :=
  { ByIndex := fun _ _ => .ok [], GetByKey := fun _ => .ok none }

/-- A Pod owned by the ReplicaSet `foo-5db`. -/
def podOfReplicaSet : Info :=
  { Name := "foo-5db-x2x", Namespace := "ns", Labels := [],
    OwnerReferences := [⟨"ReplicaSet", "foo-5db"⟩], Type_ := TypePod, Owner := ⟨"", ""⟩,
    HostName := "", HostIP := "10.0.0.9", ips := ["10.1.0.4"] }

/-- A Pod without owner references. -/
def barePod : Info :=
  { Name := "bare", Namespace := "ns", Labels := [], OwnerReferences := [], Type_ := TypePod,
    Owner := ⟨"", ""⟩, HostName := "", HostIP := "10.0.0.9", ips := ["10.1.0.5"] }

/-- The ReplicaSet `foo-5db` of the namespace `ns`, owned by the Deployment `foo`. -/
def replicaSetOfDeployment : ObjectMeta :=
  { Name := "foo-5db", Namespace := "ns", Labels := [],
    OwnerReferences := [⟨"Deployment", "foo"⟩] }

/-- Informers whose ReplicaSet store holds `replicaSetOfDeployment` only, the other stores
being empty. -/
def informersWithReplicaSet : Informers :=
  { pods := emptyIndexer, nodes := emptyIndexer, services := emptyIndexer,
    replicaSets :=
      { ByIndex := fun _ _ => .ok [],
        GetByKey := fun key =>
          if key = "ns/foo-5db" then .ok (some replicaSetOfDeployment) else .ok none },
    objs := fun _ => barePod }

/-- Informers whose stores are all empty. -/
def informersEmpty : Informers :=
  { pods := emptyIndexer, nodes := emptyIndexer, services := emptyIndexer,
    replicaSets := emptyIndexer, objs := fun _ => barePod }

/-- A Pod owned directly by the DaemonSet `fluentd`. -/
def podOfDaemonSet : Info :=
  { Name := "fluentd-7kq", Namespace := "ns", Labels := [],
    OwnerReferences := [⟨"DaemonSet", "fluentd"⟩], Type_ := TypePod, Owner := ⟨"", ""⟩,
    HostName := "", HostIP := "10.0.0.9", ips := ["10.1.0.6"] }

/-- The Node `worker-1`, with address `10.0.0.9`. -/
def workerNode : Info :=
  { Name := "worker-1", Namespace := "", Labels := [], OwnerReferences := [], Type_ := TypeNode,
    Owner := ⟨"", ""⟩, HostName := "worker-1", HostIP := "10.0.0.9", ips := ["10.0.0.9"] }

/-- An indexer over a store that holds the one object at `ptr`, indexed under `ips`. -/
def singletonIndexer (ptr : Ptr) (ips : List String) : Indexer Ptr :=
  { ByIndex := fun indexName ip =>
      if indexName = IndexIP then (if ip ∈ ips then .ok [ptr] else .ok [])
      else .error ("Index with name " ++ indexName ++ " does not exist"),
    GetByKey := fun _ => .ok none }

/-- An indexer over a store of ReplicaSets, keyed by `namespace/name`. -/
def replicaSetIndexer (sets : List ObjectMeta) : Indexer ObjectMeta :=
  { ByIndex := fun _ _ => .ok [],
    GetByKey := fun key => .ok (sets.find? (fun rs => rs.Namespace ++ "/" ++ rs.Name == key)) }

/-- Informers that hold the Pod `pod` at pointer 0, the Node `workerNode` at pointer 1, no
Service, and the ReplicaSets `sets`. -/
def informersOf (pod : Info) (sets : List ObjectMeta) : Informers :=
  { pods := singletonIndexer 0 pod.ips, nodes := singletonIndexer 1 workerNode.ips,
    services := emptyIndexer, replicaSets := replicaSetIndexer sets,
    objs := fun ptr => if ptr = 0 then pod else workerNode }

/-- The ReplicaSet `foo-5db` of the namespace `ns`, with an owner reference whose name is
empty. -/
def replicaSetOfUnnamed : ObjectMeta :=
  { Name := "foo-5db", Namespace := "ns", Labels := [],
    OwnerReferences := [⟨"Deployment", ""⟩] }

/-- The name of the first Node indexed under `hostIP`; empty when `hostIP` is empty or no
Node is indexed under it. -/
def firstNodeName (k : Informers) (hostIP : String) : String :=
  if hostIP = "" then ""
  else
    match held k.nodes hostIP with
    | node :: _ => (k.objs node).Name
    | [] => ""

/-- A Pod object with one pod IP, the empty string, on the host `10.0.0.9`. -/
def podWithEmptyIP : Pod :=
  { Name := "pending", Namespace := "ns", Labels := [], OwnerReferences := [],
    Spec := ⟨"worker-1"⟩, Status := ⟨[⟨""⟩], "10.0.0.9"⟩ }

/-- A host-networked Pod object: pod IPs `10.0.0.9` (the host's) and `10.1.0.7`. -/
def hostNetworkPod : Pod :=
  { Name := "proxy", Namespace := "ns", Labels := [],
    OwnerReferences := [⟨"DaemonSet", "proxy"⟩], Spec := ⟨"worker-1"⟩,
    Status := ⟨[⟨"10.0.0.9"⟩, ⟨"10.1.0.7"⟩], "10.0.0.9"⟩ }

/-- A Node object with the addresses `10.0.0.9` and `worker-1`. -/
def workerNodeObject : Node :=
  { Name := "worker-1", Namespace := "", Labels := [], OwnerReferences := [],
    Annotations := [], Status := ⟨[⟨"10.0.0.9"⟩, ⟨"worker-1"⟩]⟩ }

/-- A headless Service object: cluster IPs `None`, the empty string and `10.96.0.1`. -/
def headlessService : Service :=
  { Name := "db", Namespace := "ns", Labels := [], OwnerReferences := [],
    Spec := ⟨["None", "", "10.96.0.1"]⟩ }

/-- An instance of `NetLib` for the examples: the one address `10.0.0.9` parses. -/
def exampleNet : NetLib :=
  { IP := Unit, ParseIP := fun s => if s = "10.0.0.9" then some () else none,
    IPString := fun _ => "10.0.0.9" }

end informers

/-! ## Lemmas on Go maps -/

namespace GoMap

variable {β : Type}

theorem get?_set_self (m : GoMap β) (k : String) (v : β) : (m.set k v).get? k = some v := by
  induction m with
  | nil => simp [set, get?]
  | cons hd tl ih =>
    obtain ⟨k', v'⟩ := hd
    by_cases h : k' = k
    · simp [set, get?, h]
    · simp [set, get?, h, ih]

theorem get?_set_ne (m : GoMap β) {k k' : String} (v : β) (h : k' ≠ k) :
    (m.set k v).get? k' = m.get? k' := by
  induction m with
  | nil => simp [set, get?, Ne.symm h]
  | cons hd tl ih =>
    obtain ⟨k0, v0⟩ := hd
    by_cases h0 : k0 = k
    · subst h0
      simp [set, get?, Ne.symm h]
    · by_cases h1 : k0 = k'
      · subst h1
        simp [set, get?, h0]
      · simp [set, get?, h0, h1, ih]

theorem get?_delete (m : GoMap β) (k k' : String) :
    (m.delete k).get? k' = if k' = k then none else m.get? k' := by
  induction m with
  | nil => simp [delete, get?]
  | cons hd tl ih =>
    obtain ⟨k0, v0⟩ := hd
    unfold delete at ih ⊢
    by_cases h0 : k0 = k
    · subst h0
      by_cases h1 : k' = k0
      · simp [List.filter_cons, h1] at ih ⊢
        exact ih
      · simp [List.filter_cons, get?, h1, Ne.symm h1] at ih ⊢
        exact ih
    · by_cases h1 : k0 = k'
      · subst h1
        simp [List.filter_cons, get?, h0]
      · simp [List.filter_cons, get?, h0, h1]
        simpa using ih

theorem mem_of_get? {m : GoMap β} {k : String} {v : β} (h : m.get? k = some v) :
    (k, v) ∈ m := by
  induction m with
  | nil => simp [get?] at h
  | cons hd tl ih =>
    obtain ⟨k0, v0⟩ := hd
    by_cases h0 : k0 = k
    · simp [get?, h0] at h
      simp [h0, h]
    · simp [get?, h0] at h
      exact List.mem_cons_of_mem _ (ih h)

theorem get?_eq_none_iff {m : GoMap β} {k : String} : m.get? k = none ↔ k ∉ m.keys := by
  induction m with
  | nil => simp [get?, keys]
  | cons hd tl ih =>
    obtain ⟨k0, v0⟩ := hd
    by_cases h0 : k0 = k
    · simp [get?, keys, h0]
    · simp only [get?, h0, if_false, ih]
      simp [keys, Ne.symm h0]

theorem get?_of_mem {m : GoMap β} (hnd : m.keys.Nodup) {k : String} {v : β}
    (h : (k, v) ∈ m) : m.get? k = some v := by
  induction m with
  | nil => simp at h
  | cons hd tl ih =>
    obtain ⟨k0, v0⟩ := hd
    simp only [keys, List.map_cons, List.nodup_cons] at hnd
    rcases List.mem_cons.mp h with h1 | h1
    · simp only [Prod.mk.injEq] at h1
      simp [get?, h1.1, h1.2]
    · have hk : k0 ≠ k := by
        rintro rfl
        exact hnd.1 (List.mem_map_of_mem Prod.fst h1)
      simp only [get?, hk, if_false]
      exact ih hnd.2 h1

theorem set_of_get?_none {m : GoMap β} {k : String} (v : β) (h : m.get? k = none) :
    m.set k v = m ++ [(k, v)] := by
  induction m with
  | nil => simp [set]
  | cons hd tl ih =>
    obtain ⟨k0, v0⟩ := hd
    by_cases h0 : k0 = k
    · simp [get?, h0] at h
    · simp only [get?, h0, if_false] at h
      simp [set, h0, ih h]

theorem keys_delete_nodup {m : GoMap β} (hnd : m.keys.Nodup) (k : String) :
    (m.delete k).keys.Nodup := by
  unfold keys delete
  exact hnd.sublist ((List.filter_sublist m).map Prod.fst)

end GoMap

/-! ## The series cache: arena lemmas and the cache invariant -/

namespace encode

theorem deref_modifyAt (heap : List metricCacheEntry) (p q : Ptr)
    (f : metricCacheEntry → metricCacheEntry) :
    deref (modifyAt heap p f) q =
      if q = p ∧ p < heap.length then f (deref heap p) else deref heap q := by
  unfold modifyAt deref
  by_cases hq : q = p
  · subst hq
    by_cases hlt : q < heap.length
    · simp [List.getD_eq_getElem?_getD, List.getElem?_set, hlt]
    · have hge : heap.length ≤ q := Nat.le_of_not_lt hlt
      simp [List.getD_eq_getElem?_getD, List.getElem?_set, hlt, List.getElem?_eq_none hge]
  · simp [List.getD_eq_getElem?_getD, List.getElem?_set, hq, Ne.symm hq]

theorem length_modifyAt (heap : List metricCacheEntry) (p : Ptr)
    (f : metricCacheEntry → metricCacheEntry) : (modifyAt heap p f).length = heap.length := by
  simp [modifyAt]

theorem deref_append_of_lt (heap : List metricCacheEntry) (c : metricCacheEntry) {p : Ptr}
    (h : p < heap.length) : deref (heap ++ [c]) p = deref heap p := by
  unfold deref
  simp [List.getD_eq_getElem?_getD, List.getElem?_append_left h]

theorem deref_append_length (heap : List metricCacheEntry) (c : metricCacheEntry) :
    deref (heap ++ [c]) heap.length = c := by
  unfold deref
  simp [List.getD_eq_getElem?_getD]

theorem emptyEncodeProm_inv (port promPrefix : String) (counters gauges histograms :
    GoMap metricInfo) (expiryTime : Int) :
    CacheInv (emptyEncodeProm port promPrefix counters gauges histograms expiryTime) := by
  simp [CacheInv, emptyEncodeProm, GoMap.keys]

theorem mem_MoveToBack {l : List Ptr} {p : Ptr} (q : Ptr) : q ∈ MoveToBack l p ↔ q ∈ l := by
  unfold MoveToBack
  by_cases h : p ∈ l
  · simp only [h, if_true]
    have hperm : (l.erase p ++ [p]).Perm l :=
      (List.perm_append_comm).trans (List.perm_cons_erase h).symm
    exact hperm.mem_iff
  · simp [h]

theorem nodup_MoveToBack {l : List Ptr} (p : Ptr) (h : l.Nodup) : (MoveToBack l p).Nodup := by
  unfold MoveToBack
  by_cases hp : p ∈ l
  · simp only [hp, if_true]
    have hperm : (l.erase p ++ [p]).Perm l :=
      (List.perm_append_comm).trans (List.perm_cons_erase hp).symm
    exact hperm.nodup_iff.mpr h
  · simpa [hp] using h

theorem get?_some_of_inv {e : encodeProm} (hinv : CacheInv e) {k : String} {p : Ptr}
    (h : e.mCache.get? k = some p) : p ∈ e.mList ∧ (deref e.heap p).key = k ∧ p < e.heap.length := by
  obtain ⟨_, hb, hml, _, _⟩ := hinv
  have := hml _ (GoMap.mem_of_get? h)
  exact ⟨this.1, this.2, hb _ this.1⟩

theorem get?_key_of_inv {e : encodeProm} (hinv : CacheInv e) {p : Ptr} (h : p ∈ e.mList) :
    e.mCache.get? (deref e.heap p).key = some p :=
  GoMap.get?_of_mem hinv.2.2.2.2 (hinv.2.2.2.1 p h)

theorem saveEntryInCache_hit {e : encodeProm} {entry : entryInfo} {cEntry : Ptr}
    (h : e.mCache.get? (generateCacheKey entry.eInfo) = some cEntry) (nowInSecs : Int)
    (entryLabels : GoMap String) :
    saveEntryInCache e nowInSecs entry entryLabels =
      ({ e with
          heap := modifyAt e.heap cEntry (fun c => { c with timeStamp := nowInSecs })
          mList := MoveToBack e.mList cEntry }, cEntry) := by
  simp [saveEntryInCache, h]

theorem saveEntryInCache_miss {e : encodeProm} {entry : entryInfo}
    (h : e.mCache.get? (generateCacheKey entry.eInfo) = none) (nowInSecs : Int)
    (entryLabels : GoMap String) :
    saveEntryInCache e nowInSecs entry entryLabels =
      ({ e with
          heap := e.heap ++ [{ labels := entryLabels, timeStamp := nowInSecs,
                               key := generateCacheKey entry.eInfo }]
          mList := e.mList ++ [e.heap.length]
          mCache := e.mCache ++ [(generateCacheKey entry.eInfo, e.heap.length)] },
        e.heap.length) := by
  simp [saveEntryInCache, h, GoMap.set_of_get?_none _ h]

/-- `saveEntryInCache` keeps the cache invariant. -/
theorem saveEntryInCache_inv {e : encodeProm} (hinv : CacheInv e) (nowInSecs : Int)
    (entry : entryInfo) (entryLabels : GoMap String) :
    CacheInv (saveEntryInCache e nowInSecs entry entryLabels).1 := by
  cases hget : e.mCache.get? (generateCacheKey entry.eInfo) with
  | some cEntry =>
    rw [saveEntryInCache_hit hget]
    obtain ⟨hnd, hb, hml, hlm, hk⟩ := hinv
    have hkey : ∀ q, (deref (modifyAt e.heap cEntry
        (fun c => { c with timeStamp := nowInSecs })) q).key = (deref e.heap q).key := by
      intro q
      rw [deref_modifyAt]
      split
      · next h => rw [h.1]
      · rfl
    refine ⟨nodup_MoveToBack _ hnd, ?_, ?_, ?_, hk⟩
    · intro p hp
      simp only [length_modifyAt]
      exact hb p ((mem_MoveToBack p).mp hp)
    · intro kv hkv
      simp only [hkey]
      exact ⟨(mem_MoveToBack _).mpr (hml kv hkv).1, (hml kv hkv).2⟩
    · intro p hp
      simp only [hkey]
      exact hlm p ((mem_MoveToBack p).mp hp)
  | none =>
    obtain ⟨hnd, hb, hml, hlm, hk⟩ := hinv
    have hfresh : e.heap.length ∉ e.mList := fun h => Nat.lt_irrefl _ (hb _ h)
    rw [saveEntryInCache_miss hget]
    refine ⟨?_, ?_, ?_, ?_, ?_⟩
    · rw [List.nodup_append]
      refine ⟨hnd, List.nodup_singleton _, ?_⟩
      intro a ha hb'
      simp only [List.mem_singleton] at hb'
      exact hfresh (hb' ▸ ha)
    · intro p hp
      simp only [List.length_append, List.length_singleton]
      rcases List.mem_append.mp hp with h | h
      · exact Nat.lt_succ_of_lt (hb p h)
      · simp only [List.mem_singleton] at h
        subst h
        exact Nat.lt_succ_self _
    · intro kv hkv
      rcases List.mem_append.mp hkv with h | h
      · refine ⟨List.mem_append_left _ (hml kv h).1, ?_⟩
        rw [deref_append_of_lt _ _ (hb _ (hml kv h).1)]
        exact (hml kv h).2
      · simp only [List.mem_singleton] at h
        subst h
        exact ⟨List.mem_append_right _ (List.mem_singleton_self _), by
          simp [deref_append_length]⟩
    · intro p hp
      rcases List.mem_append.mp hp with h | h
      · rw [deref_append_of_lt _ _ (hb p h)]
        exact List.mem_append_left _ (hlm p h)
      · simp only [List.mem_singleton] at h
        subst h
        simp [deref_append_length]
    · have hnotin := GoMap.get?_eq_none_iff.mp hget
      simp only [GoMap.keys, List.map_append, List.map_cons, List.map_nil]
      rw [List.nodup_append]
      refine ⟨hk, List.nodup_singleton _, ?_⟩
      intro a ha hb'
      simp only [List.mem_singleton] at hb'
      exact hnotin (hb' ▸ ha)

theorem entryTime_saveEntryInCache {e : encodeProm} (hinv : CacheInv e) (nowInSecs : Int)
    (entry : entryInfo) (entryLabels : GoMap String) (K : String) :
    entryTime (saveEntryInCache e nowInSecs entry entryLabels).1 K =
      if generateCacheKey entry.eInfo = K then some nowInSecs else entryTime e K := by
  cases hget : e.mCache.get? (generateCacheKey entry.eInfo) with
  | some cEntry =>
    rw [saveEntryInCache_hit hget]
    obtain ⟨hc1, hc2, hc3⟩ := get?_some_of_inv hinv hget
    by_cases hK : generateCacheKey entry.eInfo = K
    · subst hK
      simp [entryTime, hget, deref_modifyAt, hc3]
    · simp only [hK, if_false, entryTime]
      cases hgK : e.mCache.get? K with
      | none => simp
      | some p =>
        obtain ⟨hp1, hp2, hp3⟩ := get?_some_of_inv hinv hgK
        have hne : p ≠ cEntry := by
          rintro rfl
          exact hK (hc2.symm.trans hp2)
        simp [deref_modifyAt, hne]
  | none =>
    rw [saveEntryInCache_miss hget]
    by_cases hK : generateCacheKey entry.eInfo = K
    · subst hK
      have hnotin := GoMap.get?_eq_none_iff.mp hget
      have : GoMap.get? (e.mCache ++ [(generateCacheKey entry.eInfo, e.heap.length)])
          (generateCacheKey entry.eInfo) = some e.heap.length := by
        rw [← GoMap.set_of_get?_none _ hget]
        exact GoMap.get?_set_self _ _ _
      simp [entryTime, this, deref_append_length]
    · have : GoMap.get? (e.mCache ++ [(generateCacheKey entry.eInfo, e.heap.length)]) K =
          e.mCache.get? K := by
        rw [← GoMap.set_of_get?_none _ hget]
        exact GoMap.get?_set_ne _ _ (Ne.symm hK)
      simp only [hK, if_false, entryTime, this]
      cases hgK : e.mCache.get? K with
      | none => simp
      | some p =>
        obtain ⟨hp1, hp2, hp3⟩ := get?_some_of_inv hinv hgK
        simp [deref_append_of_lt _ _ hp3]

theorem saveEntryInCache_sorted {e : encodeProm} (hinv : CacheInv e) (hs : SortedByTime e)
    {nowInSecs : Int} (hb : TouchedBefore e nowInSecs) (entry : entryInfo)
    (entryLabels : GoMap String) :
    SortedByTime (saveEntryInCache e nowInSecs entry entryLabels).1 ∧
      TouchedBefore (saveEntryInCache e nowInSecs entry entryLabels).1 nowInSecs := by
  cases hget : e.mCache.get? (generateCacheKey entry.eInfo) with
  | some cEntry =>
    rw [saveEntryInCache_hit hget]
    obtain ⟨hc1, hc2, hc3⟩ := get?_some_of_inv hinv hget
    have hnew : (deref (modifyAt e.heap cEntry
        (fun c => { c with timeStamp := nowInSecs })) cEntry).timeStamp = nowInSecs := by
      simp [deref_modifyAt, hc3]
    have hold : ∀ q, q ≠ cEntry → deref (modifyAt e.heap cEntry
        (fun c => { c with timeStamp := nowInSecs })) q = deref e.heap q := by
      intro q hq
      simp [deref_modifyAt, hq]
    have hmem : ∀ q, q ∈ e.mList.erase cEntry → q ≠ cEntry ∧ q ∈ e.mList := fun q hq =>
      (List.Nodup.mem_erase_iff hinv.1).mp hq
    constructor
    · show List.Pairwise _ (MoveToBack e.mList cEntry)
      unfold MoveToBack
      simp only [hc1, if_true]
      rw [List.pairwise_append]
      refine ⟨?_, List.pairwise_singleton _ _, ?_⟩
      · have hsub : (e.mList.erase cEntry).Pairwise (fun p q =>
            (deref e.heap p).timeStamp ≤ (deref e.heap q).timeStamp) :=
          List.Pairwise.sublist (List.erase_sublist _ _) hs
        refine List.Pairwise.imp_of_mem ?_ hsub
        intro a b ha hb' hab
        rw [hold a (hmem a ha).1, hold b (hmem b hb').1]
        exact hab
      · intro a ha b hb'
        simp only [List.mem_singleton] at hb'
        subst hb'
        rw [hold a (hmem a ha).1, hnew]
        exact hb a (hmem a ha).2
    · intro q hq
      have hq' : q ∈ e.mList := (mem_MoveToBack q).mp hq
      dsimp only
      by_cases hqc : q = cEntry
      · rw [hqc, hnew]
      · rw [hold q hqc]
        exact hb q hq'
  | none =>
    rw [saveEntryInCache_miss hget]
    have hbound := hinv.2.1
    constructor
    · show List.Pairwise _ (e.mList ++ [e.heap.length])
      rw [List.pairwise_append]
      refine ⟨?_, List.pairwise_singleton _ _, ?_⟩
      · refine List.Pairwise.imp_of_mem ?_ hs
        intro a b ha hb' hab
        show (deref (e.heap ++ _) a).timeStamp ≤ (deref (e.heap ++ _) b).timeStamp
        rw [deref_append_of_lt _ _ (hbound a ha), deref_append_of_lt _ _ (hbound b hb')]
        exact hab
      · intro a ha b hb'
        simp only [List.mem_singleton] at hb'
        subst hb'
        show (deref (e.heap ++ _) a).timeStamp ≤ (deref (e.heap ++ _) e.heap.length).timeStamp
        rw [deref_append_of_lt _ _ (hbound a ha), deref_append_length]
        exact hb a ha
    · intro q hq
      show (deref (e.heap ++ _) q).timeStamp ≤ nowInSecs
      rcases List.mem_append.mp hq with h | h
      · rw [deref_append_of_lt _ _ (hbound q h)]
        exact hb q h
      · simp only [List.mem_singleton] at h
        subst h
        rw [deref_append_length]

theorem deleteCalls_timeStamp (c : metricCacheEntry) (t : Int) :
    deleteCalls { c with timeStamp := t } = deleteCalls c := rfl

theorem deleteCalls_fresh (labels : GoMap String) (t : Int) (key : String) :
    deleteCalls { labels := labels, timeStamp := t, key := key } = some [] := by
  have h1 : ¬ ("" = PromEncodeOperationName "Gauge") := by decide
  have h2 : ¬ ("" = PromEncodeOperationName "Counter") := by decide
  have h3 : ¬ ("" = PromEncodeOperationName "Histogram") := by decide
  simp only [deleteCalls, h1, h2, h3, if_false]

theorem saveEntryInCache_deleteSafe {e : encodeProm} (hinv : CacheInv e) (hsafe : DeleteSafe e)
    (nowInSecs : Int) (entry : entryInfo) (entryLabels : GoMap String) :
    DeleteSafe (saveEntryInCache e nowInSecs entry entryLabels).1 := by
  cases hget : e.mCache.get? (generateCacheKey entry.eInfo) with
  | some cEntry =>
    rw [saveEntryInCache_hit hget]
    intro q hq
    have hq' : q ∈ e.mList := (mem_MoveToBack q).mp hq
    dsimp only
    rw [deref_modifyAt]
    split
    · next h =>
      rw [deleteCalls_timeStamp]
      exact hsafe cEntry (h.1 ▸ hq')
    · exact hsafe q hq'
  | none =>
    rw [saveEntryInCache_miss hget]
    intro q hq
    show (deleteCalls (deref (e.heap ++ _) q)).isSome = true
    rcases List.mem_append.mp hq with h | h
    · rw [deref_append_of_lt _ _ (hinv.2.1 q h)]
      exact hsafe q h
    · simp only [List.mem_singleton] at h
      subst h
      rw [deref_append_length]
      exact congrArg Option.isSome (deleteCalls_fresh _ _ _)

theorem touchAll_cons (e : encodeProm) (t : Int × entryInfo × GoMap String)
    (touches : List (Int × entryInfo × GoMap String)) :
    touchAll e (t :: touches) = touchAll (saveEntryInCache e t.1 t.2.1 t.2.2).1 touches := rfl

theorem touchAll_inv (touches : List (Int × entryInfo × GoMap String)) :
    ∀ e : encodeProm, CacheInv e → CacheInv (touchAll e touches) := by
  induction touches with
  | nil => intro e h; exact h
  | cons t ts ih =>
    intro e h
    rw [touchAll_cons]
    exact ih _ (saveEntryInCache_inv h _ _ _)

theorem touchAll_deleteSafe (touches : List (Int × entryInfo × GoMap String)) :
    ∀ e : encodeProm, CacheInv e → DeleteSafe e → DeleteSafe (touchAll e touches) := by
  induction touches with
  | nil => intro e _ h; exact h
  | cons t ts ih =>
    intro e h hs
    rw [touchAll_cons]
    exact ih _ (saveEntryInCache_inv h _ _ _) (saveEntryInCache_deleteSafe h hs _ _ _)

theorem touchAll_sorted (touches : List (Int × entryInfo × GoMap String)) :
    ∀ e : encodeProm, CacheInv e → SortedByTime e →
      (touches.map (·.1)).Pairwise (· ≤ ·) → (∀ t ∈ touches, TouchedBefore e t.1) →
      SortedByTime (touchAll e touches) := by
  induction touches with
  | nil => intro e _ h _ _; exact h
  | cons t ts ih =>
    intro e hinv hs hmono hbefore
    rw [touchAll_cons]
    simp only [List.map_cons, List.pairwise_cons] at hmono
    have hstep := saveEntryInCache_sorted hinv hs (hbefore t (List.mem_cons_self _ _)) t.2.1 t.2.2
    refine ih _ (saveEntryInCache_inv hinv _ _ _) hstep.1 hmono.2 ?_
    intro t' ht' q hq
    exact le_trans (hstep.2 q hq) (hmono.1 t'.1 (List.mem_map_of_mem _ ht'))

theorem touchAll_entryTime (K : String) (touches : List (Int × entryInfo × GoMap String)) :
    ∀ e : encodeProm, CacheInv e →
      entryTime (touchAll e touches) K =
        touches.foldl (fun last t => if generateCacheKey t.2.1.eInfo = K then some t.1 else last)
          (entryTime e K) := by
  induction touches with
  | nil => intro e _; rfl
  | cons t ts ih =>
    intro e hinv
    rw [touchAll_cons, ih _ (saveEntryInCache_inv hinv _ _ _), entryTime_saveEntryInCache hinv]
    rfl

theorem presentAt_of_entryTime {e : encodeProm} (hinv : CacheInv e) {K : String} {t : Int}
    (h : entryTime e K = some t) : presentAt e K t := by
  unfold entryTime at h
  cases hget : e.mCache.get? K with
  | none => simp [hget] at h
  | some p =>
    simp only [hget, Option.map_some', Option.some.injEq] at h
    obtain ⟨h1, h2, _⟩ := get?_some_of_inv hinv hget
    exact ⟨p, hget, h1, h2, h⟩

/-- What the loop of `cleanupExpiredEntries` does on a state that satisfies the cache
invariant, is sorted by time and has no nil vector to delete through: it returns, keeps the
invariant and the arena, and keeps exactly the entries with `timeStamp > expireTime`. -/
theorem cleanupLoop_spec (expireTime : Int) :
    ∀ (l : List Ptr) (e : encodeProm), e.mList = l → CacheInv e → SortedByTime e →
      DeleteSafe e →
      ∃ e', cleanupLoop expireTime l e = some e' ∧ CacheInv e' ∧ e'.heap = e.heap ∧
        (∀ p, p ∈ e'.mList ↔ p ∈ l ∧ expireTime < (deref e.heap p).timeStamp) ∧
        (∀ K, e'.mCache.get? K = (e.mCache.get? K).bind (fun p =>
          if expireTime < (deref e.heap p).timeStamp then some p else none)) := by
  intro l
  induction l with
  | nil =>
    intro e hl hinv _ _
    refine ⟨e, rfl, hinv, rfl, ?_, ?_⟩
    · intro p; simp [hl]
    · intro K
      cases hget : e.mCache.get? K with
      | none => rfl
      | some p =>
        have := (get?_some_of_inv hinv hget).1
        rw [hl] at this
        simp at this
  | cons p rest ih =>
    intro e hl hinv hs hsafe
    have hpmem : p ∈ e.mList := by rw [hl]; exact List.mem_cons_self _ _
    have hsorted : List.Pairwise (fun p q =>
        (deref e.heap p).timeStamp ≤ (deref e.heap q).timeStamp) (p :: rest) := by
      have := hs
      unfold SortedByTime at this
      rwa [hl] at this
    by_cases hgt : (deref e.heap p).timeStamp > expireTime
    · refine ⟨e, by simp [cleanupLoop, hgt], hinv, rfl, ?_, ?_⟩
      · intro q
        rw [hl]
        constructor
        · intro hq
          refine ⟨hq, ?_⟩
          rcases List.mem_cons.mp hq with h | h
          · rw [h]; exact hgt
          · exact lt_of_lt_of_le hgt ((List.pairwise_cons.mp hsorted).1 q h)
        · intro hq; exact hq.1
      · intro K
        cases hget : e.mCache.get? K with
        | none => rfl
        | some q =>
          have hq : q ∈ p :: rest := hl ▸ (get?_some_of_inv hinv hget).1
          have hlt : expireTime < (deref e.heap q).timeStamp := by
            rcases List.mem_cons.mp hq with h | h
            · rw [h]; exact hgt
            · exact lt_of_lt_of_le hgt ((List.pairwise_cons.mp hsorted).1 q h)
          simp [hlt]
    · obtain ⟨calls, hcalls⟩ := Option.isSome_iff_exists.mp (hsafe p hpmem)
      obtain ⟨hnd, hb, hml, hlm, hk⟩ := hinv
      have hnd' : (p :: rest).Nodup := hl ▸ hnd
      have hprest : p ∉ rest := (List.nodup_cons.mp hnd').1
      have hrest : ∀ q, q ∈ rest → q ∈ e.mList := fun q hq => by
        rw [hl]; exact List.mem_cons_of_mem _ hq
      have hkeyp : e.mCache.get? (deref e.heap p).key = some p :=
        GoMap.get?_of_mem hk (hlm p hpmem)
      have hinv1 : CacheInv (expireFront e p calls rest) := by
        refine ⟨(List.nodup_cons.mp hnd').2, fun q hq => hb q (hrest q hq), ?_, ?_,
          GoMap.keys_delete_nodup hk _⟩
        · intro kv hkv
          have hkv' : kv ∈ e.mCache ∧ kv.1 ≠ (deref e.heap p).key := by
            simpa [expireFront, GoMap.delete] using hkv
          have h1 := hml kv hkv'.1
          refine ⟨?_, h1.2⟩
          have : kv.2 ∈ p :: rest := hl ▸ h1.1
          rcases List.mem_cons.mp this with h | h
          · exact absurd (h ▸ h1.2).symm hkv'.2
          · exact h
        · intro q hq
          have hmem := hlm q (hrest q hq)
          have hne : (deref e.heap q).key ≠ (deref e.heap p).key := by
            intro heq
            have h1 : e.mCache.get? (deref e.heap q).key = some q :=
              GoMap.get?_of_mem hk hmem
            rw [heq, hkeyp] at h1
            exact hprest ((Option.some.inj h1) ▸ hq)
          show _ ∈ GoMap.delete e.mCache _
          simpa [GoMap.delete] using ⟨hmem, hne⟩
      have hs1 : SortedByTime (expireFront e p calls rest) := by
        exact (List.pairwise_cons.mp hsorted).2
      have hsafe1 : DeleteSafe (expireFront e p calls rest) :=
        fun q hq => hsafe q (hrest q hq)
      obtain ⟨e', he', hinv', hheap', hmem', hget'⟩ := ih _ rfl hinv1 hs1 hsafe1
      refine ⟨e', by simp [cleanupLoop, hgt, hcalls]; exact he', hinv', hheap', ?_, ?_⟩
      · intro q
        rw [hmem' q]
        constructor
        · intro h; exact ⟨List.mem_cons_of_mem _ h.1, h.2⟩
        · intro h
          rcases List.mem_cons.mp h.1 with h1 | h1
          · exact absurd (h1 ▸ h.2) hgt
          · exact ⟨h1, h.2⟩
      · intro K
        rw [hget' K]
        show Option.bind (GoMap.get? (GoMap.delete e.mCache _) K) _ = _
        rw [GoMap.get?_delete]
        by_cases hK : K = (deref e.heap p).key
        · have hle : ¬ expireTime < (deref e.heap p).timeStamp := hgt
          simp [hK, hkeyp, hle]
        · simp [hK, expireFront]

theorem wrapInt64_of_fits {x : Int} (h : fitsInt64 x) : wrapInt64 x = x := by
  unfold fitsInt64 at h
  unfold wrapInt64
  omega

theorem saveEntryInCache_expiryTime (e : encodeProm) (nowInSecs : Int) (entry : entryInfo)
    (entryLabels : GoMap String) :
    (saveEntryInCache e nowInSecs entry entryLabels).1.expiryTime = e.expiryTime := by
  unfold saveEntryInCache
  dsimp only
  split <;> rfl

theorem touchAll_expiryTime (touches : List (Int × entryInfo × GoMap String)) :
    ∀ e : encodeProm, (touchAll e touches).expiryTime = e.expiryTime := by
  induction touches with
  | nil => intro e; rfl
  | cons t ts ih =>
    intro e
    rw [touchAll_cons, ih, saveEntryInCache_expiryTime]

/-- What a sweep does to one key on a state that satisfies the cache invariant, is sorted by
time and has no nil vector to delete through, when the subtraction `now - expiryTime` does
not overflow: the sweep returns, and a key bound to an entry touched last at `t` is absent
afterwards when `t ≤ now - expiryTime` and still present, with the same time, otherwise. -/
theorem cleanupExpiredEntries_key {e : encodeProm} (hinv : CacheInv e) (hs : SortedByTime e)
    (hsafe : DeleteSafe e) (now : Int) (hfit : fitsInt64 (now - e.expiryTime)) :
    ∃ e', cleanupExpiredEntries e now = some e' ∧ CacheInv e' ∧
      ∀ K t, entryTime e K = some t →
        (absent e' K ↔ t ≤ now - e.expiryTime) ∧ (¬ t ≤ now - e.expiryTime → presentAt e' K t) := by
  obtain ⟨e', he', hinv', hheap, hmem, hget⟩ :=
    cleanupLoop_spec (now - e.expiryTime) e.mList e rfl hinv hs hsafe
  refine ⟨e', ?_, hinv', ?_⟩
  · unfold cleanupExpiredEntries
    simp only [wrapInt64_of_fits hfit]
    exact he'
  · intro K t ht
    obtain ⟨p, hp1, hp2, hp3, hp4⟩ := presentAt_of_entryTime hinv ht
    have hgetK : e'.mCache.get? K = if now - e.expiryTime < t then some p else none := by
      rw [hget K, hp1]
      simp [hp4]
    constructor
    · constructor
      · intro habs
        by_contra hcon
        have hlt : now - e.expiryTime < t := lt_of_not_ge hcon
        have h1 := habs.1
        rw [hgetK, if_pos hlt] at h1
        exact Option.noConfusion h1
      · intro hle
        have hnlt : ¬ now - e.expiryTime < t := not_lt.mpr hle
        refine ⟨by rw [hgetK, if_neg hnlt], ?_⟩
        intro q hq hkey
        rw [hheap] at hkey
        obtain ⟨hq1, hq2⟩ := (hmem q).mp hq
        have h1 := get?_key_of_inv hinv hq1
        rw [hkey, hp1] at h1
        have hqp : p = q := Option.some.inj h1
        subst hqp
        rw [hp4] at hq2
        exact hnlt hq2
    · intro hnle
      have hlt : now - e.expiryTime < t := lt_of_not_ge hnle
      refine ⟨p, by rw [hgetK, if_pos hlt], (hmem p).mpr ⟨hp2, by rw [hp4]; exact hlt⟩, ?_, ?_⟩
      · rw [hheap]; exact hp3
      · rw [hheap]; exact hp4

/-! ## Theorems on the series cache -/

/-- C1: after any sequence of touches (`saveEntryInCache`) made at non-decreasing times on a
new encoder with expiry `expiry`, followed by one sweep (`cleanupExpiredEntries`) at time
`now` whose subtraction `now - expiry` does not overflow, the sweep returns, and a key `K`
whose most recent touch was at time `t` is absent from the cache if and only if
`t ≤ now - expiry`; otherwise it is still present with `timeStamp = t`. -/
theorem sweep_after_touches (port promPrefix : String)
    (counters gauges histograms : GoMap metricInfo) (expiry : Int)
    (touches : List (Int × entryInfo × GoMap String))
    (hmono : (touches.map (·.1)).Pairwise (· ≤ ·)) (now : Int)
    (hfit : fitsInt64 (now - expiry)) (K : String) (t : Int)
    (hlast : lastTouch K touches = some t) :
    ∃ e', cleanupExpiredEntries
        (touchAll (emptyEncodeProm port promPrefix counters gauges histograms expiry) touches)
        now = some e' ∧
      (absent e' K ↔ t ≤ now - expiry) ∧ (¬ t ≤ now - expiry → presentAt e' K t) := by
  have hinv0 := emptyEncodeProm_inv port promPrefix counters gauges histograms expiry
  have hinv := touchAll_inv touches _ hinv0
  have hsafe : DeleteSafe (touchAll
      (emptyEncodeProm port promPrefix counters gauges histograms expiry) touches) :=
    touchAll_deleteSafe touches _ hinv0 (by simp [DeleteSafe, emptyEncodeProm])
  have hs : SortedByTime (touchAll
      (emptyEncodeProm port promPrefix counters gauges histograms expiry) touches) :=
    touchAll_sorted touches _ hinv0 (by simp [SortedByTime, emptyEncodeProm]) hmono
      (by simp [TouchedBefore, emptyEncodeProm])
  have hexp : (touchAll (emptyEncodeProm port promPrefix counters gauges histograms expiry)
      touches).expiryTime = expiry := by
    rw [touchAll_expiryTime]; rfl
  have htime : entryTime (touchAll
      (emptyEncodeProm port promPrefix counters gauges histograms expiry) touches) K = some t := by
    rw [touchAll_entryTime K touches _ hinv0]
    exact hlast
  obtain ⟨e', he', _, hkey⟩ := cleanupExpiredEntries_key hinv hs hsafe now (by rw [hexp]; exact hfit)
  refine ⟨e', he', ?_⟩
  have := hkey K t htime
  rw [hexp] at this
  exact this

/-- Witness of C1: expiry 2, touches of one key at times 0 and 1, sweep at time 2. -/
theorem sweep_after_touches_witness :
    ∃ e', cleanupExpiredEntries
        (touchAll (emptyEncodeProm ":9102" "" [] [] [] 2)
          [(0, ⟨⟨"K", []⟩, ⟨0⟩⟩, []), (1, ⟨⟨"K", []⟩, ⟨0⟩⟩, [])]) 2 = some e' ∧
      (absent e' "Kmap[]" ↔ (1 : Int) ≤ 2 - 2) ∧
      (¬ (1 : Int) ≤ 2 - 2 → presentAt e' "Kmap[]" 1) :=
  sweep_after_touches ":9102" "" [] [] [] 2
    [(0, ⟨⟨"K", []⟩, ⟨0⟩⟩, []), (1, ⟨⟨"K", []⟩, ⟨0⟩⟩, [])] (by decide) 2 (by decide)
    "Kmap[]" 1 (by decide)

/-- The four sweeps of the spec's expiry examples, evaluated, with expiry 2: after a touch
of `K` at time 0 a sweep at time 1 keeps the binding and a sweep at time 2 removes it; after
touches at times 0 and 1 a sweep at time 2 keeps it and a sweep at time 3 removes it. -/
theorem sweep_examples :
    (cleanupExpiredEntries (touchAll (emptyEncodeProm ":9102" "" [] [] [] 2)
        [(0, ⟨⟨"K", []⟩, ⟨0⟩⟩, [])]) 1).map (·.mCache) = some [("Kmap[]", 0)] ∧
      (cleanupExpiredEntries (touchAll (emptyEncodeProm ":9102" "" [] [] [] 2)
        [(0, ⟨⟨"K", []⟩, ⟨0⟩⟩, [])]) 2).map (·.mCache) = some [] ∧
      (cleanupExpiredEntries (touchAll (emptyEncodeProm ":9102" "" [] [] [] 2)
        [(0, ⟨⟨"K", []⟩, ⟨0⟩⟩, []), (1, ⟨⟨"K", []⟩, ⟨0⟩⟩, [])]) 2).map (·.mCache) =
          some [("Kmap[]", 0)] ∧
      (cleanupExpiredEntries (touchAll (emptyEncodeProm ":9102" "" [] [] [] 2)
        [(0, ⟨⟨"K", []⟩, ⟨0⟩⟩, []), (1, ⟨⟨"K", []⟩, ⟨0⟩⟩, [])]) 3).map (·.mCache) =
          some [] := by
  decide

theorem foldl_lastTouch_same_key (K : String) :
    ∀ (touches : List (Int × entryInfo × GoMap String)) (hne : touches ≠ []),
      (∀ t ∈ touches, generateCacheKey t.2.1.eInfo = K) → ∀ acc : Option Int,
      touches.foldl (fun last t => if generateCacheKey t.2.1.eInfo = K then some t.1 else last)
        acc = some (touches.getLast hne).1 := by
  intro touches
  induction touches with
  | nil => intro hne; exact absurd rfl hne
  | cons t ts ih =>
    intro hne hK acc
    have ht : generateCacheKey t.2.1.eInfo = K := hK t (List.mem_cons_self _ _)
    cases ts with
    | nil => simp [ht]
    | cons t' ts' =>
      rw [List.foldl_cons, List.getLast_cons (List.cons_ne_nil t' ts')]
      exact ih (List.cons_ne_nil t' ts') (fun x hx => hK x (List.mem_cons_of_mem _ hx)) _

theorem countP_key_eq_one {β : Type} {m : GoMap β} (hnd : m.keys.Nodup) {K : String} {v : β}
    (h : (K, v) ∈ m) : m.countP (fun kv => decide (kv.1 = K)) = 1 := by
  induction m with
  | nil => simp at h
  | cons hd tl ih =>
    obtain ⟨k0, v0⟩ := hd
    simp only [GoMap.keys, List.map_cons, List.nodup_cons] at hnd
    rcases List.mem_cons.mp h with h1 | h1
    · simp only [Prod.mk.injEq] at h1
      have hzero : List.countP (fun kv : String × β => decide (kv.1 = K)) tl = 0 := by
        rw [List.countP_eq_zero]
        intro kv hkv
        simp only [decide_eq_true_eq]
        rintro rfl
        exact hnd.1 (h1.1 ▸ List.mem_map_of_mem Prod.fst hkv)
      rw [List.countP_cons, hzero]
      simp [h1.1]
    · have hk : k0 ≠ K := by
        rintro rfl
        exact hnd.1 (List.mem_map_of_mem Prod.fst h1)
      rw [List.countP_cons, ih hnd.2 h1]
      simp [hk]

theorem countP_list_key_eq_one {e : encodeProm} (hinv : CacheInv e) {K : String} {t : Int}
    (h : presentAt e K t) :
    e.mList.countP (fun p => decide ((deref e.heap p).key = K)) = 1 := by
  obtain ⟨p, hp1, hp2, hp3, _⟩ := h
  have hcount : e.mList.count p = 1 := List.count_eq_one_of_mem hinv.1 hp2
  rw [← hcount, List.count]
  apply List.countP_congr
  intro q hq
  simp only [decide_eq_true_eq, beq_iff_eq]
  constructor
  · intro hkey
    have h1 := get?_key_of_inv hinv hq
    rw [hkey, hp1] at h1
    exact (Option.some.inj h1).symm
  · rintro rfl
    exact hp3

/-- C2: on every cache state that satisfies the cache invariant, after every non-empty
sequence of touches (`saveEntryInCache`) of one series key `K` the map has exactly one
binding with key `K`, the list has exactly one element whose entry has key `K`, and the map
binds `K` to that element, whose `timeStamp` is the time of the last touch. -/
theorem touches_same_key (e : encodeProm) (hinv : CacheInv e) (K : String)
    (touches : List (Int × entryInfo × GoMap String)) (hne : touches ≠ [])
    (hK : ∀ t ∈ touches, generateCacheKey t.2.1.eInfo = K) :
    (touchAll e touches).mCache.countP (fun kv => decide (kv.1 = K)) = 1 ∧
      (touchAll e touches).mList.countP
        (fun p => decide ((deref (touchAll e touches).heap p).key = K)) = 1 ∧
      presentAt (touchAll e touches) K (touches.getLast hne).1 := by
  have hinv' := touchAll_inv touches e hinv
  have htime : entryTime (touchAll e touches) K = some (touches.getLast hne).1 := by
    rw [touchAll_entryTime K touches e hinv]
    exact foldl_lastTouch_same_key K touches hne hK _
  have hpres := presentAt_of_entryTime hinv' htime
  refine ⟨?_, countP_list_key_eq_one hinv' hpres, hpres⟩
  obtain ⟨p, hp1, _, _, _⟩ := hpres
  exact countP_key_eq_one hinv'.2.2.2.2 (GoMap.mem_of_get? hp1)

/-- Witness of C2: a cache that already holds the key `Kmap[]` (touched at time 3) and the
key `Lmap[]`, and two more touches of `Kmap[]` at times 5 and 7. -/
theorem touches_same_key_witness :
    (touchAll (touchAll (emptyEncodeProm ":9102" "" [] [] [] 2)
        [(3, ⟨⟨"K", []⟩, ⟨0⟩⟩, []), (4, ⟨⟨"L", []⟩, ⟨0⟩⟩, [])])
        [(5, ⟨⟨"K", []⟩, ⟨0⟩⟩, []), (7, ⟨⟨"K", []⟩, ⟨1⟩⟩, [])]).mCache.countP
        (fun kv => decide (kv.1 = "Kmap[]")) = 1 ∧
      (touchAll (touchAll (emptyEncodeProm ":9102" "" [] [] [] 2)
        [(3, ⟨⟨"K", []⟩, ⟨0⟩⟩, []), (4, ⟨⟨"L", []⟩, ⟨0⟩⟩, [])])
        [(5, ⟨⟨"K", []⟩, ⟨0⟩⟩, []), (7, ⟨⟨"K", []⟩, ⟨1⟩⟩, [])]).mList.countP
        (fun p => decide ((deref (touchAll (touchAll (emptyEncodeProm ":9102" "" [] [] [] 2)
          [(3, ⟨⟨"K", []⟩, ⟨0⟩⟩, []), (4, ⟨⟨"L", []⟩, ⟨0⟩⟩, [])])
          [(5, ⟨⟨"K", []⟩, ⟨0⟩⟩, []), (7, ⟨⟨"K", []⟩, ⟨1⟩⟩, [])]).heap p).key = "Kmap[]")) = 1 ∧
      presentAt (touchAll (touchAll (emptyEncodeProm ":9102" "" [] [] [] 2)
        [(3, ⟨⟨"K", []⟩, ⟨0⟩⟩, []), (4, ⟨⟨"L", []⟩, ⟨0⟩⟩, [])])
        [(5, ⟨⟨"K", []⟩, ⟨0⟩⟩, []), (7, ⟨⟨"K", []⟩, ⟨1⟩⟩, [])]) "Kmap[]" 7 :=
  touches_same_key (touchAll (emptyEncodeProm ":9102" "" [] [] [] 2)
      [(3, ⟨⟨"K", []⟩, ⟨0⟩⟩, []), (4, ⟨⟨"L", []⟩, ⟨0⟩⟩, [])]) (by decide) "Kmap[]"
    [(5, ⟨⟨"K", []⟩, ⟨0⟩⟩, []), (7, ⟨⟨"K", []⟩, ⟨1⟩⟩, [])] (by simp) (by decide)

/-! ## `Encode`: the entries it returns -/

theorem keys_set {β : Type} (m : GoMap β) (k : String) (v : β) :
    (m.set k v).keys = if k ∈ m.keys then m.keys else m.keys ++ [k] := by
  induction m with
  | nil => simp [GoMap.set, GoMap.keys]
  | cons hd tl ih =>
    obtain ⟨k0, v0⟩ := hd
    by_cases h0 : k0 = k
    · simp [GoMap.set, GoMap.keys, h0]
    · have ih' : List.map Prod.fst (GoMap.set tl k v) =
          if k ∈ List.map Prod.fst tl then List.map Prod.fst tl
          else List.map Prod.fst tl ++ [k] := ih
      simp only [GoMap.set, h0, if_false, GoMap.keys, List.map_cons, List.mem_cons,
        Ne.symm h0, false_or, ih']
      split <;> simp

theorem keys_set_nodup {β : Type} {m : GoMap β} (h : m.keys.Nodup) (k : String) (v : β) :
    (m.set k v).keys.Nodup := by
  rw [keys_set]
  split
  · exact h
  · next hk =>
    rw [List.nodup_append]
    refine ⟨h, List.nodup_singleton _, ?_⟩
    intro a ha hb
    simp only [List.mem_singleton] at hb
    exact hk (hb ▸ ha)

theorem foldl_set_get? (g : String → String) :
    ∀ (names : List String) (m : GoMap String) (f : String),
      (names.foldl (fun entryLabels t => entryLabels.set t (g t)) m).get? f =
        if f ∈ names then some (g f) else m.get? f := by
  intro names
  induction names with
  | nil => intro m f; simp
  | cons t ts ih =>
    intro m f
    rw [List.foldl_cons, ih]
    by_cases hts : f ∈ ts
    · simp [hts]
    · by_cases hft : f = t
      · subst hft
        simp [hts, GoMap.get?_set_self]
      · simp [hts, hft, GoMap.get?_set_ne _ _ hft]

theorem foldl_set_nodup (g : String → String) :
    ∀ (names : List String) (m : GoMap String), m.keys.Nodup →
      (names.foldl (fun entryLabels t => entryLabels.set t (g t)) m).keys.Nodup := by
  intro names
  induction names with
  | nil => intro m h; exact h
  | cons t ts ih =>
    intro m h
    rw [List.foldl_cons]
    exact ih _ (keys_set_nodup h _ _)

variable {V : Type}

theorem buildLabels_get? (lib : GoLib V) (metric : GoMap V) (labelNames : List String)
    (f : String) :
    (buildLabels lib metric labelNames).get? f =
      if f ∈ labelNames then some (lib.sprintv (index lib metric f)) else none := by
  unfold buildLabels
  rw [foldl_set_get? (fun t => lib.sprintv (index lib metric t))]
  rfl

theorem buildLabels_nodup (lib : GoLib V) (metric : GoMap V) (labelNames : List String) :
    (buildLabels lib metric labelNames).keys.Nodup := by
  unfold buildLabels
  exact foldl_set_nodup (fun t => lib.sprintv (index lib metric t)) _ _ (by simp [GoMap.keys])

theorem saveEntryInCache_config (e : encodeProm) (nowInSecs : Int) (entry : entryInfo)
    (entryLabels : GoMap String) :
    (saveEntryInCache e nowInSecs entry entryLabels).1.promPrefix = e.promPrefix ∧
      (saveEntryInCache e nowInSecs entry entryLabels).1.gauges = e.gauges ∧
      (saveEntryInCache e nowInSecs entry entryLabels).1.counters = e.counters := by
  unfold saveEntryInCache
  dsimp only
  split <;> exact ⟨rfl, rfl, rfl⟩

theorem counterRound_out (lib : GoLib V) (clock : Nat → Int) (metric : GoMap V)
    (acc : encodeProm × List entryInfo) (kv : String × metricInfo) :
    (counterRound lib clock metric acc kv).2 =
      acc.2 ++ entriesOf lib acc.1.promPrefix metric kv := by
  cases h1 : metric.get? kv.2.input with
  | none => simp [counterRound, entriesOf, h1]
  | some value =>
    cases h2 : lib.ParseFloat (lib.sprintv value) with
    | none => simp [counterRound, entriesOf, h1, h2]
    | some v => simp [counterRound, entriesOf, h1, h2]

theorem encodeGaugeBody_out (lib : GoLib V) (clock : Nat → Int) (metric : GoMap V)
    (acc : encodeProm × List entryInfo) (kv : String × metricInfo) :
    (encodeGaugeBody lib clock metric acc kv).2 =
      acc.2 ++ entriesOf lib acc.1.promPrefix metric kv := by
  cases h1 : metric.get? kv.2.input with
  | none => simp [encodeGaugeBody, entriesOf, h1]
  | some value =>
    cases h2 : lib.ParseFloat (lib.sprintv value) with
    | none => simp [encodeGaugeBody, entriesOf, h1, h2]
    | some v => simp [encodeGaugeBody, entriesOf, h1, h2]

theorem counterRound_config (lib : GoLib V) (clock : Nat → Int) (metric : GoMap V)
    (acc : encodeProm × List entryInfo) (kv : String × metricInfo) :
    (counterRound lib clock metric acc kv).1.promPrefix = acc.1.promPrefix ∧
      (counterRound lib clock metric acc kv).1.gauges = acc.1.gauges ∧
      (counterRound lib clock metric acc kv).1.counters = acc.1.counters := by
  cases h1 : metric.get? kv.2.input with
  | none => simp [counterRound, h1]
  | some value =>
    cases h2 : lib.ParseFloat (lib.sprintv value) with
    | none => simp [counterRound, h1, h2]
    | some v =>
      cases h3 : kv.2.promCounter with
      | none =>
        simp only [counterRound, h1, h2, h3]
        exact saveEntryInCache_config _ _ _ _
      | some vec =>
        simp only [counterRound, h1, h2, h3]
        exact saveEntryInCache_config _ _ _ _

theorem encodeGaugeBody_config (lib : GoLib V) (clock : Nat → Int) (metric : GoMap V)
    (acc : encodeProm × List entryInfo) (kv : String × metricInfo) :
    (encodeGaugeBody lib clock metric acc kv).1.promPrefix = acc.1.promPrefix ∧
      (encodeGaugeBody lib clock metric acc kv).1.gauges = acc.1.gauges ∧
      (encodeGaugeBody lib clock metric acc kv).1.counters = acc.1.counters := by
  cases h1 : metric.get? kv.2.input with
  | none => simp [encodeGaugeBody, h1]
  | some value =>
    cases h2 : lib.ParseFloat (lib.sprintv value) with
    | none => simp [encodeGaugeBody, h1, h2]
    | some v =>
      cases h3 : kv.2.promGauge with
      | none =>
        simp only [encodeGaugeBody, h1, h2, h3]
        exact saveEntryInCache_config _ _ _ _
      | some vec =>
        simp only [encodeGaugeBody, h1, h2, h3]
        exact saveEntryInCache_config _ _ _ _

theorem pairRound_out (lib : GoLib V) (clock : Nat → Int) (acc : encodeProm × List entryInfo)
    (pair : GoMap V × Kind × String × metricInfo) :
    (pairRound lib clock acc pair).2 =
      acc.2 ++ entriesOf lib acc.1.promPrefix pair.1 pair.2.2 := by
  unfold pairRound
  cases pair.2.1 with
  | gauge => exact encodeGaugeBody_out _ _ _ _ _
  | counter => exact counterRound_out _ _ _ _ _

theorem pairRound_config (lib : GoLib V) (clock : Nat → Int)
    (acc : encodeProm × List entryInfo) (pair : GoMap V × Kind × String × metricInfo) :
    (pairRound lib clock acc pair).1.promPrefix = acc.1.promPrefix ∧
      (pairRound lib clock acc pair).1.gauges = acc.1.gauges ∧
      (pairRound lib clock acc pair).1.counters = acc.1.counters := by
  unfold pairRound
  cases pair.2.1 with
  | gauge => exact encodeGaugeBody_config _ _ _ _ _
  | counter => exact counterRound_config _ _ _ _ _

theorem pairRound_shift (lib : GoLib V) (clock : Nat → Int)
    (acc : encodeProm × List entryInfo) (pair : GoMap V × Kind × String × metricInfo) :
    pairRound lib clock acc pair =
      ((pairRound lib clock (acc.1, []) pair).1,
        acc.2 ++ (pairRound lib clock (acc.1, []) pair).2) := by
  unfold pairRound
  cases pair.2.1 with
  | gauge =>
    cases h1 : pair.1.get? pair.2.2.2.input with
    | none => simp [encodeGaugeBody, h1]
    | some value =>
      cases h2 : lib.ParseFloat (lib.sprintv value) with
      | none => simp [encodeGaugeBody, h1, h2]
      | some v => simp [encodeGaugeBody, h1, h2]
  | counter =>
    cases h1 : pair.1.get? pair.2.2.2.input with
    | none => simp [counterRound, h1]
    | some value =>
      cases h2 : lib.ParseFloat (lib.sprintv value) with
      | none => simp [counterRound, h1, h2]
      | some v => simp [counterRound, h1, h2]

theorem foldl_pairRound_shift (lib : GoLib V) (clock : Nat → Int) :
    ∀ (l : List (GoMap V × Kind × String × metricInfo)) (acc : encodeProm × List entryInfo),
      l.foldl (pairRound lib clock) acc =
        ((l.foldl (pairRound lib clock) (acc.1, [])).1,
          acc.2 ++ (l.foldl (pairRound lib clock) (acc.1, [])).2) := by
  intro l
  induction l with
  | nil => intro acc; simp
  | cons x xs ih =>
    intro acc
    rw [List.foldl_cons, List.foldl_cons, ih (pairRound lib clock acc x),
      ih (pairRound lib clock (acc.1, []) x)]
    have h := pairRound_shift lib clock acc x
    have h1 : (pairRound lib clock acc x).1 = (pairRound lib clock (acc.1, []) x).1 := by
      rw [h]
    have h2 : (pairRound lib clock acc x).2 =
        acc.2 ++ (pairRound lib clock (acc.1, []) x).2 := by
      rw [h]
    rw [h1, h2, List.append_assoc]

theorem foldl_pairRound_config (lib : GoLib V) (clock : Nat → Int) :
    ∀ (l : List (GoMap V × Kind × String × metricInfo)) (acc : encodeProm × List entryInfo),
      (l.foldl (pairRound lib clock) acc).1.promPrefix = acc.1.promPrefix ∧
        (l.foldl (pairRound lib clock) acc).1.gauges = acc.1.gauges ∧
        (l.foldl (pairRound lib clock) acc).1.counters = acc.1.counters := by
  intro l
  induction l with
  | nil => intro acc; exact ⟨rfl, rfl, rfl⟩
  | cons x xs ih =>
    intro acc
    rw [List.foldl_cons]
    obtain ⟨a1, a2, a3⟩ := ih (pairRound lib clock acc x)
    obtain ⟨b1, b2, b3⟩ := pairRound_config lib clock acc x
    exact ⟨a1.trans b1, a2.trans b2, a3.trans b3⟩

theorem foldl_pairRound_out (lib : GoLib V) (clock : Nat → Int) :
    ∀ (l : List (GoMap V × Kind × String × metricInfo)) (acc : encodeProm × List entryInfo),
      (l.foldl (pairRound lib clock) acc).2 =
        acc.2 ++ l.flatMap (fun pair => entriesOf lib acc.1.promPrefix pair.1 pair.2.2) := by
  intro l
  induction l with
  | nil => intro acc; simp
  | cons x xs ih =>
    intro acc
    rw [List.foldl_cons, ih, pairRound_out, (pairRound_config lib clock acc x).1,
      List.flatMap_cons, List.append_assoc]

theorem EncodeGauge_eq_foldl (lib : GoLib V) (clock : Nat → Int) (e : encodeProm)
    (metric : GoMap V) :
    EncodeGauge lib clock e metric =
      (e.gauges.map (fun kv => (metric, Kind.gauge, kv))).foldl (pairRound lib clock) (e, []) := by
  unfold EncodeGauge
  rw [List.foldl_map]
  rfl

theorem pairs_congr {e e' : encodeProm} (hg : e'.gauges = e.gauges)
    (hc : e'.counters = e.counters) (metrics : List (GoMap V)) :
    pairs e' metrics = pairs e metrics := by
  unfold pairs
  rw [hg, hc]

/-! ### Rounds that panic -/

theorem foldlOption_append {α β : Type} (f : β → α → Option β) :
    ∀ (l l' : List α) (b : β),
      foldlOption f b (l ++ l') = (foldlOption f b l).bind (fun b' => foldlOption f b' l') := by
  intro l
  induction l with
  | nil => intro l' b; rfl
  | cons a rest ih =>
    intro l' b
    cases h : f b a with
    | none => simp [foldlOption, h]
    | some b' => simp [foldlOption, h, ih]

theorem foldlOption_map {α β γ : Type} (g : γ → α) (f : β → α → Option β) :
    ∀ (l : List γ) (b : β),
      foldlOption f b (l.map g) = foldlOption (fun b c => f b (g c)) b l := by
  intro l
  induction l with
  | nil => intro b; rfl
  | cons c rest ih =>
    intro b
    cases h : f b (g c) with
    | none => simp [foldlOption, h]
    | some b' => simp [foldlOption, h, ih]

/-- A loop whose rounds panic exactly on the elements that satisfy `p` panics when the list
has such an element, and otherwise is the fold of the rounds. -/
theorem foldlOption_eq_foldl {α β : Type} (f : β → α → Option β) (g : β → α → β)
    (p : α → Bool) (h : ∀ b a, f b a = if p a = true then none else some (g b a)) :
    ∀ (l : List α) (b : β),
      foldlOption f b l = if l.any p = true then none else some (l.foldl g b) := by
  intro l
  induction l with
  | nil => intro b; rfl
  | cons a rest ih =>
    intro b
    by_cases hp : p a = true
    · simp [foldlOption, h, hp]
    · simp only [foldlOption, h, hp, if_false, ih, List.any_cons, List.foldl_cons]
      simp

/-- A round that returns the state as it is can be left out of the loop. -/
theorem foldlOption_skip {α β : Type} (f : β → α → Option β) (a : α)
    (h : ∀ b, f b a = some b) (l l' : List α) (b : β) :
    foldlOption f b (l ++ a :: l') = foldlOption f b (l ++ l') := by
  rw [foldlOption_append, foldlOption_append]
  congr 1
  funext b'
  simp [foldlOption, h]

theorem encodeCounterBody_eq (lib : GoLib V) (clock : Nat → Int) (metric : GoMap V)
    (acc : encodeProm × List entryInfo) (kv : String × metricInfo) :
    encodeCounterBody lib clock metric acc kv =
      if addPanics lib metric kv = true then none
      else some (counterRound lib clock metric acc kv) := by
  cases h1 : metric.get? kv.2.input with
  | none => simp [encodeCounterBody, counterRound, addPanics, h1]
  | some value =>
    cases h2 : lib.ParseFloat (lib.sprintv value) with
    | none => simp [encodeCounterBody, counterRound, addPanics, h1, h2]
    | some v =>
      cases h3 : kv.2.promCounter with
      | none => simp [encodeCounterBody, counterRound, addPanics, h1, h2, h3]
      | some vec =>
        by_cases h4 : v.ltZero = true
        · simp [encodeCounterBody, addPanics, h1, h2, h3, h4]
        · simp [encodeCounterBody, counterRound, addPanics, h1, h2, h3, h4]

theorem encodePair_eq (lib : GoLib V) (clock : Nat → Int) (acc : encodeProm × List entryInfo)
    (pair : GoMap V × Kind × String × metricInfo) :
    encodePair lib clock acc pair =
      if pairPanics lib pair = true then none else some (pairRound lib clock acc pair) := by
  unfold encodePair pairPanics pairRound
  cases pair.2.1 with
  | gauge => simp
  | counter => exact encodeCounterBody_eq _ _ _ _ _

/-- Going through a list of pairs panics when the round of one of them does, and otherwise
is the fold of the rounds. -/
theorem foldlOption_encodePair (lib : GoLib V) (clock : Nat → Int)
    (l : List (GoMap V × Kind × String × metricInfo)) (acc : encodeProm × List entryInfo) :
    foldlOption (encodePair lib clock) acc l =
      if l.any (pairPanics lib) = true then none
      else some (l.foldl (pairRound lib clock) acc) :=
  foldlOption_eq_foldl _ _ _ (encodePair_eq lib clock) l acc

theorem EncodeCounter_eq_foldlOption (lib : GoLib V) (clock : Nat → Int) (e : encodeProm)
    (metric : GoMap V) :
    EncodeCounter lib clock e metric =
      foldlOption (encodePair lib clock) (e, [])
        (e.counters.map (fun kv => (metric, Kind.counter, kv))) := by
  unfold EncodeCounter
  rw [foldlOption_map]
  rfl

theorem gauge_pairs_no_panic (lib : GoLib V) (gauges : GoMap metricInfo) (metric : GoMap V) :
    (gauges.map (fun kv => (metric, Kind.gauge, kv))).any (pairPanics lib) = false := by
  rw [List.any_eq_false]
  intro pair hp
  obtain ⟨kv, _, rfl⟩ := List.mem_map.mp hp
  simp [pairPanics]

/-- The rounds of `EncodeGauge` and then of `EncodeCounter` on a record, with the slices
they return appended to `out`, are the rounds of the record's pairs in order. -/
theorem record_rounds_eq_foldl (lib : GoLib V) (clock : Nat → Int)
    (acc : encodeProm × List entryInfo) (metric : GoMap V) :
    (((EncodeGauge lib clock acc.1 metric).1.counters.map
          (fun kv => (metric, Kind.counter, kv))).foldl (pairRound lib clock)
          ((EncodeGauge lib clock acc.1 metric).1, [])).1 =
        ((acc.1.gauges.map (fun kv => (metric, Kind.gauge, kv)) ++
          acc.1.counters.map (fun kv => (metric, Kind.counter, kv))).foldl
          (pairRound lib clock) acc).1 ∧
      acc.2 ++ (EncodeGauge lib clock acc.1 metric).2 ++
        (((EncodeGauge lib clock acc.1 metric).1.counters.map
          (fun kv => (metric, Kind.counter, kv))).foldl (pairRound lib clock)
          ((EncodeGauge lib clock acc.1 metric).1, [])).2 =
        ((acc.1.gauges.map (fun kv => (metric, Kind.gauge, kv)) ++
          acc.1.counters.map (fun kv => (metric, Kind.counter, kv))).foldl
          (pairRound lib clock) acc).2 := by
  rw [List.foldl_append, EncodeGauge_eq_foldl]
  have hcfg := foldl_pairRound_config lib clock
    (acc.1.gauges.map (fun kv => (metric, Kind.gauge, kv))) (acc.1, [])
  rw [hcfg.2.2]
  rw [foldl_pairRound_shift lib clock (acc.1.gauges.map (fun kv => (metric, Kind.gauge, kv))) acc]
  rw [foldl_pairRound_shift lib clock (acc.1.counters.map (fun kv => (metric, Kind.counter, kv)))
    (_, acc.2 ++ _)]
  exact ⟨rfl, rfl⟩

theorem encodeBody_eq_foldlOption (lib : GoLib V) (clock : Nat → Int)
    (acc : encodeProm × List entryInfo) (metric : GoMap V) :
    encodeBody lib clock acc metric =
      foldlOption (encodePair lib clock) acc
        (acc.1.gauges.map (fun kv => (metric, Kind.gauge, kv)) ++
          acc.1.counters.map (fun kv => (metric, Kind.counter, kv))) := by
  have hcfg := foldl_pairRound_config lib clock
    (acc.1.gauges.map (fun kv => (metric, Kind.gauge, kv))) (acc.1, [])
  have hc : (EncodeGauge lib clock acc.1 metric).1.counters = acc.1.counters := by
    rw [EncodeGauge_eq_foldl]
    exact hcfg.2.2
  obtain ⟨h1, h2⟩ := record_rounds_eq_foldl lib clock acc metric
  unfold encodeBody
  dsimp only
  rw [EncodeCounter_eq_foldlOption, foldlOption_encodePair, foldlOption_encodePair,
    List.any_append, gauge_pairs_no_panic, Bool.false_or, hc]
  by_cases hp : (acc.1.counters.map (fun kv => (metric, Kind.counter, kv))).any
      (pairPanics lib) = true
  · simp only [hp, if_true]
  · simp only [hp, Bool.false_eq_true, if_false, Option.some.injEq]
    rw [hc] at h1 h2
    apply Prod.ext
    · exact h1
    · exact h2

/-- The method `Encode` goes through the (record, descriptor) pairs of the batch in order. -/
theorem Encode_eq_foldlOption_pairs (lib : GoLib V) (clock : Nat → Int) :
    ∀ (metrics : List (GoMap V)) (acc : encodeProm × List entryInfo),
      foldlOption (encodeBody lib clock) acc metrics =
        foldlOption (encodePair lib clock) acc (pairs acc.1 metrics) := by
  intro metrics
  induction metrics with
  | nil => intro acc; rfl
  | cons m ms ih =>
    intro acc
    have hcons : pairs acc.1 (m :: ms) =
        (acc.1.gauges.map (fun kv => (m, Kind.gauge, kv)) ++
          acc.1.counters.map (fun kv => (m, Kind.counter, kv))) ++ pairs acc.1 ms := by
      unfold pairs
      rw [List.flatMap_cons]
    rw [hcons, foldlOption_append, ← encodeBody_eq_foldlOption]
    cases hstep : encodeBody lib clock acc m with
    | none => simp [foldlOption, hstep]
    | some acc' =>
      simp only [foldlOption, hstep, Option.some_bind]
      rw [ih acc']
      rw [encodeBody_eq_foldlOption, foldlOption_encodePair] at hstep
      split at hstep
      · exact Option.noConfusion hstep
      · have hacc : acc' = _ := (Option.some.inj hstep).symm
        have hcfg := foldl_pairRound_config lib clock
          (acc.1.gauges.map (fun kv => (m, Kind.gauge, kv)) ++
            acc.1.counters.map (fun kv => (m, Kind.counter, kv))) acc
        rw [← hacc] at hcfg
        rw [pairs_congr hcfg.2.1 hcfg.2.2 ms]

/-- The method `Encode` panics when some round of the batch does, and otherwise returns what
the rounds of the pairs of the batch give. -/
theorem Encode_eq (lib : GoLib V) (clock : Nat → Int) (e : encodeProm)
    (metrics : List (GoMap V)) :
    Encode lib clock e metrics =
      if batchPanics lib e metrics = true then none
      else some ((pairs e metrics).foldl (pairRound lib clock) (e, [])) := by
  unfold Encode batchPanics
  rw [Encode_eq_foldlOption_pairs, foldlOption_encodePair]
theorem entriesOf_valid (lib : GoLib V) (promPrefix : String) (metric : GoMap V)
    (kv : String × metricInfo) {value : V} {v : float64}
    (hget : metric.get? kv.2.input = some value)
    (hconv : lib.ParseFloat (lib.sprintv value) = some v) :
    entriesOf lib promPrefix metric kv =
      [⟨⟨promPrefix ++ kv.1, buildLabels lib metric kv.2.labelNames⟩, v⟩] := by
  simp [entriesOf, hget, hconv]

theorem pairRound_bad (lib : GoLib V) (clock : Nat → Int) (acc : encodeProm × List entryInfo)
    (bad : GoMap V × Kind × String × metricInfo)
    (hbad : bad.1.get? bad.2.2.2.input = none ∨
      ∃ value, bad.1.get? bad.2.2.2.input = some value ∧
        lib.ParseFloat (lib.sprintv value) = none) :
    pairRound lib clock acc bad = acc := by
  unfold pairRound
  rcases hbad with h | ⟨value, h1, h2⟩
  · cases bad.2.1 with
    | gauge => simp [encodeGaugeBody, h]
    | counter => simp [counterRound, h]
  · cases bad.2.1 with
    | gauge => simp [encodeGaugeBody, h1, h2]
    | counter => simp [counterRound, h1, h2]

theorem pairPanics_bad (lib : GoLib V) (bad : GoMap V × Kind × String × metricInfo)
    (hbad : bad.1.get? bad.2.2.2.input = none ∨
      ∃ value, bad.1.get? bad.2.2.2.input = some value ∧
        lib.ParseFloat (lib.sprintv value) = none) :
    pairPanics lib bad = false := by
  unfold pairPanics
  rcases hbad with h | ⟨value, h1, h2⟩
  · cases bad.2.1 with
    | gauge => rfl
    | counter => simp [addPanics, h]
  · cases bad.2.1 with
    | gauge => rfl
    | counter => simp [addPanics, h1, h2]

theorem encodePair_bad (lib : GoLib V) (clock : Nat → Int) (acc : encodeProm × List entryInfo)
    (bad : GoMap V × Kind × String × metricInfo)
    (hbad : bad.1.get? bad.2.2.2.input = none ∨
      ∃ value, bad.1.get? bad.2.2.2.input = some value ∧
        lib.ParseFloat (lib.sprintv value) = none) :
    encodePair lib clock acc bad = some acc := by
  rw [encodePair_eq, pairPanics_bad lib bad hbad, pairRound_bad lib clock acc bad hbad]
  simp

/-- What `Encode` returns when no round of the batch panics. -/
theorem Encode_out (lib : GoLib V) (clock : Nat → Int) (e : encodeProm)
    (metrics : List (GoMap V)) (hadd : batchPanics lib e metrics = false) :
    ∃ e', Encode lib clock e metrics =
      some (e', (pairs e metrics).flatMap
        (fun pair => entriesOf lib e.promPrefix pair.1 pair.2.2)) := by
  refine ⟨((pairs e metrics).foldl (pairRound lib clock) (e, [])).1, ?_⟩
  rw [Encode_eq, hadd]
  simp only [Bool.false_eq_true, if_false, Option.some.injEq]
  refine Prod.ext rfl ?_
  rw [foldl_pairRound_out]
  simp

/-! ## Theorems on `Encode` -/

/-- The end-to-end example of the spec, evaluated: `Encode` returns the one entry
`{bytes_total, {srcIP: "10.0.0.1"}, 100}`. -/
theorem Encode_example (clock : Nat → Int) :
    (Encode exampleLib clock (emptyEncodeProm ":9102" "" [bytesTotal] [] [] 2)
        [exampleRecord]).map Prod.snd =
      some [⟨⟨"bytes_total", [("srcIP", "10.0.0.1")]⟩, ⟨0x4059000000000000⟩⟩] := by
  rfl

/-- A gauge takes the negative value on which a counter panics: on the record
`{Bytes: -5, srcIP: "10.0.0.1"}`, `Encode` with the gauge `bytes_gauge` returns one entry. -/
theorem Encode_negative_gauge_example (clock : Nat → Int) :
    (Encode exampleLib clock (emptyEncodeProm ":9102" "" [] [bytesGauge] [] 2)
        [negativeRecord]).map Prod.snd =
      some [⟨⟨"bytes_gauge", [("srcIP", "10.0.0.1")]⟩, ⟨0xC014000000000000⟩⟩] := by
  rfl

/-- The batch of the witness of amended C4, evaluated: `Encode` returns, with the one entry
of `bytes_total`. -/
theorem Encode_skips_example (clock : Nat → Int) :
    (Encode exampleLib clock (emptyEncodeProm ":9102" "" [bytesTotal, packetsTotal] [] [] 2)
        [exampleRecord]).map Prod.snd =
      some [⟨⟨"bytes_total", [("srcIP", "10.0.0.1")]⟩, ⟨0x4059000000000000⟩⟩] := by
  rfl

/-- C5, at the failing input: an encoder whose only descriptor is the histogram `flow_size`
on the value field `Bytes`, and the record `{Bytes: 100, srcIP: "10.0.0.1"}`, in which
`Bytes` is present and numeric. `Encode` returns no entry and leaves the state as it was:
no `Observe` call, no cache entry. -/
theorem Encode_histogram_not_encoded (clock : Nat → Int) :
    Encode exampleLib clock (emptyEncodeProm ":9102" "" [] [] [flowSize] 2) [exampleRecord] =
      some (emptyEncodeProm ":9102" "" [] [] [flowSize] 2, []) := by
  rfl

end encode

/-! ## Theorems on the informers -/

namespace informers

theorem infoForIP_eq_head (idx : Indexer Ptr) (ip : String) :
    infoForIP idx ip = (held idx ip).head? := by
  unfold infoForIP held
  cases idx.ByIndex IndexIP ip with
  | error err => rfl
  | ok objs =>
    cases objs with
    | nil => rfl
    | cons obj rest => rfl

/-- The pointer `fetchInformers` returns: the first hit of the Pod index, else of the Node
index, else of the Service index. -/
theorem fetchInformers_result (k : Informers) (ip : String) :
    (fetchInformers k ip).2 =
      match (held k.pods ip).head? with
      | some pod => some pod
      | none =>
        match (held k.nodes ip).head? with
        | some node => some node
        | none => (held k.services ip).head? := by
  unfold fetchInformers
  rw [infoForIP_eq_head, infoForIP_eq_head, infoForIP_eq_head]
  cases (held k.pods ip).head? with
  | some pod =>
    dsimp only
    split <;> rfl
  | none =>
    cases (held k.nodes ip).head? with
    | some node => rfl
    | none =>
      cases (held k.services ip).head? with
      | some svc => rfl
      | none => rfl

/-- C6: for every IP and every content of the three indices, `fetchInformers` returns the
first entity the Pod index holds under the IP if there is one, otherwise the first the Node
index holds, otherwise the first the Service index holds, otherwise nothing; so a Pod wins
over a Service indexed under the same IP. -/
theorem fetchInformers_precedence (k : Informers) (ip : String) :
    (fetchInformers k ip).2 =
      match (held k.pods ip).head? with
      | some pod => some pod
      | none =>
        match (held k.nodes ip).head? with
        | some node => some node
        | none => (held k.services ip).head? := by
  unfold fetchInformers
  rw [infoForIP_eq_head, infoForIP_eq_head, infoForIP_eq_head]
  cases (held k.pods ip).head? with
  | some pod =>
    dsimp only
    split <;> rfl
  | none =>
    cases (held k.nodes ip).head? with
    | some node => rfl
    | none =>
      cases (held k.services ip).head? with
      | some svc => rfl
      | none => rfl

/-- C7: for every IP, either none of the Pod, Node and Service indices holds an entity under
the IP and `GetInfo` returns the error `informers can't find IP <ip>`, or one of them does
and `GetInfo` returns an entity and no error. -/
theorem GetInfo_error_iff_not_found (k : Informers) (ip : String) :
    (held k.pods ip = [] ∧ held k.nodes ip = [] ∧ held k.services ip = [] ∧
        (GetInfo k ip).2 = .error ("informers can't find IP " ++ ip)) ∨
      (¬ (held k.pods ip = [] ∧ held k.nodes ip = [] ∧ held k.services ip = []) ∧
        ∃ info, (GetInfo k ip).2 = .ok info) := by
  have hfetch := fetchInformers_result k ip
  unfold GetInfo
  cases hp : held k.pods ip with
  | cons pod pods =>
    right
    rw [hp] at hfetch
    simp only [List.head?_cons] at hfetch
    refine ⟨by simp, pod, ?_⟩
    cases hf : fetchInformers k ip with
    | mk k1 r =>
      rw [hf] at hfetch
      simp only at hfetch
      subst hfetch
      dsimp only
      split <;> rfl
  | nil =>
    rw [hp] at hfetch
    simp only [List.head?_nil] at hfetch
    cases hn : held k.nodes ip with
    | cons node nodes =>
      right
      rw [hn] at hfetch
      simp only [List.head?_cons] at hfetch
      refine ⟨by simp, node, ?_⟩
      cases hf : fetchInformers k ip with
      | mk k1 r =>
        rw [hf] at hfetch
        simp only at hfetch
        subst hfetch
        dsimp only
        split <;> rfl
    | nil =>
      rw [hn] at hfetch
      simp only [List.head?_nil] at hfetch
      cases hs : held k.services ip with
      | cons svc svcs =>
        right
        rw [hs] at hfetch
        simp only [List.head?_cons] at hfetch
        refine ⟨by simp, svc, ?_⟩
        cases hf : fetchInformers k ip with
        | mk k1 r =>
          rw [hf] at hfetch
          simp only at hfetch
          subst hfetch
          dsimp only
          split <;> rfl
      | nil =>
        left
        rw [hs] at hfetch
        simp only [List.head?_nil] at hfetch
        refine ⟨rfl, rfl, rfl, ?_⟩
        cases hf : fetchInformers k ip with
        | mk k1 r =>
          rw [hf] at hfetch
          simp only at hfetch
          subst hfetch
          rfl

/-- C8: when the first owner reference of an entity is a ReplicaSet that the ReplicaSet
index holds under the key `namespace/name` and that has at least one owner reference,
`getOwner` returns the kind and the name of the first owner reference of the ReplicaSet. -/
theorem getOwner_of_replicaSet_owner (k : Informers) (info : Info)
    (ownerReference : OwnerReference) (others : List OwnerReference) (rsInfo : ObjectMeta)
    (rsOwner : OwnerReference) (rsOthers : List OwnerReference)
    (hrefs : info.OwnerReferences = ownerReference :: others)
    (hkind : ownerReference.Kind = "ReplicaSet")
    (hfound : k.replicaSets.GetByKey (info.Namespace ++ "/" ++ ownerReference.Name) =
      .ok (some rsInfo))
    (hrs : rsInfo.OwnerReferences = rsOwner :: rsOthers) :
    getOwner k info = { Type_ := rsOwner.Kind, Name := rsOwner.Name } := by
  unfold getOwner
  simp only [hrefs, hkind, hfound, hrs, ne_eq, not_true_eq_false, if_false]

/-- Witness of C8: a Pod owned by the ReplicaSet `foo-5db`, itself owned by the Deployment
`foo`, resolves to `Owner{Deployment, foo}`. -/
theorem getOwner_of_replicaSet_owner_witness :
    getOwner informersWithReplicaSet podOfReplicaSet =
      { Type_ := (⟨"Deployment", "foo"⟩ : OwnerReference).Kind,
        Name := (⟨"Deployment", "foo"⟩ : OwnerReference).Name } :=
  getOwner_of_replicaSet_owner informersWithReplicaSet podOfReplicaSet ⟨"ReplicaSet", "foo-5db"⟩
    [] replicaSetOfDeployment ⟨"Deployment", "foo"⟩ [] rfl rfl rfl rfl

/-- C9, as the claim states it, is false: a Pod whose first owner reference is the
ReplicaSet `foo-5db`, missing from the ReplicaSet index, does not resolve to
`Owner{ReplicaSet, foo-5db}`; it resolves to itself. -/
theorem getOwner_missing_replicaSet_counterexample :
    getOwner informersEmpty podOfReplicaSet = { Type_ := "Pod", Name := "foo-5db-x2x" } ∧
      getOwner informersEmpty podOfReplicaSet ≠ { Type_ := "ReplicaSet", Name := "foo-5db" } := by
  constructor
  · rfl
  · decide

/-- C9, amended: when the first owner reference of an entity is a ReplicaSet that is missing
from the ReplicaSet index, or present there with no owner reference of its own, `getOwner`
returns the entity itself as the owner: `Owner{Type: entity.Type, Name: entity.Name}`. -/
theorem getOwner_of_unresolved_replicaSet (k : Informers) (info : Info)
    (ownerReference : OwnerReference) (others : List OwnerReference)
    (hrefs : info.OwnerReferences = ownerReference :: others)
    (hkind : ownerReference.Kind = "ReplicaSet")
    (hrs : k.replicaSets.GetByKey (info.Namespace ++ "/" ++ ownerReference.Name) = .ok none ∨
      ∃ rsInfo, k.replicaSets.GetByKey (info.Namespace ++ "/" ++ ownerReference.Name) =
        .ok (some rsInfo) ∧ rsInfo.OwnerReferences = []) :
    getOwner k info = { Type_ := info.Type_, Name := info.Name } := by
  unfold getOwner
  rcases hrs with h | ⟨rsInfo, h1, h2⟩
  · simp only [hrefs, hkind, h, ne_eq, not_true_eq_false, if_false]
  · simp only [hrefs, hkind, h1, h2, ne_eq, not_true_eq_false, if_false]

/-- Witness of amended C9: the Pod owned by the ReplicaSet `foo-5db`, with an empty
ReplicaSet index. -/
theorem getOwner_of_unresolved_replicaSet_witness :
    getOwner informersEmpty podOfReplicaSet =
      { Type_ := podOfReplicaSet.Type_, Name := podOfReplicaSet.Name } :=
  getOwner_of_unresolved_replicaSet informersEmpty podOfReplicaSet ⟨"ReplicaSet", "foo-5db"⟩ []
    rfl rfl (Or.inl rfl)

/-- C10: an entity with an empty owner-reference list resolves to itself,
`Owner{Type: entity.Type, Name: entity.Name}`, whatever the ReplicaSet index contains. -/
theorem getOwner_of_no_owner (k : Informers) (info : Info) (hrefs : info.OwnerReferences = []) :
    getOwner k info = { Type_ := info.Type_, Name := info.Name } := by
  unfold getOwner
  simp only [hrefs]

/-- Witness of C10: a Pod with no owner references resolves to `Owner{Pod, bare}`. -/
theorem getOwner_of_no_owner_witness :
    getOwner informersWithReplicaSet barePod = { Type_ := barePod.Type_, Name := barePod.Name } :=
  getOwner_of_no_owner informersWithReplicaSet barePod rfl

/-- C11: when the first owner reference of an entity has a kind other than `ReplicaSet`,
`getOwner` returns that kind and that reference's name, and the result is the same for any
two states of the informers, so for every content of the ReplicaSet index. -/
theorem getOwner_of_direct_owner (k k' : Informers) (info : Info)
    (ownerReference : OwnerReference) (others : List OwnerReference)
    (hrefs : info.OwnerReferences = ownerReference :: others)
    (hkind : ownerReference.Kind ≠ "ReplicaSet") :
    getOwner k info = { Type_ := ownerReference.Kind, Name := ownerReference.Name } ∧
      getOwner k' info = getOwner k info := by
  have h : ∀ k0 : Informers,
      getOwner k0 info = { Type_ := ownerReference.Kind, Name := ownerReference.Name } := by
    intro k0
    unfold getOwner
    simp only [hrefs, ne_eq, hkind, not_false_eq_true, if_true]
  exact ⟨h k, (h k').trans (h k).symm⟩

/-- Witness of C11: a Pod owned directly by the DaemonSet `fluentd`, with an empty ReplicaSet
index and with one that holds `foo-5db`. -/
theorem getOwner_of_direct_owner_witness :
    getOwner informersEmpty podOfDaemonSet =
        { Type_ := (⟨"DaemonSet", "fluentd"⟩ : OwnerReference).Kind,
          Name := (⟨"DaemonSet", "fluentd"⟩ : OwnerReference).Name } ∧
      getOwner informersWithReplicaSet podOfDaemonSet =
        getOwner informersEmpty podOfDaemonSet :=
  getOwner_of_direct_owner informersEmpty informersWithReplicaSet podOfDaemonSet
    ⟨"DaemonSet", "fluentd"⟩ [] rfl (by decide)

theorem fetchInformers_owner (k : Informers) (ip : String) (q : Ptr) :
    ((fetchInformers k ip).1.objs q).Owner = (k.objs q).Owner := by
  unfold fetchInformers
  cases infoForIP k.pods ip with
  | some info =>
    dsimp only
    split
    · dsimp only
      by_cases hq : q = info
      · subst hq
        simp [Function.update_same]
      · simp [Function.update_noteq hq]
    · rfl
  | none =>
    dsimp only
    cases infoForIP k.nodes ip with
    | some info => rfl
    | none =>
      dsimp only
      cases infoForIP k.services ip with
      | some info => rfl
      | none => rfl

theorem GetInfo_of_owner_set (k : Informers) (ip : String) (p : Ptr)
    (hfound : (fetchInformers k ip).2 = some p) (hname : (k.objs p).Owner.Name ≠ "") :
    GetInfo k ip = ((fetchInformers k ip).1, .ok p) := by
  have howner := fetchInformers_owner k ip p
  unfold GetInfo
  cases hf : fetchInformers k ip with
  | mk k1 r =>
    rw [hf] at hfound howner
    simp only at hfound howner
    subst hfound
    have hname1 : ¬ (k1.objs p).Owner.Name = "" := by rw [howner]; exact hname
    simp only [hname1, if_false]

/-- C12, as the claim states it, is false: a Pod resolved through a ReplicaSet whose owner
reference has an empty name gets the owner `{Deployment, ""}`; after the ReplicaSet index
has changed, the next `GetInfo` that finds the same Pod resolves again and returns another
owner. -/
theorem GetInfo_resolves_again_counterexample :
    (GetInfo (informersOf podOfReplicaSet [replicaSetOfUnnamed]) "10.1.0.4").2 = .ok 0 ∧
      ((GetInfo (informersOf podOfReplicaSet [replicaSetOfUnnamed]) "10.1.0.4").1.objs 0).Owner =
        ⟨"Deployment", ""⟩ ∧
      (GetInfo { (GetInfo (informersOf podOfReplicaSet [replicaSetOfUnnamed]) "10.1.0.4").1 with
          replicaSets := replicaSetIndexer [replicaSetOfDeployment] } "10.1.0.4").2 = .ok 0 ∧
      ((GetInfo { (GetInfo (informersOf podOfReplicaSet [replicaSetOfUnnamed]) "10.1.0.4").1 with
          replicaSets := replicaSetIndexer [replicaSetOfDeployment] } "10.1.0.4").1.objs 0).Owner =
        ⟨"Deployment", "foo"⟩ := by
  refine ⟨rfl, ?_, rfl, ?_⟩
  · decide
  · decide

/-- C12, amended: once a `GetInfo` call has left on an entity a stored owner whose name is
not empty, every later `GetInfo` call that finds the same entity, with that owner still
stored, returns the entity with that same owner and updates nothing beyond what
`fetchInformers` does, whatever the owner references of the entity are and whatever the
ReplicaSet index holds by then. -/
theorem GetInfo_owner_cached (k : Informers) (ip : String) (p : Ptr) (k2 : Informers)
    (ip2 : String)
    (hname : ((GetInfo k ip).1.objs p).Owner.Name ≠ "")
    (hkept : (k2.objs p).Owner = ((GetInfo k ip).1.objs p).Owner)
    (hsecond : (fetchInformers k2 ip2).2 = some p) :
    (GetInfo k2 ip2).2 = .ok p ∧
      ((GetInfo k2 ip2).1.objs p).Owner = ((GetInfo k ip).1.objs p).Owner ∧
      (GetInfo k2 ip2).1 = (fetchInformers k2 ip2).1 := by
  have hname2 : (k2.objs p).Owner.Name ≠ "" := by rw [hkept]; exact hname
  have h := GetInfo_of_owner_set k2 ip2 p hsecond hname2
  rw [h]
  refine ⟨rfl, ?_, rfl⟩
  show ((fetchInformers k2 ip2).1.objs p).Owner = _
  rw [fetchInformers_owner, hkept]

/-- Witness of amended C12: a Pod of the ReplicaSet `foo-5db`, owned by the Deployment `foo`;
the second call is made after the ReplicaSet index has been emptied. -/
theorem GetInfo_owner_cached_witness :
    (GetInfo { (GetInfo (informersOf podOfReplicaSet [replicaSetOfDeployment]) "10.1.0.4").1 with
        replicaSets := emptyIndexer } "10.1.0.4").2 = .ok 0 ∧
      ((GetInfo { (GetInfo (informersOf podOfReplicaSet [replicaSetOfDeployment]) "10.1.0.4").1 with
        replicaSets := emptyIndexer } "10.1.0.4").1.objs 0).Owner =
        ((GetInfo (informersOf podOfReplicaSet [replicaSetOfDeployment]) "10.1.0.4").1.objs 0).Owner ∧
      (GetInfo { (GetInfo (informersOf podOfReplicaSet [replicaSetOfDeployment]) "10.1.0.4").1 with
        replicaSets := emptyIndexer } "10.1.0.4").1 =
        (fetchInformers { (GetInfo (informersOf podOfReplicaSet [replicaSetOfDeployment])
          "10.1.0.4").1 with replicaSets := emptyIndexer } "10.1.0.4").1 :=
  GetInfo_owner_cached (informersOf podOfReplicaSet [replicaSetOfDeployment]) "10.1.0.4" 0
    { (GetInfo (informersOf podOfReplicaSet [replicaSetOfDeployment]) "10.1.0.4").1 with
      replicaSets := emptyIndexer } "10.1.0.4" (by decide) rfl rfl

theorem getHostName_eq_firstNodeName (k : Informers) (hostIP : String) :
    getHostName k hostIP = firstNodeName k hostIP := by
  unfold getHostName firstNodeName
  by_cases h : hostIP = ""
  · simp [h]
  · simp only [ne_eq, h, not_false_eq_true, if_true, if_false]
    rw [infoForIP_eq_head]
    cases held k.nodes hostIP with
    | nil => rfl
    | cons node rest => rfl

/-- C13: `fetchInformers` leaves the four indexers as they are, and changes the stored
entities as follows. When the Pod index holds an entity under the IP and the `HostName` of
the first such entity is empty, that `HostName` becomes the name of the first Node indexed
under the Pod's `HostIP`, or stays empty when the `HostIP` is empty or no Node is indexed
under it, and nothing else changes; when the `HostName` is not empty nothing changes; and
when the Pod index holds nothing under the IP, so on every Node or Service hit, nothing
changes. -/
theorem fetchInformers_backfill (k : Informers) (ip : String) :
    ((fetchInformers k ip).1.pods = k.pods ∧ (fetchInformers k ip).1.nodes = k.nodes ∧
      (fetchInformers k ip).1.services = k.services ∧
      (fetchInformers k ip).1.replicaSets = k.replicaSets) ∧
    (fetchInformers k ip).1.objs =
      match held k.pods ip with
      | pod :: _ =>
        if (k.objs pod).HostName = "" then
          Function.update k.objs pod
            { (k.objs pod) with HostName := firstNodeName k (k.objs pod).HostIP }
        else k.objs
      | [] => k.objs := by
  unfold fetchInformers
  rw [infoForIP_eq_head, infoForIP_eq_head, infoForIP_eq_head]
  cases held k.pods ip with
  | cons pod rest =>
    simp only [List.head?_cons]
    split
    · rw [getHostName_eq_firstNodeName]
      exact ⟨⟨rfl, rfl, rfl, rfl⟩, rfl⟩
    · exact ⟨⟨rfl, rfl, rfl, rfl⟩, rfl⟩
  | nil =>
    simp only [List.head?_nil]
    cases (held k.nodes ip).head? with
    | some node => exact ⟨⟨rfl, rfl, rfl, rfl⟩, rfl⟩
    | none =>
      cases (held k.services ip).head? with
      | some svc => exact ⟨⟨rfl, rfl, rfl, rfl⟩, rfl⟩
      | none => exact ⟨⟨rfl, rfl, rfl, rfl⟩, rfl⟩

/-- The back-fill, evaluated: the Pod of `10.1.0.4`, on the host `10.0.0.9`, gets the host
name `worker-1`; a lookup of the Node's own IP changes no host name. -/
theorem fetchInformers_backfill_example :
    ((fetchInformers (informersOf podOfReplicaSet []) "10.1.0.4").1.objs 0).HostName =
        "worker-1" ∧
      ((fetchInformers (informersOf podOfReplicaSet []) "10.0.0.9").1.objs 0).HostName = "" ∧
      (fetchInformers (informersOf podOfReplicaSet []) "10.0.0.9").2 = some 1 := by
  decide

theorem foldl_append_if {α β : Type} (P : α → Prop) [DecidablePred P] (f : α → β) :
    ∀ (l : List α) (init : List β),
      l.foldl (fun acc x => if P x then acc ++ [f x] else acc) init =
        init ++ (l.filter (fun x => decide (P x))).map f := by
  intro l
  induction l with
  | nil => intro init; simp
  | cons x xs ih =>
    intro init
    rw [List.foldl_cons, ih]
    by_cases hx : P x
    · simp [hx, List.filter_cons]
    · simp [hx, List.filter_cons]

theorem podTransform_ips_eq (pod : Pod) :
    pod.Status.PodIPs.foldl (fun (ips : List String) ip =>
        if ip.IP ≠ pod.Status.HostIP then ips ++ [ip.IP] else ips) [] =
      (pod.Status.PodIPs.map (·.IP)).filter (fun ip => decide (ip ≠ pod.Status.HostIP)) := by
  rw [foldl_append_if (fun ip : PodIP => ip.IP ≠ pod.Status.HostIP) (·.IP)]
  simp only [List.nil_append, List.filter_map]
  rfl

/-- C14: for every pod, the Pod transform returns an entity whose `ips` are exactly the pod
IPs that differ from the pod's host IP, in their original order, so the host IP is not among
the values the entity is indexed under; the owner references, `HostIP` (from the status) and
`HostName` (from `spec.nodeName`) are copied unchanged. -/
theorem podTransform_spec (pod : Pod) :
    ∃ info, podTransform (.pod pod) = .ok info ∧
      info.ips = (pod.Status.PodIPs.map (·.IP)).filter
        (fun ip => decide (ip ≠ pod.Status.HostIP)) ∧
      pod.Status.HostIP ∉ commonIndexers info ∧
      info.OwnerReferences = pod.OwnerReferences ∧
      info.HostIP = pod.Status.HostIP ∧ info.HostName = pod.Spec.NodeName := by
  refine ⟨_, rfl, podTransform_ips_eq pod, ?_, rfl, rfl, rfl⟩
  show pod.Status.HostIP ∉ List.foldl _ [] pod.Status.PodIPs
  rw [podTransform_ips_eq pod]
  simp

/-- The Pod transform, evaluated on a host-networked pod: the host's own address is left
out. -/
theorem podTransform_example :
    (podTransform (.pod hostNetworkPod)).map (·.ips) = .ok ["10.1.0.7"] := by
  rfl

theorem nodeTransform_loop_ne_empty (net : NetLib) (hnet : ∀ ip, net.IPString ip ≠ "") :
    ∀ (addresses : List NodeAddress) (st : List String × String), "" ∉ st.1 →
      "" ∉ (addresses.foldl (fun (st : List String × String) address =>
        match net.ParseIP address.Address with
        | some ip => (st.1 ++ [net.IPString ip], if st.2 = "" then net.IPString ip else st.2)
        | none => st) st).1 := by
  intro addresses
  induction addresses with
  | nil => intro st h; exact h
  | cons a rest ih =>
    intro st h
    rw [List.foldl_cons]
    apply ih
    cases net.ParseIP a.Address with
    | none => exact h
    | some ip =>
      simp only [List.mem_append, List.mem_singleton, not_or]
      exact ⟨h, fun heq => hnet ip heq.symm⟩

theorem serviceTransform_ips_eq (svc : Service) :
    svc.Spec.ClusterIPs.foldl (fun (ips : List String) ip =>
        if isServiceIPSet ip then ips ++ [ip] else ips) [] =
      svc.Spec.ClusterIPs.filter (fun ip => decide (ip ≠ "None") && decide (ip ≠ "")) := by
  have h := foldl_append_if (fun ip : String => isServiceIPSet ip = true) id
    svc.Spec.ClusterIPs []
  simp only [id, List.nil_append, Bool.decide_eq_true] at h
  rw [h, List.map_id]
  rfl

/-- C15, as the claim states it, is false: the Pod transform keeps an empty pod IP when the
host IP of the pod is not empty. -/
theorem podTransform_keeps_empty_ip_counterexample :
    ∃ info, podTransform (.pod podWithEmptyIP) = .ok info ∧ "" ∈ info.ips :=
  ⟨_, rfl, by decide⟩

/-- C15, amended: provided `IP.String` never returns the empty string and `cni.AddOvnIPs`
adds no empty string to a list that has none: the `ips` of the entity the Pod transform
produces contain the empty string exactly when the pod has an empty pod IP and a non-empty
host IP; the `ips` the Node transform produces never contain the empty string; and the `ips`
the Service transform produces contain neither the empty string nor `None`, and are exactly
the non-empty, non-`None` cluster IPs in order. -/
theorem transforms_ips (net : NetLib) (AddOvnIPs : List String → Node → List String)
    (hnet : ∀ ip, net.IPString ip ≠ "")
    (hcni : ∀ ips node, "" ∉ ips → "" ∉ AddOvnIPs ips node)
    (pod : Pod) (node : Node) (svc : Service) :
    (∃ info, podTransform (.pod pod) = .ok info ∧
      ("" ∈ info.ips ↔ (⟨""⟩ ∈ pod.Status.PodIPs ∧ pod.Status.HostIP ≠ ""))) ∧
    (∃ info, nodeTransform net AddOvnIPs (.node node) = .ok info ∧ "" ∉ info.ips) ∧
    (∃ info, serviceTransform (.service svc) = .ok info ∧ "" ∉ info.ips ∧
      "None" ∉ info.ips ∧
      info.ips = svc.Spec.ClusterIPs.filter
        (fun ip => decide (ip ≠ "None") && decide (ip ≠ ""))) := by
  refine ⟨⟨_, rfl, ?_⟩, ⟨_, rfl, ?_⟩, ⟨_, rfl, ?_, ?_, serviceTransform_ips_eq svc⟩⟩
  · show "" ∈ List.foldl _ [] pod.Status.PodIPs ↔ _
    rw [podTransform_ips_eq pod]
    simp only [List.mem_filter, List.mem_map, decide_eq_true_eq, ne_eq]
    constructor
    · rintro ⟨⟨ip, hip, hempty⟩, hhost⟩
      refine ⟨?_, fun h => hhost h.symm⟩
      cases ip with
      | mk addr =>
        simp only at hempty
        subst hempty
        exact hip
    · rintro ⟨hip, hhost⟩
      exact ⟨⟨⟨""⟩, hip, rfl⟩, fun h => hhost h.symm⟩
  · exact hcni _ node (nodeTransform_loop_ne_empty net hnet _ _ (by simp))
  · show "" ∉ List.foldl _ [] svc.Spec.ClusterIPs
    rw [serviceTransform_ips_eq svc]
    simp
  · show "None" ∉ List.foldl _ [] svc.Spec.ClusterIPs
    rw [serviceTransform_ips_eq svc]
    simp

/-- Witness of amended C15: a host-networked pod, a node with one parsable address and a
headless service, with a CNI that adds nothing. -/
theorem transforms_ips_witness :
    (∃ info, podTransform (.pod hostNetworkPod) = .ok info ∧
      ("" ∈ info.ips ↔ (⟨""⟩ ∈ hostNetworkPod.Status.PodIPs ∧
        hostNetworkPod.Status.HostIP ≠ ""))) ∧
    (∃ info, nodeTransform exampleNet (fun ips _ => ips) (.node workerNodeObject) = .ok info ∧
      "" ∉ info.ips) ∧
    (∃ info, serviceTransform (.service headlessService) = .ok info ∧ "" ∉ info.ips ∧
      "None" ∉ info.ips ∧
      info.ips = headlessService.Spec.ClusterIPs.filter
        (fun ip => decide (ip ≠ "None") && decide (ip ≠ ""))) :=
  transforms_ips exampleNet (fun ips _ => ips)
    (fun _ => (by decide : ("10.0.0.9" : String) ≠ "")) (fun _ _ h => h)
    hostNetworkPod workerNodeObject headlessService

/-- The Node and Service transforms, evaluated: the unparsable address `worker-1` and the
cluster IPs `None` and the empty string are left out. -/
theorem node_service_transform_example :
    (nodeTransform exampleNet (fun ips _ => ips) (.node workerNodeObject)).map (·.ips) =
        .ok ["10.0.0.9"] ∧
      (serviceTransform (.service headlessService)).map (·.ips) = .ok ["10.96.0.1"] :=
  ⟨rfl, rfl⟩

end informers

/-! ## Theorems on `NewEncodeProm` and on the labels of an entry -/

namespace encode

variable {V : Type}

theorem registerMetrics_skip {R : Type}
    (Register : R → VecKind → String → List String → Except String R) (promPrefix : String)
    (bad : PromMetricsItem) (post : List PromMetricsItem) (h1 : bad.Type_ ≠ "counter")
    (h2 : bad.Type_ ≠ "gauge") (h3 : bad.Type_ ≠ "histogram") :
    ∀ (pre : List PromMetricsItem) (reg : R) (d : Descriptors),
      registerMetrics Register promPrefix (pre ++ bad :: post) reg d =
        registerMetrics Register promPrefix (pre ++ post) reg d := by
  have hc : PromEncodeOperationName "Counter" = "counter" := by decide
  have hg : PromEncodeOperationName "Gauge" = "gauge" := by decide
  have hh : PromEncodeOperationName "Histogram" = "histogram" := by decide
  intro pre
  induction pre with
  | nil =>
    intro reg d
    simp only [List.nil_append]
    rw [registerMetrics]
    simp only [hc, hg, hh, h1, h2, h3, if_false, ite_self]
  | cons x xs ih =>
    intro reg d
    simp only [List.cons_append]
    rw [registerMetrics, registerMetrics]
    simp only [ih]

/-- C16, as the claim states it, is false: for a configuration whose only metric has the type
`summary`, `NewEncodeProm` returns an encoder, with no descriptor, and no error. -/
theorem NewEncodeProm_invalid_type_counterexample :
    NewEncodeProm exampleUnmarshal exampleRegister "summary" [] =
      ([], .ok (emptyEncodeProm ":9102" "" [] [] [] 120)) := by
  rfl

/-- C16, amended: a metric of the configuration whose type is not one of `counter`, `gauge`
and `histogram` is skipped: `NewEncodeProm` returns for the configuration exactly what it
returns for the configuration without that metric, the same registry state and the same
encoder or error, so nothing is registered and no descriptor is stored for it. -/
theorem NewEncodeProm_skips_invalid_type {R : Type}
    (Unmarshal : String → Except String PromEncode)
    (Register : R → VecKind → String → List String → Except String R)
    (encodePromString without : String) (reg : R) (cfg : PromEncode)
    (pre post : List PromMetricsItem) (bad : PromMetricsItem)
    (hcfg : Unmarshal encodePromString = .ok cfg) (hmetrics : cfg.Metrics = pre ++ bad :: post)
    (h1 : bad.Type_ ≠ "counter") (h2 : bad.Type_ ≠ "gauge") (h3 : bad.Type_ ≠ "histogram")
    (hwithout : Unmarshal without = .ok { cfg with Metrics := pre ++ post }) :
    NewEncodeProm Unmarshal Register encodePromString reg =
      NewEncodeProm Unmarshal Register without reg := by
  unfold NewEncodeProm
  simp only [hcfg, hwithout, hmetrics]
  rw [registerMetrics_skip Register cfg.Prefix bad post h1 h2 h3 pre reg]

/-- Witness of amended C16: the configuration with a `summary` metric and the counter
`bytes_total`, and the configuration with the counter only. -/
theorem NewEncodeProm_skips_invalid_type_witness :
    NewEncodeProm exampleUnmarshal exampleRegister "summary+counter" [] =
      NewEncodeProm exampleUnmarshal exampleRegister "counter" [] :=
  NewEncodeProm_skips_invalid_type exampleUnmarshal exampleRegister "summary+counter" "counter"
    [] (configOf [summaryItem, bytesTotalItem]) [] [bytesTotalItem] summaryItem rfl rfl
    (by decide) (by decide) (by decide) rfl

/-- The encoder `NewEncodeProm` builds for the configuration with a `summary` metric and the
counter `bytes_total`, evaluated: only the counter is registered and stored. -/
theorem NewEncodeProm_example :
    NewEncodeProm exampleUnmarshal exampleRegister "summary+counter" [] =
      (["bytes_total"], .ok (emptyEncodeProm ":9102" "" [bytesTotal] [] [] 120)) := by
  rfl

theorem buildLabels_mem_keys (lib : GoLib V) (metric : GoMap V) (labelNames : List String)
    (f : String) : f ∈ (buildLabels lib metric labelNames).keys ↔ f ∈ labelNames := by
  have h := buildLabels_get? lib metric labelNames f
  constructor
  · intro hf
    by_contra hnot
    rw [if_neg hnot] at h
    exact (GoMap.get?_eq_none_iff.mp h) hf
  · intro hf
    by_contra hnot
    rw [if_pos hf, GoMap.get?_eq_none_iff.mpr hnot] at h
    exact Option.noConfusion h

/-- The entry of a record without the label field, evaluated: the label is `<nil>`. -/
theorem Encode_missing_label_example (clock : Nat → Int) :
    (Encode exampleLib clock (emptyEncodeProm ":9102" "" [packetsTotal] [] [] 2)
        [[("Packets", Value.int 100)]]).map Prod.snd =
      some [⟨⟨"packets_total", [("srcIP", "<nil>")]⟩, ⟨0x4059000000000000⟩⟩] := by
  rfl

end encode

/-! ## Runs of the cache: the invariant and the order of the list -/

namespace encode

variable {V : Type}

theorem expireFront_inv {e : encodeProm} {p : Ptr} {rest : List Ptr} (hl : e.mList = p :: rest)
    (hinv : CacheInv e) (calls : List PromCall) : CacheInv (expireFront e p calls rest) := by
  obtain ⟨hnd, hb, hml, hlm, hk⟩ := hinv
  have hpmem : p ∈ e.mList := by rw [hl]; exact List.mem_cons_self _ _
  have hnd' : (p :: rest).Nodup := hl ▸ hnd
  have hprest : p ∉ rest := (List.nodup_cons.mp hnd').1
  have hrest : ∀ q, q ∈ rest → q ∈ e.mList := fun q hq => by
    rw [hl]; exact List.mem_cons_of_mem _ hq
  have hkeyp : e.mCache.get? (deref e.heap p).key = some p :=
    GoMap.get?_of_mem hk (hlm p hpmem)
  refine ⟨(List.nodup_cons.mp hnd').2, fun q hq => hb q (hrest q hq), ?_, ?_,
    GoMap.keys_delete_nodup hk _⟩
  · intro kv hkv
    have hkv' : kv ∈ e.mCache ∧ kv.1 ≠ (deref e.heap p).key := by
      simpa [expireFront, GoMap.delete] using hkv
    have h1 := hml kv hkv'.1
    refine ⟨?_, h1.2⟩
    have : kv.2 ∈ p :: rest := hl ▸ h1.1
    rcases List.mem_cons.mp this with h | h
    · exact absurd (h ▸ h1.2).symm hkv'.2
    · exact h
  · intro q hq
    have hmem := hlm q (hrest q hq)
    have hne : (deref e.heap q).key ≠ (deref e.heap p).key := by
      intro heq
      have h1 : e.mCache.get? (deref e.heap q).key = some q := GoMap.get?_of_mem hk hmem
      rw [heq, hkeyp] at h1
      exact hprest ((Option.some.inj h1) ▸ hq)
    show _ ∈ GoMap.delete e.mCache _
    simpa [GoMap.delete] using ⟨hmem, hne⟩

/-- The loop of `cleanupExpiredEntries`, on any state that satisfies the cache invariant and
has no nil vector to delete through: it returns, keeps the invariant, the arena and the
descriptors, and leaves a suffix of the list. -/
theorem cleanupLoop_total (expireTime : Int) :
    ∀ (l : List Ptr) (e : encodeProm), e.mList = l → CacheInv e → DeleteSafe e →
      ∃ e', cleanupLoop expireTime l e = some e' ∧ CacheInv e' ∧ DeleteSafe e' ∧
        e'.heap = e.heap ∧ e'.mList <:+ l ∧ e'.counters = e.counters ∧
        e'.gauges = e.gauges ∧ e'.expiryTime = e.expiryTime := by
  intro l
  induction l with
  | nil =>
    intro e hl hinv hsafe
    exact ⟨e, rfl, hinv, hsafe, rfl, by rw [hl], rfl, rfl, rfl⟩
  | cons p rest ih =>
    intro e hl hinv hsafe
    have hpmem : p ∈ e.mList := by rw [hl]; exact List.mem_cons_self _ _
    by_cases hgt : (deref e.heap p).timeStamp > expireTime
    · exact ⟨e, by simp [cleanupLoop, hgt], hinv, hsafe, rfl, by rw [hl], rfl, rfl, rfl⟩
    · obtain ⟨calls, hcalls⟩ := Option.isSome_iff_exists.mp (hsafe p hpmem)
      have hsafe1 : DeleteSafe (expireFront e p calls rest) := fun q hq =>
        hsafe q (by rw [hl]; exact List.mem_cons_of_mem _ hq)
      obtain ⟨e', he', hinv', hsafe', hheap', hsuf, hc, hg, hx⟩ :=
        ih (expireFront e p calls rest) rfl (expireFront_inv hl hinv calls) hsafe1
      refine ⟨e', ?_, hinv', hsafe', hheap', ?_, hc, hg, hx⟩
      · simp only [cleanupLoop, hgt, if_false, hcalls]
        exact he'
      · exact hsuf.trans (List.suffix_cons p rest)

theorem cleanupExpiredEntries_total {e : encodeProm} (hinv : CacheInv e) (hsafe : DeleteSafe e)
    (now : Int) :
    ∃ e', cleanupExpiredEntries e now = some e' ∧ CacheInv e' ∧ DeleteSafe e' ∧
      e'.heap = e.heap ∧ e'.mList <:+ e.mList ∧ e'.counters = e.counters ∧
      e'.gauges = e.gauges ∧ e'.expiryTime = e.expiryTime :=
  cleanupLoop_total _ e.mList e rfl hinv hsafe

theorem sorted_of_suffix {e e' : encodeProm} (hheap : e'.heap = e.heap)
    (hsuf : e'.mList <:+ e.mList) (hs : SortedByTime e) : SortedByTime e' := by
  unfold SortedByTime at hs ⊢
  rw [hheap]
  exact List.Pairwise.sublist hsuf.sublist hs

theorem touchedBefore_of_suffix {e e' : encodeProm} (hheap : e'.heap = e.heap)
    (hsuf : e'.mList <:+ e.mList) {t : Int} (hb : TouchedBefore e t) : TouchedBefore e' t := by
  intro p hp
  rw [hheap]
  exact hb p (hsuf.subset hp)

theorem runCache_sorted :
    ∀ (ops : List CacheOp) (e : encodeProm), CacheInv e → SortedByTime e → DeleteSafe e →
      (ops.map CacheOp.time).Pairwise (· ≤ ·) → (∀ op ∈ ops, TouchedBefore e op.time) →
      ∃ e', runCache e ops = some e' ∧ CacheInv e' ∧ SortedByTime e' ∧ DeleteSafe e' := by
  intro ops
  induction ops with
  | nil => intro e hinv hs hsafe _ _; exact ⟨e, rfl, hinv, hs, hsafe⟩
  | cons op rest ih =>
    intro e hinv hs hsafe hmono hbefore
    simp only [List.map_cons, List.pairwise_cons] at hmono
    cases op with
    | touch nowInSecs entry entryLabels =>
      have hb0 : TouchedBefore e nowInSecs := hbefore _ (List.mem_cons_self _ _)
      have hstep := saveEntryInCache_sorted hinv hs hb0 entry entryLabels
      obtain ⟨e', he', h'⟩ := ih _ (saveEntryInCache_inv hinv _ _ _) hstep.1
        (saveEntryInCache_deleteSafe hinv hsafe _ _ _) hmono.2 (by
          intro op' hop' q hq
          exact le_trans (hstep.2 q hq) (hmono.1 _ (List.mem_map_of_mem _ hop')))
      exact ⟨e', by simp only [runCache, stepCache]; exact he', h'⟩
    | sweep nowInSecs =>
      obtain ⟨e1, he1, hinv1, hsafe1, hheap, hsuf, _, _, _⟩ :=
        cleanupExpiredEntries_total hinv hsafe nowInSecs
      obtain ⟨e', he', h'⟩ := ih e1 hinv1 (sorted_of_suffix hheap hsuf hs) hsafe1 hmono.2 (by
        intro op' hop'
        exact touchedBefore_of_suffix hheap hsuf (hbefore op' (List.mem_cons_of_mem _ hop')))
      exact ⟨e', by simp only [runCache, stepCache, he1]; exact he', h'⟩

/-- C18: starting from the empty cache of a new encoder, every sequence of touches
(`saveEntryInCache`) and sweeps (`cleanupExpiredEntries`) made at non-decreasing clock
readings runs to its end, and afterwards the list `mList`, read from the front, is sorted
non-decreasing by `timeStamp`, so the `timeStamp` of its front element is the smallest of
all. -/
theorem runCache_list_sorted (port promPrefix : String)
    (counters gauges histograms : GoMap metricInfo) (expiry : Int) (ops : List CacheOp)
    (hmono : (ops.map CacheOp.time).Pairwise (· ≤ ·)) :
    ∃ e', runCache (emptyEncodeProm port promPrefix counters gauges histograms expiry) ops =
        some e' ∧
      e'.mList.Pairwise
        (fun p q => (deref e'.heap p).timeStamp ≤ (deref e'.heap q).timeStamp) ∧
      ∀ front rest, e'.mList = front :: rest →
        ∀ q ∈ e'.mList, (deref e'.heap front).timeStamp ≤ (deref e'.heap q).timeStamp := by
  obtain ⟨e', he', _, hs, _⟩ := runCache_sorted ops
    (emptyEncodeProm port promPrefix counters gauges histograms expiry)
    (emptyEncodeProm_inv port promPrefix counters gauges histograms expiry)
    (by simp [SortedByTime, emptyEncodeProm]) (by simp [DeleteSafe, emptyEncodeProm]) hmono
    (by intro op _; simp [TouchedBefore, emptyEncodeProm])
  refine ⟨e', he', hs, ?_⟩
  intro front rest hl q hq
  have hs' : List.Pairwise (fun p q =>
      (deref e'.heap p).timeStamp ≤ (deref e'.heap q).timeStamp) (front :: rest) := hl ▸ hs
  rw [hl] at hq
  rcases List.mem_cons.mp hq with h | h
  · rw [h]
  · exact (List.pairwise_cons.mp hs').1 q h

/-- Witness of C18: touches of `K` at 0, of `L` at 1 and of `K` again at 2, a sweep at 3 and
a touch of `M` at 3, with expiry 2. -/
theorem runCache_list_sorted_witness :
    ∃ e', runCache (emptyEncodeProm ":9102" "" [] [] [] 2)
        [.touch 0 ⟨⟨"K", []⟩, ⟨0⟩⟩ [], .touch 1 ⟨⟨"L", []⟩, ⟨0⟩⟩ [],
          .touch 2 ⟨⟨"K", []⟩, ⟨0⟩⟩ [], .sweep 3, .touch 3 ⟨⟨"M", []⟩, ⟨0⟩⟩ []] = some e' ∧
      e'.mList.Pairwise
        (fun p q => (deref e'.heap p).timeStamp ≤ (deref e'.heap q).timeStamp) ∧
      ∀ front rest, e'.mList = front :: rest →
        ∀ q ∈ e'.mList, (deref e'.heap front).timeStamp ≤ (deref e'.heap q).timeStamp :=
  runCache_list_sorted ":9102" "" [] [] [] 2
    [.touch 0 ⟨⟨"K", []⟩, ⟨0⟩⟩ [], .touch 1 ⟨⟨"L", []⟩, ⟨0⟩⟩ [],
      .touch 2 ⟨⟨"K", []⟩, ⟨0⟩⟩ [], .sweep 3, .touch 3 ⟨⟨"M", []⟩, ⟨0⟩⟩ []] (by decide)

/-- The run of the witness of C18, evaluated: the sweep at 3 removes `L` (touched at 1) and
keeps `K` (touched again at 2), and `M` goes to the back. -/
theorem runCache_example :
    (runCache (emptyEncodeProm ":9102" "" [] [] [] 2)
        [.touch 0 ⟨⟨"K", []⟩, ⟨0⟩⟩ [], .touch 1 ⟨⟨"L", []⟩, ⟨0⟩⟩ [],
          .touch 2 ⟨⟨"K", []⟩, ⟨0⟩⟩ [], .sweep 3, .touch 3 ⟨⟨"M", []⟩, ⟨0⟩⟩ []]).map
        (fun e => (e.mList.map (fun p => ((deref e.heap p).key, (deref e.heap p).timeStamp)))) =
      some [("Kmap[]", 2), ("Mmap[]", 3)] := by
  decide

/-! ## Runs of the encoder: the map and the list hold the same entries -/

theorem tagEntry_inv {e : encodeProm} (hinv : CacheInv e) (p : Ptr)
    (f : metricCacheEntry → metricCacheEntry) (hkey : ∀ c, (f c).key = c.key) :
    CacheInv (tagEntry e p f) := by
  obtain ⟨hnd, hb, hml, hlm, hk⟩ := hinv
  have hkeys : ∀ q, (deref (modifyAt e.heap p f) q).key = (deref e.heap q).key := by
    intro q
    rw [deref_modifyAt]
    split
    · next h => rw [hkey, h.1]
    · rfl
  refine ⟨hnd, ?_, ?_, ?_, hk⟩
  · intro q hq
    show q < (modifyAt e.heap p f).length
    rw [length_modifyAt]
    exact hb q hq
  · intro kv hkv
    show kv.2 ∈ e.mList ∧ (deref (modifyAt e.heap p f) kv.2).key = kv.1
    rw [hkeys]
    exact hml kv hkv
  · intro q hq
    show ((deref (modifyAt e.heap p f) q).key, q) ∈ e.mCache
    rw [hkeys]
    exact hlm q hq

theorem tagEntry_deleteSafe {e : encodeProm} (hsafe : DeleteSafe e) (p : Ptr)
    (f : metricCacheEntry → metricCacheEntry)
    (hf : ∀ c, (deleteCalls (f c)).isSome = true) : DeleteSafe (tagEntry e p f) := by
  intro q hq
  show (deleteCalls (deref (modifyAt e.heap p f) q)).isSome = true
  rw [deref_modifyAt]
  split
  · exact hf _
  · exact hsafe q hq

theorem deleteCalls_counter (c : metricCacheEntry) (vec : Vec) :
    (deleteCalls { c with metricType := PromEncodeOperationName "Counter",
                          promCounter := some vec }).isSome = true := by
  have h1 : ¬ (PromEncodeOperationName "Counter" = PromEncodeOperationName "Gauge") := by
    decide
  simp [deleteCalls, h1]

theorem deleteCalls_gauge (c : metricCacheEntry) (vec : Vec) :
    (deleteCalls { c with metricType := PromEncodeOperationName "Gauge",
                          promGauge := some vec }).isSome = true := by
  simp [deleteCalls]

theorem counterRound_inv (lib : GoLib V) (clock : Nat → Int) (metric : GoMap V)
    (acc : encodeProm × List entryInfo) (kv : String × metricInfo)
    (hvec : kv.2.promCounter.isSome = true) (hinv : CacheInv acc.1) (hsafe : DeleteSafe acc.1) :
    CacheInv (counterRound lib clock metric acc kv).1 ∧
      DeleteSafe (counterRound lib clock metric acc kv).1 := by
  cases h1 : metric.get? kv.2.input with
  | none => simp only [counterRound, h1]; exact ⟨hinv, hsafe⟩
  | some value =>
    cases h2 : lib.ParseFloat (lib.sprintv value) with
    | none => simp only [counterRound, h1, h2]; exact ⟨hinv, hsafe⟩
    | some v =>
      obtain ⟨vec, hvec'⟩ := Option.isSome_iff_exists.mp hvec
      simp only [counterRound, h1, h2, hvec']
      have hinv1 : CacheInv { acc.1 with prom := acc.1.prom ++
          [PromCall.counterAdd vec (buildLabels lib metric kv.2.labelNames) v] } := hinv
      have hsafe1 : DeleteSafe { acc.1 with prom := acc.1.prom ++
          [PromCall.counterAdd vec (buildLabels lib metric kv.2.labelNames) v] } := hsafe
      exact ⟨tagEntry_inv (saveEntryInCache_inv hinv1 _ _ _) _ _ (fun _ => rfl),
        tagEntry_deleteSafe (saveEntryInCache_deleteSafe hinv1 hsafe1 _ _ _) _ _
          (fun c => deleteCalls_counter c vec)⟩

theorem encodeGaugeBody_inv (lib : GoLib V) (clock : Nat → Int) (metric : GoMap V)
    (acc : encodeProm × List entryInfo) (kv : String × metricInfo)
    (hvec : kv.2.promGauge.isSome = true) (hinv : CacheInv acc.1) (hsafe : DeleteSafe acc.1) :
    CacheInv (encodeGaugeBody lib clock metric acc kv).1 ∧
      DeleteSafe (encodeGaugeBody lib clock metric acc kv).1 := by
  cases h1 : metric.get? kv.2.input with
  | none => simp only [encodeGaugeBody, h1]; exact ⟨hinv, hsafe⟩
  | some value =>
    cases h2 : lib.ParseFloat (lib.sprintv value) with
    | none => simp only [encodeGaugeBody, h1, h2]; exact ⟨hinv, hsafe⟩
    | some v =>
      obtain ⟨vec, hvec'⟩ := Option.isSome_iff_exists.mp hvec
      simp only [encodeGaugeBody, h1, h2, hvec']
      have hinv1 : CacheInv { acc.1 with prom := acc.1.prom ++
          [PromCall.gaugeSet vec (buildLabels lib metric kv.2.labelNames) v] } := hinv
      have hsafe1 : DeleteSafe { acc.1 with prom := acc.1.prom ++
          [PromCall.gaugeSet vec (buildLabels lib metric kv.2.labelNames) v] } := hsafe
      exact ⟨tagEntry_inv (saveEntryInCache_inv hinv1 _ _ _) _ _ (fun _ => rfl),
        tagEntry_deleteSafe (saveEntryInCache_deleteSafe hinv1 hsafe1 _ _ _) _ _
          (fun c => deleteCalls_gauge c vec)⟩

theorem foldl_pairRound_inv (lib : GoLib V) (clock : Nat → Int) :
    ∀ (l : List (GoMap V × Kind × String × metricInfo)) (acc : encodeProm × List entryInfo),
      (∀ pair ∈ l, (pair.2.1 = Kind.gauge → pair.2.2.2.promGauge.isSome = true) ∧
        (pair.2.1 = Kind.counter → pair.2.2.2.promCounter.isSome = true)) →
      CacheInv acc.1 → DeleteSafe acc.1 →
      CacheInv (l.foldl (pairRound lib clock) acc).1 ∧
        DeleteSafe (l.foldl (pairRound lib clock) acc).1 := by
  intro l
  induction l with
  | nil => intro acc _ hinv hsafe; exact ⟨hinv, hsafe⟩
  | cons x xs ih =>
    intro acc hvec hinv hsafe
    rw [List.foldl_cons]
    have hx := hvec x (List.mem_cons_self _ _)
    have hstep : CacheInv (pairRound lib clock acc x).1 ∧
        DeleteSafe (pairRound lib clock acc x).1 := by
      unfold pairRound
      cases hk : x.2.1 with
      | gauge => exact encodeGaugeBody_inv lib clock x.1 acc x.2.2 (hx.1 hk) hinv hsafe
      | counter => exact counterRound_inv lib clock x.1 acc x.2.2 (hx.2 hk) hinv hsafe
    exact ih _ (fun pair hp => hvec pair (List.mem_cons_of_mem _ hp)) hstep.1 hstep.2

theorem pairs_vecs {e : encodeProm} (hvec : VecsPresent e) (metrics : List (GoMap V)) :
    ∀ pair ∈ pairs e metrics,
      (pair.2.1 = Kind.gauge → pair.2.2.2.promGauge.isSome = true) ∧
        (pair.2.1 = Kind.counter → pair.2.2.2.promCounter.isSome = true) := by
  intro pair hp
  unfold pairs at hp
  rw [List.mem_flatMap] at hp
  obtain ⟨metric, _, hin⟩ := hp
  rcases List.mem_append.mp hin with h | h
  · obtain ⟨kv, hkv, rfl⟩ := List.mem_map.mp h
    exact ⟨fun _ => hvec.2 kv hkv, fun hk => by simp at hk⟩
  · obtain ⟨kv, hkv, rfl⟩ := List.mem_map.mp h
    exact ⟨fun hk => by simp at hk, fun _ => hvec.1 kv hkv⟩

/-- When no round of the batch panics, `Encode` returns, keeps the cache invariant, leaves no
nil vector to delete through, and keeps the descriptors. -/
theorem Encode_inv (lib : GoLib V) (clock : Nat → Int) {e : encodeProm} (hinv : CacheInv e)
    (hsafe : DeleteSafe e) (hvec : VecsPresent e) (metrics : List (GoMap V))
    (hadd : batchPanics lib e metrics = false) :
    ∃ r, Encode lib clock e metrics = some r ∧ CacheInv r.1 ∧ DeleteSafe r.1 ∧
      VecsPresent r.1 ∧ r.1.gauges = e.gauges ∧ r.1.counters = e.counters := by
  refine ⟨(pairs e metrics).foldl (pairRound lib clock) (e, []), ?_, ?_⟩
  · rw [Encode_eq, hadd]
    simp
  · have h := foldl_pairRound_inv lib clock (pairs e metrics) (e, []) (pairs_vecs hvec metrics)
      hinv hsafe
    have hcfg := foldl_pairRound_config lib clock (pairs e metrics) (e, [])
    refine ⟨h.1, h.2, ?_, hcfg.2.1, hcfg.2.2⟩
    unfold VecsPresent
    rw [hcfg.2.1, hcfg.2.2]
    exact hvec

theorem opPanics_congr (lib : GoLib V) {e e' : encodeProm} (hg : e'.gauges = e.gauges)
    (hc : e'.counters = e.counters) (op : EncoderOp V) :
    opPanics lib e' op = opPanics lib e op := by
  cases op with
  | encode metrics =>
    simp only [opPanics, batchPanics, pairs_congr hg hc metrics]
  | sweep nowInSecs => rfl

theorem runEncoder_inv (lib : GoLib V) (clock : Nat → Int) :
    ∀ (ops : List (EncoderOp V)) (e : encodeProm), CacheInv e → DeleteSafe e → VecsPresent e →
      (∀ op ∈ ops, opPanics lib e op = false) →
      ∃ e', runEncoder lib clock e ops = some e' ∧ CacheInv e' := by
  intro ops
  induction ops with
  | nil => intro e hinv _ _ _; exact ⟨e, rfl, hinv⟩
  | cons op rest ih =>
    intro e hinv hsafe hvec hadd
    have hop := hadd op (List.mem_cons_self _ _)
    cases op with
    | encode metrics =>
      obtain ⟨r, hr, h1, h2, h3, hg, hc⟩ := Encode_inv lib clock hinv hsafe hvec metrics hop
      obtain ⟨e', he', h'⟩ := ih r.1 h1 h2 h3 (fun op' hop' => by
        rw [opPanics_congr lib hg hc]
        exact hadd op' (List.mem_cons_of_mem _ hop'))
      refine ⟨e', ?_, h'⟩
      simp only [runEncoder, stepEncoder, hr, Option.map_some']
      exact he'
    | sweep nowInSecs =>
      obtain ⟨e1, he1, hinv1, hsafe1, _, _, hc, hg, _⟩ :=
        cleanupExpiredEntries_total hinv hsafe nowInSecs
      have hvec1 : VecsPresent e1 := by
        unfold VecsPresent
        rw [hc, hg]
        exact hvec
      obtain ⟨e', he', h'⟩ := ih e1 hinv1 hsafe1 hvec1 (fun op' hop' => by
        rw [opPanics_congr lib hg hc]
        exact hadd op' (List.mem_cons_of_mem _ hop'))
      refine ⟨e', ?_, h'⟩
      simp only [runEncoder, stepEncoder, he1]
      exact he'

theorem length_eq_of_inv {e : encodeProm} (hinv : CacheInv e) :
    e.mCache.length = e.mList.length := by
  obtain ⟨hnd, _, hml, hlm, hk⟩ := hinv
  have hndm : e.mCache.Nodup := List.Nodup.of_map Prod.fst hk
  have hnds : (e.mCache.map Prod.snd).Nodup := by
    refine List.Nodup.map_on ?_ hndm
    intro x hx y hy hxy
    have h1 := (hml x hx).2
    have h2 := (hml y hy).2
    rw [hxy] at h1
    exact Prod.ext (h1.symm.trans h2) hxy
  have hperm : (e.mCache.map Prod.snd).Perm e.mList := by
    rw [List.perm_ext_iff_of_nodup hnds hnd]
    intro p
    constructor
    · intro hp
      obtain ⟨kv, hkv, rfl⟩ := List.mem_map.mp hp
      exact (hml kv hkv).1
    · intro hp
      exact List.mem_map.mpr ⟨_, hlm p hp, rfl⟩
  rw [← hperm.length_eq, List.length_map]

theorem counterRound_cacheInv (lib : GoLib V) (clock : Nat → Int) (metric : GoMap V)
    (acc : encodeProm × List entryInfo) (kv : String × metricInfo) (hinv : CacheInv acc.1) :
    CacheInv (counterRound lib clock metric acc kv).1 := by
  cases h1 : metric.get? kv.2.input with
  | none => simp only [counterRound, h1]; exact hinv
  | some value =>
    cases h2 : lib.ParseFloat (lib.sprintv value) with
    | none => simp only [counterRound, h1, h2]; exact hinv
    | some v =>
      cases h3 : kv.2.promCounter with
      | none =>
        simp only [counterRound, h1, h2, h3]
        exact tagEntry_inv (saveEntryInCache_inv hinv _ _ _) _ _ (fun _ => rfl)
      | some vec =>
        simp only [counterRound, h1, h2, h3]
        have hinv1 : CacheInv { acc.1 with prom := acc.1.prom ++
            [PromCall.counterAdd vec (buildLabels lib metric kv.2.labelNames) v] } := hinv
        exact tagEntry_inv (saveEntryInCache_inv hinv1 _ _ _) _ _ (fun _ => rfl)

theorem encodeGaugeBody_cacheInv (lib : GoLib V) (clock : Nat → Int) (metric : GoMap V)
    (acc : encodeProm × List entryInfo) (kv : String × metricInfo) (hinv : CacheInv acc.1) :
    CacheInv (encodeGaugeBody lib clock metric acc kv).1 := by
  cases h1 : metric.get? kv.2.input with
  | none => simp only [encodeGaugeBody, h1]; exact hinv
  | some value =>
    cases h2 : lib.ParseFloat (lib.sprintv value) with
    | none => simp only [encodeGaugeBody, h1, h2]; exact hinv
    | some v =>
      cases h3 : kv.2.promGauge with
      | none =>
        simp only [encodeGaugeBody, h1, h2, h3]
        exact tagEntry_inv (saveEntryInCache_inv hinv _ _ _) _ _ (fun _ => rfl)
      | some vec =>
        simp only [encodeGaugeBody, h1, h2, h3]
        have hinv1 : CacheInv { acc.1 with prom := acc.1.prom ++
            [PromCall.gaugeSet vec (buildLabels lib metric kv.2.labelNames) v] } := hinv
        exact tagEntry_inv (saveEntryInCache_inv hinv1 _ _ _) _ _ (fun _ => rfl)

theorem foldl_pairRound_cacheInv (lib : GoLib V) (clock : Nat → Int) :
    ∀ (l : List (GoMap V × Kind × String × metricInfo)) (acc : encodeProm × List entryInfo),
      CacheInv acc.1 → CacheInv (l.foldl (pairRound lib clock) acc).1 := by
  intro l
  induction l with
  | nil => intro acc hinv; exact hinv
  | cons x xs ih =>
    intro acc hinv
    rw [List.foldl_cons]
    apply ih
    unfold pairRound
    cases x.2.1 with
    | gauge => exact encodeGaugeBody_cacheInv lib clock x.1 acc x.2.2 hinv
    | counter => exact counterRound_cacheInv lib clock x.1 acc x.2.2 hinv

/-- When `Encode` returns, it keeps the cache invariant, whatever the descriptors are. -/
theorem Encode_cacheInv (lib : GoLib V) (clock : Nat → Int) {e : encodeProm}
    (hinv : CacheInv e) (metrics : List (GoMap V)) (r : encodeProm × List entryInfo)
    (hr : Encode lib clock e metrics = some r) : CacheInv r.1 := by
  rw [Encode_eq] at hr
  split at hr
  · exact Option.noConfusion hr
  · rw [← Option.some.inj hr]
    exact foldl_pairRound_cacheInv lib clock (pairs e metrics) (e, []) hinv

/-- A sweep that returns keeps the cache invariant. -/
theorem cleanupLoop_cacheInv (expireTime : Int) :
    ∀ (l : List Ptr) (e e' : encodeProm), e.mList = l → CacheInv e →
      cleanupLoop expireTime l e = some e' → CacheInv e' := by
  intro l
  induction l with
  | nil =>
    intro e e' _ hinv h
    simp only [cleanupLoop, Option.some.injEq] at h
    exact h ▸ hinv
  | cons p rest ih =>
    intro e e' hl hinv h
    by_cases hgt : (deref e.heap p).timeStamp > expireTime
    · simp only [cleanupLoop, hgt, if_true, Option.some.injEq] at h
      exact h ▸ hinv
    · cases hcalls : deleteCalls (deref e.heap p) with
      | none => simp [cleanupLoop, hgt, hcalls] at h
      | some calls =>
        simp only [cleanupLoop, hgt, if_false, hcalls] at h
        exact ih (expireFront e p calls rest) e' rfl (expireFront_inv hl hinv calls) h

theorem runEncoder_cacheInv (lib : GoLib V) (clock : Nat → Int) :
    ∀ (ops : List (EncoderOp V)) (e e' : encodeProm), CacheInv e →
      runEncoder lib clock e ops = some e' → CacheInv e' := by
  intro ops
  induction ops with
  | nil =>
    intro e e' hinv h
    simp only [runEncoder, Option.some.injEq] at h
    exact h ▸ hinv
  | cons op rest ih =>
    intro e e' hinv h
    cases op with
    | encode metrics =>
      cases hstep : Encode lib clock e metrics with
      | none => simp [runEncoder, stepEncoder, hstep] at h
      | some r =>
        simp only [runEncoder, stepEncoder, hstep, Option.map_some'] at h
        exact ih r.1 e' (Encode_cacheInv lib clock hinv metrics r hstep) h
    | sweep nowInSecs =>
      cases hstep : cleanupExpiredEntries e nowInSecs with
      | none => simp [runEncoder, stepEncoder, hstep] at h
      | some e1 =>
        simp only [runEncoder, stepEncoder, hstep] at h
        exact ih e1 e' (cleanupLoop_cacheInv _ e.mList e e1 rfl hinv hstep) h

/-- The run of the witness of C19, evaluated: one entry, for `bytes_total`, in the map and
on the list. -/
theorem runEncoder_example :
    (runEncoder exampleLib (fun _ => 0)
        (emptyEncodeProm ":9102" "" [bytesTotal, packetsTotal] [] [] 2)
        [.encode [exampleRecord], .sweep 5, .encode [exampleRecord, exampleRecord]]).map
        (fun e => (e.mCache, e.mList)) =
      some ([("bytes_totalmap[srcIP:10.0.0.1]", 1)], [1]) := by
  decide

/-- A run that does not get to its end: the second `Encode` call gives the counter
`bytes_total` the value `-5`, and `Add` panics. -/
theorem runEncoder_panic_example :
    runEncoder exampleLib (fun _ => 0)
        (emptyEncodeProm ":9102" "" [bytesTotal, packetsTotal] [] [] 2)
        [.encode [exampleRecord], .encode [negativeRecord], .sweep 5] = none := by
  decide

/-! ## The boundary of a sweep -/

/-- A sweep that returns keeps on the list every entry of the list whose `timeStamp` is after
the expiry time, whatever the order of the list. -/
theorem cleanupLoop_keeps (expireTime : Int) :
    ∀ (l : List Ptr) (e e' : encodeProm), e.mList = l →
      cleanupLoop expireTime l e = some e' →
      ∀ p ∈ l, expireTime < (deref e.heap p).timeStamp → p ∈ e'.mList := by
  intro l
  induction l with
  | nil => intro e e' _ _ p hp; exact absurd hp (List.not_mem_nil p)
  | cons q rest ih =>
    intro e e' hl h p hp hlt
    by_cases hgt : (deref e.heap q).timeStamp > expireTime
    · simp only [cleanupLoop, hgt, if_true, Option.some.injEq] at h
      rw [← h, hl]
      exact hp
    · cases hcalls : deleteCalls (deref e.heap q) with
      | none => simp [cleanupLoop, hgt, hcalls] at h
      | some calls =>
        simp only [cleanupLoop, hgt, if_false, hcalls] at h
        rcases List.mem_cons.mp hp with hpq | hprest
        · rw [hpq] at hlt
          exact absurd hlt hgt
        · exact ih (expireFront e q calls rest) e' rfl h p hprest hlt

/-- C20, as the claim states it, is false. With expiry 2, an entry touched at time 0 has
`timeStamp = now - expiry` at a sweep at time 2, and the sweep removes it from the list and
from the map. And with expiry 2, after a touch of `K` at time 5 and a touch of `L` at time 0,
the entry of `L` has `timeStamp < now - expiry` at a sweep at time 4, and the sweep keeps it,
on the list and in the map: the loop stops at the front entry, `K`. -/
theorem sweep_boundary_counterexample :
    ((0 : Ptr) ∈ (touchAll (emptyEncodeProm ":9102" "" [] [] [] 2)
        [(0, ⟨⟨"K", []⟩, ⟨0⟩⟩, [])]).mList ∧
      (deref (touchAll (emptyEncodeProm ":9102" "" [] [] [] 2)
        [(0, ⟨⟨"K", []⟩, ⟨0⟩⟩, [])]).heap 0).timeStamp ≥
        2 - (touchAll (emptyEncodeProm ":9102" "" [] [] [] 2)
          [(0, ⟨⟨"K", []⟩, ⟨0⟩⟩, [])]).expiryTime ∧
      (cleanupExpiredEntries (touchAll (emptyEncodeProm ":9102" "" [] [] [] 2)
        [(0, ⟨⟨"K", []⟩, ⟨0⟩⟩, [])]) 2).map (fun e => (e.mList, e.mCache)) = some ([], [])) ∧
    ((1 : Ptr) ∈ cacheBackwards.mList ∧
      (deref cacheBackwards.heap 1).timeStamp < 4 - cacheBackwards.expiryTime ∧
      (cleanupExpiredEntries cacheBackwards 4).map (fun e => (e.mList, e.mCache)) =
        some ([0, 1], [("Kmap[]", 0), ("Lmap[]", 1)])) := by
  decide

/-- C20, amended: on a state that satisfies the cache invariant and has no nil vector to
delete through, a sweep at time `now` whose subtraction `now - expiryTime` does not overflow
returns, and every entry with `timeStamp > now - expiryTime` is still on the list and bound
in the map, unchanged: the sweep destroys only entries with `timeStamp ≤ now - expiryTime`.
When the list is sorted by `timeStamp`, the sweep destroys a cache entry exactly when its
`timeStamp ≤ now - expiryTime`: such an entry is afterwards neither on the list nor bound in
the map. -/
theorem sweep_destroys_iff (e : encodeProm) (hinv : CacheInv e) (hsafe : DeleteSafe e)
    (now : Int) (hfit : fitsInt64 (now - e.expiryTime)) :
    ∃ e', cleanupExpiredEntries e now = some e' ∧ e'.heap = e.heap ∧
      (∀ p ∈ e.mList, now - e.expiryTime < (deref e.heap p).timeStamp →
        p ∈ e'.mList ∧ e'.mCache.get? (deref e.heap p).key = some p) ∧
      (SortedByTime e → ∀ p ∈ e.mList, (deref e.heap p).timeStamp ≤ now - e.expiryTime →
        p ∉ e'.mList ∧ e'.mCache.get? (deref e.heap p).key = none) := by
  obtain ⟨e', he', hinv', _, hheap, _⟩ :=
    cleanupLoop_total (now - e.expiryTime) e.mList e rfl hinv hsafe
  refine ⟨e', ?_, hheap, ?_, ?_⟩
  · unfold cleanupExpiredEntries
    simp only [wrapInt64_of_fits hfit]
    exact he'
  · intro p hp hlt
    have hmem := cleanupLoop_keeps (now - e.expiryTime) e.mList e e' rfl he' p hp hlt
    have hkey := get?_key_of_inv hinv' hmem
    rw [hheap] at hkey
    exact ⟨hmem, hkey⟩
  · intro hs p hp hle
    obtain ⟨e2, he2, _, _, hmem, hget⟩ :=
      cleanupLoop_spec (now - e.expiryTime) e.mList e rfl hinv hs hsafe
    have he : e2 = e' := Option.some.inj (he2.symm.trans he')
    rw [he] at hmem hget
    have hkey := get?_key_of_inv hinv hp
    have hnlt : ¬ now - e.expiryTime < (deref e.heap p).timeStamp := not_lt.mpr hle
    refine ⟨fun h => hnlt ((hmem p).mp h).2, ?_⟩
    rw [hget, hkey]
    simp [hnlt]

/-- Witness of amended C20: `K` touched at 0 and `L` touched at 1, expiry 2, sweep at 2; the
list is sorted. -/
theorem sweep_destroys_iff_witness :
    ∃ e', cleanupExpiredEntries cacheKL 2 = some e' ∧ e'.heap = cacheKL.heap ∧
      (∀ p ∈ cacheKL.mList, 2 - cacheKL.expiryTime < (deref cacheKL.heap p).timeStamp →
        p ∈ e'.mList ∧ e'.mCache.get? (deref cacheKL.heap p).key = some p) ∧
      (∀ p ∈ cacheKL.mList, (deref cacheKL.heap p).timeStamp ≤ 2 - cacheKL.expiryTime →
        p ∉ e'.mList ∧ e'.mCache.get? (deref cacheKL.heap p).key = none) :=
  Exists.elim (sweep_destroys_iff cacheKL (by decide) (by decide) 2 (by decide))
    (fun e' h => ⟨e', h.1, h.2.1, h.2.2.1, h.2.2.2 (by decide)⟩)

/-- The sweep of the witness of amended C20, evaluated: `K`, touched at `now - expiry`, is
removed, and `L` is kept. -/
theorem sweep_boundary_example :
    (cleanupExpiredEntries cacheKL 2).map (fun e => (e.mList, e.mCache)) =
      some ([1], [("Lmap[]", 1)]) := by
  decide

end encode

/-! ## A second sweep at the same time -/

namespace encode

theorem cleanupLoop_idem (expireTime : Int) :
    ∀ (l : List Ptr) (e e' : encodeProm), e.mList = l →
      cleanupLoop expireTime l e = some e' →
      cleanupLoop expireTime e'.mList e' = some e' ∧ e'.heap = e.heap ∧ e'.mList <:+ l ∧
        e'.mCache.Sublist e.mCache ∧ e'.expiryTime = e.expiryTime := by
  intro l
  induction l with
  | nil =>
    intro e e' hl h
    simp only [cleanupLoop, Option.some.injEq] at h
    subst h
    rw [hl]
    exact ⟨rfl, rfl, List.suffix_refl _, List.Sublist.refl _, rfl⟩
  | cons p rest ih =>
    intro e e' hl h
    by_cases hgt : (deref e.heap p).timeStamp > expireTime
    · simp only [cleanupLoop, hgt, if_true, Option.some.injEq] at h
      subst h
      rw [hl]
      exact ⟨by simp [cleanupLoop, hgt], rfl, List.suffix_refl _, List.Sublist.refl _, rfl⟩
    · cases hcalls : deleteCalls (deref e.heap p) with
      | none => simp [cleanupLoop, hgt, hcalls] at h
      | some calls =>
        simp only [cleanupLoop, hgt, if_false, hcalls] at h
        obtain ⟨h1, h2, h3, h4, h5⟩ := ih (expireFront e p calls rest) e' rfl h
        refine ⟨h1, h2, h3.trans (List.suffix_cons p rest), ?_, h5⟩
        exact h4.trans (List.filter_sublist _)

theorem cleanupLoop_returns (expireTime : Int) :
    ∀ (l : List Ptr) (e : encodeProm),
      (∀ p ∈ l, (deleteCalls (deref e.heap p)).isSome = true) →
      ∃ e', cleanupLoop expireTime l e = some e' := by
  intro l
  induction l with
  | nil => intro e _; exact ⟨e, rfl⟩
  | cons p rest ih =>
    intro e hsafe
    by_cases hgt : (deref e.heap p).timeStamp > expireTime
    · exact ⟨e, by simp [cleanupLoop, hgt]⟩
    · obtain ⟨calls, hcalls⟩ := Option.isSome_iff_exists.mp (hsafe p (List.mem_cons_self _ _))
      obtain ⟨e', he'⟩ := ih (expireFront e p calls rest)
        (fun q hq => hsafe q (List.mem_cons_of_mem _ hq))
      exact ⟨e', by simp only [cleanupLoop, hgt, if_false, hcalls]; exact he'⟩

/-- C23: for every cache state, sorted or not, and every time `now`: when the sweep
`cleanupExpiredEntries` at `now` returns a state, a second sweep at `now` returns that same
state, so the same map and the same list; the first sweep leaves the arena as it was, so the
`timeStamp` and the `labels` of every entry, keeps of the list a suffix, in its order, and
keeps of the map some of its bindings, in their order. The sweep does return when no entry
of the list has a nil vector to delete through. -/
theorem sweep_idempotent (e : encodeProm) (now : Int) :
    (∀ e1, cleanupExpiredEntries e now = some e1 →
      cleanupExpiredEntries e1 now = some e1 ∧ e1.heap = e.heap ∧ e1.mList <:+ e.mList ∧
        e1.mCache.Sublist e.mCache) ∧
    (DeleteSafe e → ∃ e1, cleanupExpiredEntries e now = some e1) := by
  constructor
  · intro e1 h
    obtain ⟨h1, h2, h3, h4, h5⟩ := cleanupLoop_idem _ e.mList e e1 rfl h
    refine ⟨?_, h2, h3, h4⟩
    unfold cleanupExpiredEntries
    simp only [h5]
    exact h1
  · intro hsafe
    exact cleanupLoop_returns _ e.mList e hsafe

/-- Witness of C23: the cache with `K` touched at 0 and `L` touched at 1, expiry 2, swept
twice at time 2. -/
theorem sweep_idempotent_witness :
    ∃ e1, cleanupExpiredEntries cacheKL 2 = some e1 ∧
      cleanupExpiredEntries e1 2 = some e1 ∧ e1.heap = cacheKL.heap ∧
      e1.mList <:+ cacheKL.mList ∧ e1.mCache.Sublist cacheKL.mCache :=
  have h := sweep_idempotent cacheKL 2
  Exists.elim (h.2 (by decide)) (fun e1 he1 => ⟨e1, he1, h.1 e1 he1⟩)

/-- The two sweeps of the witness of C23, evaluated: both leave the entry `L`. -/
theorem sweep_twice_example :
    ((cleanupExpiredEntries cacheKL 2).bind (fun e1 => cleanupExpiredEntries e1 2)).map
        (fun e => (e.mList, e.mCache)) = some ([1], [("Lmap[]", 1)]) ∧
      (cleanupExpiredEntries cacheKL 2).bind (fun e1 => cleanupExpiredEntries e1 2) =
        cleanupExpiredEntries cacheKL 2 := by
  decide

end encode

/-! ## The series key: independence of the order of the labels -/

namespace encode

theorem eq_of_keys_eq {β : Type} :
    ∀ (l1 l2 : GoMap β), l1.map Prod.fst = l2.map Prod.fst → (∀ kv ∈ l1, kv ∈ l2) →
      (l2.map Prod.fst).Nodup → l1 = l2 := by
  intro l1
  induction l1 with
  | nil =>
    intro l2 hkeys _ _
    cases l2 with
    | nil => rfl
    | cons b t => simp at hkeys
  | cons a t1 ih =>
    intro l2 hkeys hmem hnd
    cases l2 with
    | nil => simp at hkeys
    | cons b t2 =>
      simp only [List.map_cons, List.cons.injEq] at hkeys
      simp only [List.map_cons, List.nodup_cons] at hnd
      have hab : a = b := by
        rcases List.mem_cons.mp (hmem a (List.mem_cons_self _ _)) with h | h
        · exact h
        · exact absurd (hkeys.1 ▸ List.mem_map_of_mem Prod.fst h) hnd.1
      subst hab
      congr 1
      refine ih t2 hkeys.2 ?_ hnd.2
      intro kv hkv
      rcases List.mem_cons.mp (hmem kv (List.mem_cons_of_mem _ hkv)) with h | h
      · have : kv.1 ∈ t2.map Prod.fst := hkeys.2 ▸ List.mem_map_of_mem Prod.fst hkv
        exact absurd (h ▸ this) hnd.1
      · exact h

/-- Sorting the bindings of a Go map by key gives the same list whatever order the bindings
come in. -/
theorem insertionSort_eq_of_perm {β : Type} {l1 l2 : GoMap β} (hperm : l1.Perm l2)
    (hnd : l1.keys.Nodup) :
    l1.insertionSort (fun a b => a.1 ≤ b.1) = l2.insertionSort (fun a b => a.1 ≤ b.1) := by
  have hp1 := List.perm_insertionSort (fun a b : String × β => a.1 ≤ b.1) l1
  have hp2 := List.perm_insertionSort (fun a b : String × β => a.1 ≤ b.1) l2
  have hs1 := List.sorted_insertionSort (fun a b : String × β => a.1 ≤ b.1) l1
  have hs2 := List.sorted_insertionSort (fun a b : String × β => a.1 ≤ b.1) l2
  have hperm12 := hp1.trans (hperm.trans hp2.symm)
  have hk1 : List.Sorted (· ≤ ·)
      ((l1.insertionSort (fun a b => a.1 ≤ b.1)).map Prod.fst) := List.pairwise_map.mpr hs1
  have hk2 : List.Sorted (· ≤ ·)
      ((l2.insertionSort (fun a b => a.1 ≤ b.1)).map Prod.fst) := List.pairwise_map.mpr hs2
  have hkeys := List.eq_of_perm_of_sorted (hperm12.map Prod.fst) hk1 hk2
  refine eq_of_keys_eq _ _ hkeys (fun kv hkv => hperm12.subset hkv) ?_
  have hnd2 : (l2.map Prod.fst).Nodup := (hperm.map Prod.fst).nodup_iff.mp hnd
  exact (hp2.map Prod.fst).nodup_iff.mpr hnd2

/-- C21: `generateCacheKey` is a function of the metric name and of the set of bindings of the
label map: for every metric name and every two label maps with the same key/value pairs, in
any order, the generated keys are equal, and `saveEntryInCache` then returns the same cache
entry and leaves the same map and the same list. -/
theorem generateCacheKey_order_independent (Name : String) (labels1 labels2 : GoMap String)
    (hnd : labels1.keys.Nodup) (hperm : labels1.Perm labels2) (e : encodeProm)
    (nowInSecs : Int) (value1 value2 : float64) (entryLabels1 entryLabels2 : GoMap String) :
    generateCacheKey ⟨Name, labels1⟩ = generateCacheKey ⟨Name, labels2⟩ ∧
      (saveEntryInCache e nowInSecs ⟨⟨Name, labels1⟩, value1⟩ entryLabels1).2 =
        (saveEntryInCache e nowInSecs ⟨⟨Name, labels2⟩, value2⟩ entryLabels2).2 ∧
      (saveEntryInCache e nowInSecs ⟨⟨Name, labels1⟩, value1⟩ entryLabels1).1.mCache =
        (saveEntryInCache e nowInSecs ⟨⟨Name, labels2⟩, value2⟩ entryLabels2).1.mCache ∧
      (saveEntryInCache e nowInSecs ⟨⟨Name, labels1⟩, value1⟩ entryLabels1).1.mList =
        (saveEntryInCache e nowInSecs ⟨⟨Name, labels2⟩, value2⟩ entryLabels2).1.mList := by
  have hkey : generateCacheKey ⟨Name, labels1⟩ = generateCacheKey ⟨Name, labels2⟩ := by
    unfold generateCacheKey sprintMap
    simp only [insertionSort_eq_of_perm hperm hnd]
  refine ⟨hkey, ?_⟩
  cases hget : e.mCache.get? (generateCacheKey ⟨Name, labels2⟩) with
  | some cEntry =>
    have hget1 : e.mCache.get? (generateCacheKey
        (⟨⟨Name, labels1⟩, value1⟩ : entryInfo).eInfo) = some cEntry := by
      rw [← hget, ← hkey]
    have hget2 : e.mCache.get? (generateCacheKey
        (⟨⟨Name, labels2⟩, value2⟩ : entryInfo).eInfo) = some cEntry := hget
    rw [saveEntryInCache_hit hget1, saveEntryInCache_hit hget2]
    exact ⟨rfl, rfl, rfl⟩
  | none =>
    have hget1 : e.mCache.get? (generateCacheKey
        (⟨⟨Name, labels1⟩, value1⟩ : entryInfo).eInfo) = none := by
      rw [← hget, ← hkey]
    have hget2 : e.mCache.get? (generateCacheKey
        (⟨⟨Name, labels2⟩, value2⟩ : entryInfo).eInfo) = none := hget
    rw [saveEntryInCache_miss hget1, saveEntryInCache_miss hget2]
    refine ⟨rfl, ?_, rfl⟩
    show e.mCache ++ [(generateCacheKey ⟨Name, labels1⟩, _)] =
      e.mCache ++ [(generateCacheKey ⟨Name, labels2⟩, _)]
    rw [hkey]

/-- Witness of C21: the labels `{srcIP: 10.0.0.1, dstIP: 10.0.0.2}` built in the two orders,
on the cache that holds `K` and `L`. -/
theorem generateCacheKey_order_independent_witness :
    generateCacheKey ⟨"bytes_total", [("srcIP", "10.0.0.1"), ("dstIP", "10.0.0.2")]⟩ =
        generateCacheKey ⟨"bytes_total", [("dstIP", "10.0.0.2"), ("srcIP", "10.0.0.1")]⟩ ∧
      (saveEntryInCache cacheKL 5
          ⟨⟨"bytes_total", [("srcIP", "10.0.0.1"), ("dstIP", "10.0.0.2")]⟩, ⟨0⟩⟩ []).2 =
        (saveEntryInCache cacheKL 5
          ⟨⟨"bytes_total", [("dstIP", "10.0.0.2"), ("srcIP", "10.0.0.1")]⟩, ⟨0⟩⟩ []).2 ∧
      (saveEntryInCache cacheKL 5
          ⟨⟨"bytes_total", [("srcIP", "10.0.0.1"), ("dstIP", "10.0.0.2")]⟩, ⟨0⟩⟩ []).1.mCache =
        (saveEntryInCache cacheKL 5
          ⟨⟨"bytes_total", [("dstIP", "10.0.0.2"), ("srcIP", "10.0.0.1")]⟩, ⟨0⟩⟩ []).1.mCache ∧
      (saveEntryInCache cacheKL 5
          ⟨⟨"bytes_total", [("srcIP", "10.0.0.1"), ("dstIP", "10.0.0.2")]⟩, ⟨0⟩⟩ []).1.mList =
        (saveEntryInCache cacheKL 5
          ⟨⟨"bytes_total", [("dstIP", "10.0.0.2"), ("srcIP", "10.0.0.1")]⟩, ⟨0⟩⟩ []).1.mList :=
  generateCacheKey_order_independent "bytes_total"
    [("srcIP", "10.0.0.1"), ("dstIP", "10.0.0.2")] [("dstIP", "10.0.0.2"), ("srcIP", "10.0.0.1")]
    (by decide) (List.Perm.swap _ _ _) cacheKL 5 ⟨0⟩ ⟨0⟩ [] []

/-- The key of the witness of C21, evaluated: the labels are printed in the order of their
names. -/
theorem generateCacheKey_example :
    generateCacheKey ⟨"bytes_total", [("srcIP", "10.0.0.1"), ("dstIP", "10.0.0.2")]⟩ =
      "bytes_totalmap[dstIP:10.0.0.2 srcIP:10.0.0.1]" := by
  have h : ¬ (("srcIP" : String) ≤ "dstIP") := by
    rw [String.le_iff_toList_le]; decide
  simp only [generateCacheKey, sprintMap, List.insertionSort, List.orderedInsert, h, if_false]
  decide

end encode

/-! ## The series key: when two signatures get the same key -/

namespace encode

theorem intercalate_go_data (sep : String) :
    ∀ (l : List String) (acc : String),
      (String.intercalate.go acc sep l).data =
        acc.data ++ l.flatMap (fun x => sep.data ++ x.data) := by
  intro l
  induction l with
  | nil => intro acc; simp [String.intercalate.go]
  | cons a as ih =>
    intro acc
    rw [String.intercalate.go, ih]
    simp [String.data_append, List.append_assoc]

theorem intercalate_data (bindings : List (String × String)) :
    (" ".intercalate (bindings.map (fun kv => kv.1 ++ ":" ++ kv.2))).data =
      bodyChars bindings := by
  cases bindings with
  | nil => rfl
  | cons kv rest =>
    simp only [List.map_cons, String.intercalate, intercalate_go_data, bodyChars, restChars,
      String.data_append, List.flatMap_map]
    have h1 : (":" : String).data = [':'] := rfl
    have h2 : (" " : String).data = [' '] := rfl
    simp [h1, h2]

theorem generateCacheKey_data (sig : entrySignature) :
    (generateCacheKey sig).data =
      (sig.Name.data ++ ['m', 'a', 'p']) ++
        '[' :: (bodyChars (sig.Labels.insertionSort (fun a b => a.1 ≤ b.1)) ++ [']']) := by
  unfold generateCacheKey sprintMap
  simp only [String.data_append, intercalate_data]
  have h1 : ("map[" : String).data = ['m', 'a', 'p', '['] := rfl
  have h2 : ("]" : String).data = [']'] := rfl
  simp [h1, h2]

theorem append_split (c : Char) :
    ∀ (a b r1 r2 : List Char), c ∉ a → c ∉ b → (r1 = [] ∨ ∃ t, r1 = c :: t) →
      (r2 = [] ∨ ∃ t, r2 = c :: t) → a ++ r1 = b ++ r2 → a = b ∧ r1 = r2 := by
  intro a
  induction a with
  | nil =>
    intro b r1 r2 _ hb hr1 _ h
    cases b with
    | nil => exact ⟨rfl, by simpa using h⟩
    | cons y b' =>
      simp only [List.nil_append, List.cons_append] at h
      rcases hr1 with h1 | ⟨t, h1⟩
      · rw [h1] at h; simp at h
      · rw [h1] at h
        simp only [List.cons.injEq] at h
        exact absurd (h.1 ▸ List.mem_cons_self _ _) hb
  | cons x a' ih =>
    intro b r1 r2 ha hb hr1 hr2 h
    cases b with
    | nil =>
      simp only [List.nil_append, List.cons_append] at h
      rcases hr2 with h2 | ⟨t, h2⟩
      · rw [h2] at h; simp at h
      · rw [h2] at h
        simp only [List.cons.injEq] at h
        exact absurd (h.1 ▸ List.mem_cons_self _ _) ha
    | cons y b' =>
      simp only [List.cons_append, List.cons.injEq] at h
      have := ih b' r1 r2 (fun hc => ha (List.mem_cons_of_mem _ hc))
        (fun hc => hb (List.mem_cons_of_mem _ hc)) hr1 hr2 h.2
      exact ⟨by rw [h.1, this.1], this.2⟩

theorem restChars_shape (bindings : List (String × String)) :
    restChars bindings = [] ∨ ∃ t, restChars bindings = ' ' :: t := by
  cases bindings with
  | nil => left; rfl
  | cons kv rest =>
    right
    refine ⟨kv.1.data ++ ':' :: kv.2.data ++ restChars rest, ?_⟩
    simp [restChars]

theorem restChars_injective :
    ∀ (s1 s2 : List (String × String)), s1.map Prod.fst = s2.map Prod.fst →
      (∀ kv ∈ s1, ' ' ∉ kv.2.data) → (∀ kv ∈ s2, ' ' ∉ kv.2.data) →
      restChars s1 = restChars s2 → s1 = s2 := by
  intro s1
  induction s1 with
  | nil =>
    intro s2 hk _ _ _
    cases s2 with
    | nil => rfl
    | cons b t => simp at hk
  | cons a t1 ih =>
    intro s2 hk h1 h2 h
    cases s2 with
    | nil => simp at hk
    | cons b t2 =>
      simp only [List.map_cons, List.cons.injEq] at hk
      obtain ⟨ka, va⟩ := a
      obtain ⟨kb, vb⟩ := b
      simp only at hk
      obtain ⟨hkab, hkt⟩ := hk
      subst hkab
      have h' : va.data ++ restChars t1 = vb.data ++ restChars t2 := by
        have : restChars ((ka, va) :: t1) = ' ' :: (ka.data ++ ':' :: (va.data ++ restChars t1)) := by
          simp [restChars]
        rw [this] at h
        have : restChars ((ka, vb) :: t2) = ' ' :: (ka.data ++ ':' :: (vb.data ++ restChars t2)) := by
          simp [restChars]
        rw [this] at h
        simp only [List.cons.injEq, true_and, List.append_cancel_left_eq] at h
        exact h
      have hsplit := append_split ' ' va.data vb.data _ _
        (h1 _ (List.mem_cons_self _ _)) (h2 _ (List.mem_cons_self _ _))
        (restChars_shape t1) (restChars_shape t2) h'
      have hv : va = vb := String.ext hsplit.1
      subst hv
      rw [ih t2 hkt (fun kv hkv => h1 kv (List.mem_cons_of_mem _ hkv))
        (fun kv hkv => h2 kv (List.mem_cons_of_mem _ hkv)) hsplit.2]

theorem bodyChars_injective (s1 s2 : List (String × String))
    (hk : s1.map Prod.fst = s2.map Prod.fst)
    (h1 : ∀ kv ∈ s1, ' ' ∉ kv.2.data) (h2 : ∀ kv ∈ s2, ' ' ∉ kv.2.data)
    (h : bodyChars s1 = bodyChars s2) : s1 = s2 := by
  cases s1 with
  | nil =>
    cases s2 with
    | nil => rfl
    | cons b t => simp at hk
  | cons a t1 =>
    cases s2 with
    | nil => simp at hk
    | cons b t2 =>
      simp only [List.map_cons, List.cons.injEq] at hk
      obtain ⟨ka, va⟩ := a
      obtain ⟨kb, vb⟩ := b
      simp only at hk
      obtain ⟨hkab, hkt⟩ := hk
      subst hkab
      simp only [bodyChars, List.append_assoc, List.cons_append, List.append_cancel_left_eq,
        List.cons.injEq, true_and] at h
      have hsplit := append_split ' ' va.data vb.data _ _
        (h1 _ (List.mem_cons_self _ _)) (h2 _ (List.mem_cons_self _ _))
        (restChars_shape t1) (restChars_shape t2) h
      have hv : va = vb := String.ext hsplit.1
      subst hv
      rw [restChars_injective t1 t2 hkt (fun kv hkv => h1 kv (List.mem_cons_of_mem _ hkv))
        (fun kv hkv => h2 kv (List.mem_cons_of_mem _ hkv)) hsplit.2]

theorem key_parts (sig1 sig2 : entrySignature)
    (hname1 : '[' ∉ sig1.Name.data) (hname2 : '[' ∉ sig2.Name.data)
    (h : generateCacheKey sig1 = generateCacheKey sig2) :
    sig1.Name = sig2.Name ∧
      bodyChars (sig1.Labels.insertionSort (fun a b => a.1 ≤ b.1)) =
        bodyChars (sig2.Labels.insertionSort (fun a b => a.1 ≤ b.1)) := by
  have hd := congrArg String.data h
  rw [generateCacheKey_data, generateCacheKey_data] at hd
  have hsplit := append_split '[' _ _ _ _
    (by simp [hname1]) (by simp [hname2]) (Or.inr ⟨_, rfl⟩) (Or.inr ⟨_, rfl⟩) hd
  constructor
  · exact String.ext (List.append_cancel_right hsplit.1)
  · have h2 := hsplit.2
    simp only [List.cons.injEq, true_and] at h2
    exact List.append_cancel_right h2

theorem get?_eq_of_perm {β : Type} {l1 l2 : GoMap β} (hperm : l1.Perm l2)
    (hnd : l1.keys.Nodup) (k : String) : l1.get? k = l2.get? k := by
  have hnd2 : l2.keys.Nodup := (hperm.map Prod.fst).nodup_iff.mp hnd
  cases h : l1.get? k with
  | none =>
    have hk : k ∉ l2.keys := fun hin =>
      (GoMap.get?_eq_none_iff.mp h) ((hperm.map Prod.fst).symm.subset hin)
    exact (GoMap.get?_eq_none_iff.mpr hk).symm
  | some v =>
    exact (GoMap.get?_of_mem hnd2 (hperm.subset (GoMap.mem_of_get? h))).symm

theorem sorted_keys_eq {β : Type} {l1 l2 : GoMap β} (hkeys : l1.keys.Perm l2.keys) :
    (l1.insertionSort (fun a b => a.1 ≤ b.1)).map Prod.fst =
      (l2.insertionSort (fun a b => a.1 ≤ b.1)).map Prod.fst := by
  have hp1 := List.perm_insertionSort (fun a b : String × β => a.1 ≤ b.1) l1
  have hp2 := List.perm_insertionSort (fun a b : String × β => a.1 ≤ b.1) l2
  have hs1 := List.sorted_insertionSort (fun a b : String × β => a.1 ≤ b.1) l1
  have hs2 := List.sorted_insertionSort (fun a b : String × β => a.1 ≤ b.1) l2
  have hk1 : List.Sorted (· ≤ ·)
      ((l1.insertionSort (fun a b => a.1 ≤ b.1)).map Prod.fst) := List.pairwise_map.mpr hs1
  have hk2 : List.Sorted (· ≤ ·)
      ((l2.insertionSort (fun a b => a.1 ≤ b.1)).map Prod.fst) := List.pairwise_map.mpr hs2
  exact List.eq_of_perm_of_sorted
    ((hp1.map Prod.fst).trans (hkeys.trans (hp2.map Prod.fst).symm)) hk1 hk2

/-- Two signatures with the same label names, no `[` in the metric names and no space in the
label values, that get the same key are the same series. -/
theorem same_series_of_key_eq (sig1 sig2 : entrySignature) (hnd1 : sig1.Labels.keys.Nodup)
    (hkeys : sig1.Labels.keys.Perm sig2.Labels.keys)
    (hname1 : '[' ∉ sig1.Name.data) (hname2 : '[' ∉ sig2.Name.data)
    (hval1 : ∀ kv ∈ sig1.Labels, ' ' ∉ kv.2.data) (hval2 : ∀ kv ∈ sig2.Labels, ' ' ∉ kv.2.data)
    (h : generateCacheKey sig1 = generateCacheKey sig2) :
    sig1.Name = sig2.Name ∧ ∀ k, sig1.Labels.get? k = sig2.Labels.get? k := by
  obtain ⟨hname, hbody⟩ := key_parts sig1 sig2 hname1 hname2 h
  refine ⟨hname, ?_⟩
  have hp1 := List.perm_insertionSort (fun a b : String × String => a.1 ≤ b.1) sig1.Labels
  have hp2 := List.perm_insertionSort (fun a b : String × String => a.1 ≤ b.1) sig2.Labels
  have hsorted := bodyChars_injective _ _ (sorted_keys_eq hkeys)
    (fun kv hkv => hval1 kv (hp1.subset hkv)) (fun kv hkv => hval2 kv (hp2.subset hkv)) hbody
  have hperm : sig1.Labels.Perm sig2.Labels := hp1.symm.trans (hsorted ▸ hp2)
  exact get?_eq_of_perm hperm hnd1

theorem saveEntryInCache_get? (e : encodeProm) (nowInSecs : Int)
    (entry : entryInfo) (entryLabels : GoMap String) :
    (saveEntryInCache e nowInSecs entry entryLabels).1.mCache.get?
        (generateCacheKey entry.eInfo) =
      some (saveEntryInCache e nowInSecs entry entryLabels).2 := by
  cases hget : e.mCache.get? (generateCacheKey entry.eInfo) with
  | some cEntry =>
    rw [saveEntryInCache_hit hget]
    exact hget
  | none =>
    rw [saveEntryInCache_miss hget]
    show GoMap.get? (e.mCache ++ [(generateCacheKey entry.eInfo, e.heap.length)]) _ = _
    rw [← GoMap.set_of_get?_none _ hget]
    exact GoMap.get?_set_self _ _ _

theorem saveEntryInCache_get?_other {e : encodeProm} (nowInSecs : Int) (entry : entryInfo)
    (entryLabels : GoMap String) {K : String} (hK : K ≠ generateCacheKey entry.eInfo) :
    (saveEntryInCache e nowInSecs entry entryLabels).1.mCache.get? K = e.mCache.get? K := by
  cases hget : e.mCache.get? (generateCacheKey entry.eInfo) with
  | some cEntry =>
    rw [saveEntryInCache_hit hget]
  | none =>
    rw [saveEntryInCache_miss hget]
    show GoMap.get? (e.mCache ++ [(generateCacheKey entry.eInfo, e.heap.length)]) _ = _
    rw [← GoMap.set_of_get?_none _ hget]
    exact GoMap.get?_set_ne _ _ hK

theorem same_entry_of_key_eq {sig1 sig2 : entrySignature} (e : encodeProm) (now1 now2 : Int)
    (value1 value2 : float64) (entryLabels1 entryLabels2 : GoMap String)
    (hkey : generateCacheKey sig1 = generateCacheKey sig2) :
    (saveEntryInCache (saveEntryInCache e now1 ⟨sig1, value1⟩ entryLabels1).1 now2
        ⟨sig2, value2⟩ entryLabels2).2 =
      (saveEntryInCache e now1 ⟨sig1, value1⟩ entryLabels1).2 := by
  have hg1 := saveEntryInCache_get? e now1 ⟨sig1, value1⟩ entryLabels1
  have hhit : (saveEntryInCache e now1 ⟨sig1, value1⟩ entryLabels1).1.mCache.get?
      (generateCacheKey (⟨sig2, value2⟩ : entryInfo).eInfo) =
      some (saveEntryInCache e now1 ⟨sig1, value1⟩ entryLabels1).2 := by
    show GoMap.get? _ (generateCacheKey sig2) = _
    rw [← hkey]
    exact hg1
  rw [saveEntryInCache_hit hhit]

/-- C22, as the claim states it, is false: two signatures with the same metric name and the
same label names, that differ in the value of the label `dstIP` (and of `srcIP`), get the
same key, and a touch of the second after a touch of the first returns the entry of the
first. -/
theorem generateCacheKey_collision_counterexample :
    collidingA.Name = collidingB.Name ∧ collidingA.Labels.keys = collidingB.Labels.keys ∧
      collidingA.Labels.get? "dstIP" ≠ collidingB.Labels.get? "dstIP" ∧
      generateCacheKey collidingA = generateCacheKey collidingB ∧
      (saveEntryInCache (saveEntryInCache (emptyEncodeProm ":9102" "" [] [] [] 2) 0
          ⟨collidingA, ⟨0⟩⟩ collidingA.Labels).1 1 ⟨collidingB, ⟨0⟩⟩ collidingB.Labels).2 =
        (saveEntryInCache (emptyEncodeProm ":9102" "" [] [] [] 2) 0
          ⟨collidingA, ⟨0⟩⟩ collidingA.Labels).2 := by
  have hle : (("dstIP" : String) ≤ "srcIP") := by
    rw [String.le_iff_toList_le]; decide
  have hkey : generateCacheKey collidingA = generateCacheKey collidingB := by
    simp only [generateCacheKey, sprintMap, collidingA, collidingB, List.insertionSort,
      List.orderedInsert, hle, if_true]
    decide
  exact ⟨rfl, rfl, by decide, hkey, same_entry_of_key_eq _ 0 1 ⟨0⟩ ⟨0⟩ _ _ hkey⟩

/-- C22, amended: `generateCacheKey` is injective on the series whose metric name has no `[`
and whose label values have no space: two such signatures with the same label names that
differ in the metric name or in at least one label value get different keys, and on a state
that satisfies the cache invariant a touch of the one and then of the other returns two
different cache entries. -/
theorem generateCacheKey_injective (sig1 sig2 : entrySignature)
    (hnd1 : sig1.Labels.keys.Nodup) (hkeys : sig1.Labels.keys.Perm sig2.Labels.keys)
    (hname1 : '[' ∉ sig1.Name.data) (hname2 : '[' ∉ sig2.Name.data)
    (hval1 : ∀ kv ∈ sig1.Labels, ' ' ∉ kv.2.data) (hval2 : ∀ kv ∈ sig2.Labels, ' ' ∉ kv.2.data)
    (hdiff : sig1.Name ≠ sig2.Name ∨ ∃ k, sig1.Labels.get? k ≠ sig2.Labels.get? k)
    (e : encodeProm) (hinv : CacheInv e) (now1 now2 : Int) (value1 value2 : float64)
    (entryLabels1 entryLabels2 : GoMap String) :
    generateCacheKey sig1 ≠ generateCacheKey sig2 ∧
      (saveEntryInCache (saveEntryInCache e now1 ⟨sig1, value1⟩ entryLabels1).1 now2
          ⟨sig2, value2⟩ entryLabels2).2 ≠
        (saveEntryInCache e now1 ⟨sig1, value1⟩ entryLabels1).2 := by
  have hne : generateCacheKey sig1 ≠ generateCacheKey sig2 := by
    intro h
    obtain ⟨hn, hl⟩ := same_series_of_key_eq sig1 sig2 hnd1 hkeys hname1 hname2 hval1 hval2 h
    rcases hdiff with hd | ⟨k, hd⟩
    · exact hd hn
    · exact hd (hl k)
  refine ⟨hne, ?_⟩
  intro hptr
  have hinv1 := saveEntryInCache_inv hinv now1 ⟨sig1, value1⟩ entryLabels1
  have hinv2 := saveEntryInCache_inv hinv1 now2 ⟨sig2, value2⟩ entryLabels2
  have hg1 := saveEntryInCache_get? e now1 ⟨sig1, value1⟩ entryLabels1
  have hg2 := saveEntryInCache_get? (saveEntryInCache e now1 ⟨sig1, value1⟩ entryLabels1).1 now2
    ⟨sig2, value2⟩ entryLabels2
  have hg1' : (saveEntryInCache (saveEntryInCache e now1 ⟨sig1, value1⟩ entryLabels1).1 now2
      ⟨sig2, value2⟩ entryLabels2).1.mCache.get? (generateCacheKey sig1) =
      some (saveEntryInCache e now1 ⟨sig1, value1⟩ entryLabels1).2 := by
    rw [saveEntryInCache_get?_other now2 ⟨sig2, value2⟩ entryLabels2 hne]
    exact hg1
  have hk1 := (get?_some_of_inv hinv2 hg1').2.1
  have hk2 := (get?_some_of_inv hinv2 hg2).2.1
  rw [hptr] at hk2
  exact hne (hk1.symm.trans hk2)

/-- Witness of amended C22: the counter `bytes_total` with the label `srcIP`, for two source
addresses, on the cache that holds `K` and `L`. -/
theorem generateCacheKey_injective_witness :
    generateCacheKey ⟨"bytes_total", [("srcIP", "10.0.0.1")]⟩ ≠
        generateCacheKey ⟨"bytes_total", [("srcIP", "10.0.0.2")]⟩ ∧
      (saveEntryInCache (saveEntryInCache cacheKL 3
          ⟨⟨"bytes_total", [("srcIP", "10.0.0.1")]⟩, ⟨0⟩⟩ []).1 4
          ⟨⟨"bytes_total", [("srcIP", "10.0.0.2")]⟩, ⟨0⟩⟩ []).2 ≠
        (saveEntryInCache cacheKL 3 ⟨⟨"bytes_total", [("srcIP", "10.0.0.1")]⟩, ⟨0⟩⟩ []).2 :=
  generateCacheKey_injective ⟨"bytes_total", [("srcIP", "10.0.0.1")]⟩
    ⟨"bytes_total", [("srcIP", "10.0.0.2")]⟩ (by decide) (List.Perm.refl _) (by decide)
    (by decide) (by decide) (by decide) (Or.inr ⟨"srcIP", by decide⟩) cacheKL (by decide) 3 4
    ⟨0⟩ ⟨0⟩ [] []

end encode
